import Mathlib

/-!
# nscat: namespace forest and topology builder

A shallow embedding of the namespace forest of `namespace.c`, the process list of
`process.c`, the assembler `build_info` and the reports of `print_info` of `info.c`,
and `delete_spaces` of `common.c`, followed by the properties proved about them.

Conventions of the embedding.

* A `tree_t *` that points into a forest is a `Path`: the sequence of `child` /
  `sibling` links followed from the forest root.  `NULL` is `none`.
* A `process_t *` is the position of the process in the (sorted) process list.
* A `namespace_t *` stored in `process->namespace[type]` is the `nid` of the
  record it points to, the only field that is ever read through that pointer.
* The namespace record itself is stored by value in the forest node that
  references it; `build_info` references every record from exactly one node.
* `ino_t`, `uid_t` and the `unsigned int` depth are natural numbers, `pid_t` is
  an integer.
* The map readers store through pointers that can lie behind the array they were
  handed.  Such a store lands in the fields of `namespace_t` that follow the array
  (`uid_map`, `gid_map`, `nid`, `pnid` in this order; 4-byte `uid_t` and `gid_t`,
  8-byte `ino_t`, low half first), as on the LP64 Linux systems the tool is written
  for.
* `malloc` succeeds and pointer arguments that the callers always pass
  (`tree`, `ns`, `l`, `p`) are not `NULL`.
-/

namespace Nscat

/-! ## Constants (`common.h`, `namespace.h`) -/

abbrev ino_t := Nat
abbrev pid_t := Int
abbrev uid_t := Nat

def RET_OK : Int := 0
def RET_ERR_PARAM : Int := -1
def RET_ERR_NOMEM : Int := -2
def RET_ERR_NOFILE : Int := -3
def RET_ERR_NOLINK : Int := -4
def RET_ERR_NOENTRY : Int := -5

def NSCOUNT : Nat := 7
def CGROUP : Nat := 0
def IPC : Nat := 1
def MNT : Nat := 2
def NET : Nat := 3
def PID : Nat := 4
def USER : Nat := 5
def UTS : Nat := 6

def MAP_LIMIT : Nat := 5

/-! ## Data model (`namespace.h`, `process.h`) -/

/-- One row of `uid_map_t` / `gid_map_t`: `(inside, outside, length)`. -/
structure map_t where
  inside : Nat
  outside : Nat
  length : Nat
deriving DecidableEq, Repr

/-- The record `namespace_t`. `creator` and `members` hold process pointers,
that is positions in the process list. -/
structure namespace_t where
  uid_map : List map_t
  gid_map : List map_t
  nid : ino_t
  pnid : ino_t
  creator_pid : pid_t
  type : Nat
  creator : Option Nat
  members : List Nat
deriving DecidableEq, Repr

/-- The forest node `tree_t` in child/sibling encoding; `NULL` is the null pointer. -/
inductive tree_t where
  | NULL : tree_t
  | node (ns : Option namespace_t) (depth : Nat) (child sibling : tree_t) : tree_t
deriving DecidableEq, Repr

/-- One link followed from a node. -/
inductive Step where
  | child : Step
  | sibling : Step
deriving DecidableEq, Repr

/-- A node pointer: the links followed from the forest root. -/
abbrev Path := List Step

/-- The record `process_t`. `parent` is a process pointer (a position in the
process list), `nsp k` is the pointer `namespace[k]` (the nid of the record). -/
structure process_t where
  pid : pid_t
  ppid : pid_t
  uid : uid_t
  gid : uid_t
  name : String
  parent : Option Nat
  nsp : Nat → Option ino_t

/-! ## `namespace.c` -/

/-- `create_empty_namespace`: every field zero / `NULL`; the five map rows are zero.
(`type` is left unset by the source and is assigned by the caller.) -/
def create_empty_namespace : namespace_t :=
  { uid_map := List.replicate MAP_LIMIT ⟨0, 0, 0⟩
    gid_map := List.replicate MAP_LIMIT ⟨0, 0, 0⟩
    nid := 0, pnid := 0, creator_pid := 0, type := 0
    creator := none, members := [] }

/-- `is_orphaned_namespace`: `0` when `n` is not `NULL` and
(`n->pnid || n->creator_pid == 1`), `1` otherwise. -/
def is_orphaned_namespace (n : Option namespace_t) : Nat :=
  match n with
  | some n => if n.pnid ≠ 0 ∨ n.creator_pid = 1 then 0 else 1
  | none => 1

/-- `count_namespace_tree`: node, then child, then sibling. -/
def count_namespace_tree : tree_t → Nat
  | .NULL => 0
  | .node _ _ ch sib => 1 + count_namespace_tree ch + count_namespace_tree sib

/-- The test `tree->namespace && tree->namespace->nid == nid`. -/
def nid_matches (ns : Option namespace_t) (nid : ino_t) : Bool :=
  match ns with
  | some n => n.nid == nid
  | none => false

/-- `search_namespace_tree`: the node itself, else the result in the child
subtree, else the result in the sibling chain. The result is a node pointer. -/
def search_namespace_tree : tree_t → ino_t → Option Path
  | .NULL, _ => none
  | .node ns _ ch sib, nid =>
    if nid_matches ns nid then some []
    else
      match search_namespace_tree ch nid with
      | some p => some (Step.child :: p)
      | none =>
        match search_namespace_tree sib nid with
        | some p => some (Step.sibling :: p)
        | none => none

/-- The field `->namespace` of a node. -/
def tree_t.namespace : tree_t → Option namespace_t
  | .NULL => none
  | .node ns _ _ _ => ns

/-- The field `->depth` of a node. -/
def tree_t.depthOf : tree_t → Nat
  | .NULL => 0
  | .node _ d _ _ => d

/-- The field `->child` of a node. -/
def tree_t.childOf : tree_t → tree_t
  | .NULL => .NULL
  | .node _ _ ch _ => ch

/-- The field `->sibling` of a node. -/
def tree_t.siblingOf : tree_t → tree_t
  | .NULL => .NULL
  | .node _ _ _ sib => sib

/-- Dereference a node pointer: the node (with everything below it) that the
path leads to, `NULL` when a link on the way is `NULL`. -/
def subtree : tree_t → Path → tree_t
  | t, [] => t
  | t, Step.child :: p => subtree t.childOf p
  | t, Step.sibling :: p => subtree t.siblingOf p

/-- The tail of `insert_namespace_tree` (lines 188-201) seen from `p->child`:
an empty chain becomes `c`, otherwise the last sibling is linked to `c`. -/
def append_sibling : tree_t → tree_t → tree_t
  | .NULL, c => c
  | .node ns d ch sib, c => .node ns d ch (append_sibling sib c)

/-- The write through the node pointer `p`: the child chain of the node at `p`
gets `c` as last element; everything else is untouched. -/
def attach : tree_t → Path → tree_t → tree_t
  | .NULL, _, _ => .NULL
  | .node ns d ch sib, [], c => .node ns d (append_sibling ch c) sib
  | .node ns d ch sib, Step.child :: p, c => .node ns d (attach ch p c) sib
  | .node ns d ch sib, Step.sibling :: p, c => .node ns d ch (attach sib p c)

/-- The parent pointer `p` chosen by `insert_namespace_tree` (lines 181-185) in a
non-empty forest: the root for an orphan, else the search result for `ns->pnid`,
else the root. -/
def insert_parent (tree : tree_t) (ns : namespace_t) : Path :=
  if is_orphaned_namespace (some ns) ≠ 0 then []
  else
    match search_namespace_tree tree ns.pnid with
    | some p => p
    | none => []

/-- `insert_namespace_tree`: the forest after the call (the call returns `RET_OK`). -/
def insert_namespace_tree (tree : tree_t) (ns : namespace_t) : tree_t :=
  match tree with
  | .NULL => .node (some ns) 0 .NULL .NULL
  | .node _ _ _ _ =>
    let p := insert_parent tree ns
    attach tree p (.node (some ns) ((subtree tree p).depthOf + 1) .NULL .NULL)

/-- One call `print_namespace_tree(tree->namespace, tree->depth)`, tagged with
the pointer `tree` of the node it is made for. -/
structure Visit where
  node : Path
  ns : Option namespace_t
  depth : Nat
deriving DecidableEq, Repr

/-- Re-root a visit recorded in the subtree reached by step `s`. -/
def Visit.under (s : Step) (v : Visit) : Visit :=
  { v with node := s :: v.node }

/-- `print_parented_namespaces`: the sequence of `print_namespace_tree` calls. -/
def print_parented_namespaces : tree_t → List Visit
  | .NULL => []
  | .node ns d ch sib =>
    (match ns with
      | some n => if is_orphaned_namespace (some n) = 0 then [⟨[], some n, d⟩] else []
      | none => [])
    ++ (print_parented_namespaces ch).map (Visit.under Step.child)
    ++ (print_parented_namespaces sib).map (Visit.under Step.sibling)

/-- `print_orphaned_namespaces`: the sequence of `print_namespace_tree` calls.
The `else` of the source belongs to the innermost `if`, so a node without a
namespace ends the traversal of its subtree and of its sibling chain. -/
def print_orphaned_namespaces : tree_t → List Visit
  | .NULL => []
  | .node ns d ch sib =>
    match ns with
    | none => []
    | some n =>
      if is_orphaned_namespace (some n) ≠ 0 then
        [⟨[], some n, d⟩]
        ++ (if d = 0 then (print_orphaned_namespaces ch).map (Visit.under Step.child)
            else (print_parented_namespaces ch).map (Visit.under Step.child))
        ++ (print_orphaned_namespaces sib).map (Visit.under Step.sibling)
      else
        (print_orphaned_namespaces ch).map (Visit.under Step.child)
        ++ (print_orphaned_namespaces sib).map (Visit.under Step.sibling)

/-! ## The map readers of `namespace.c` -/

/-- The three fields of a map row. -/
inductive map_field where
  | inside : map_field
  | outside : map_field
  | length : map_field
deriving DecidableEq, Repr

/-- The memory a map reader writes to: the rows of the array it was handed, and
the writes that land behind the last row of the array, as (row index, field,
value) in the order they are made. A field is 4 bytes wide (`uid_t`, `gid_t`). -/
structure map_memory where
  rows : List map_t
  behind : List (Nat × map_field × Nat)
deriving DecidableEq, Repr

/-- The assignment of one field of a row. -/
def set_field (f : map_field) (v : Nat) (r : map_t) : map_t :=
  match f with
  | .inside => { r with inside := v }
  | .outside => { r with outside := v }
  | .length => { r with length := v }

/-- Write to the row with index `j` of an array. -/
def update_row (g : map_t → map_t) : Nat → List map_t → List map_t
  | _, [] => []
  | 0, r :: l => g r :: l
  | j + 1, r :: l => r :: update_row g j l

/-- The store of the 4 bytes `v` at the address `&(map[j].f)`. -/
def store_field (m : map_memory) (j : Nat) (f : map_field) (v : Nat) : map_memory :=
  if j < m.rows.length then { m with rows := update_row (set_field f v) j m.rows }
  else { m with behind := m.behind ++ [(j, f, v)] }

/-- The field that lies behind the field `f` of the row `j` in memory. -/
def next_field (j : Nat) (f : map_field) : Nat × map_field :=
  match f with
  | .inside => (j, .outside)
  | .outside => (j, .length)
  | .length => (j + 1, .inside)

/-- The store that `fscanf` makes for one conversion through the pointer
`&(map[j].f)`. The conversion `%ld` of `get_proc_uid_map` (`wide`) stores a `long`,
8 bytes: the low 32 bits go to the field and the high 32 bits to the 4 bytes behind
it. The conversion `%d` of `get_proc_gid_map` stores 4 bytes. -/
def store_value (wide : Bool) (m : map_memory) (j : Nat) (f : map_field) (v : Nat) :
    map_memory :=
  if wide then
    store_field (store_field m j f (v % 2 ^ 32)) (next_field j f).1 (next_field j f).2
      (v / 2 ^ 32 % 2 ^ 32)
  else store_field m j f (v % 2 ^ 32)

/-- One call `fscanf(fd, "%ld%ld%ld\n", &(map[i++].inside), &(map[i++].outside),
&(map[i++].length))` that reads the row `(a, b, c)`: each of the three argument
expressions increments `i`. C does not fix the order in which the three are
evaluated; `ltr` is left-to-right, otherwise right-to-left. The three values are
stored in the order of the conversions. -/
def fscanf_row (wide ltr : Bool) (m : map_memory) (i : Nat) (row : Nat × Nat × Nat) :
    map_memory :=
  if ltr then
    store_value wide (store_value wide (store_value wide m i .inside row.1)
      (i + 1) .outside row.2.1) (i + 2) .length row.2.2
  else
    store_value wide (store_value wide (store_value wide m (i + 2) .inside row.1)
      (i + 1) .outside row.2.1) i .length row.2.2

/-- Lines 596-603: a call of `fscanf` at index `i` and, while it did not return
`EOF` and `i < MAP_LIMIT`, the next call. `rows` is what is left of the file; at
its end `fscanf` returns `EOF` and stores nothing. -/
def read_rows (wide ltr : Bool) : List (Nat × Nat × Nat) → Nat → map_memory → map_memory
  | [], _, m => m
  | row :: rest, i, m =>
    if i + 3 < MAP_LIMIT then read_rows wide ltr rest (i + 3) (fscanf_row wide ltr m i row)
    else fscanf_row wide ltr m i row

/-- `get_proc_uid_map`: `RET_ERR_NOFILE` when the file cannot be opened (`file` is
`none`), else `RET_OK` and the memory after the reads with `%ld`, started at `i = 0`. -/
def get_proc_uid_map (ltr : Bool) (file : Option (List (Nat × Nat × Nat)))
    (uid_map : List map_t) : Except Int map_memory :=
  match file with
  | none => .error RET_ERR_NOFILE
  | some rows => .ok (read_rows true ltr rows 0 ⟨uid_map, []⟩)

/-- `get_proc_gid_map`: the same reads into the gid map, with `%d`. -/
def get_proc_gid_map (ltr : Bool) (file : Option (List (Nat × Nat × Nat)))
    (gid_map : List map_t) : Except Int map_memory :=
  match file with
  | none => .error RET_ERR_NOFILE
  | some rows => .ok (read_rows false ltr rows 0 ⟨gid_map, []⟩)

/-! ## Reference notions used to state the properties -/

/-- Every node reachable from `t`, in pre-order (node, child subtree, sibling
chain), with its namespace and stored depth. -/
def preorder : tree_t → List Visit
  | .NULL => []
  | .node ns d ch sib =>
    ⟨[], ns, d⟩ :: ((preorder ch).map (Visit.under Step.child)
      ++ (preorder sib).map (Visit.under Step.sibling))

/-- The forest obtained from the empty forest by inserting `l` in order. -/
def forest_of (l : List namespace_t) : tree_t :=
  l.foldl insert_namespace_tree .NULL

/-- The sibling chain that starts at `t`: namespace and depth of each node. -/
def chain : tree_t → List (Option namespace_t × Nat)
  | .NULL => []
  | .node ns d _ sib => (ns, d) :: chain sib

/-- The child list of the node at `p`: namespace and depth of its children, in order. -/
def child_list (t : tree_t) (p : Path) : List (Option namespace_t × Nat) :=
  chain (subtree t p).childOf

/-- Test data: a namespace with the given `nid`, `pnid` and `creator_pid`. -/
def mkns (nid pnid : ino_t) (creator_pid : pid_t) : namespace_t :=
  { create_empty_namespace with nid := nid, pnid := pnid, creator_pid := creator_pid }

/-- The pointer of the node that `attach t p c` links in: below `p`, after the
children that the node at `p` already has. -/
def new_path (t : tree_t) (p : Path) : Path :=
  p ++ Step.child :: List.replicate (child_list t p).length Step.sibling

/-- The insertion parent in the words of the specification: the root for an orphan
(`pnid == 0` and `creator_pid != 1`), else the first node in pre-order whose nid
is `ns.pnid`, else the root. -/
def spec_parent (t : tree_t) (ns : namespace_t) : Path :=
  if ns.pnid = 0 ∧ ns.creator_pid ≠ 1 then []
  else
    match (preorder t).find? (fun v => nid_matches v.ns ns.pnid) with
    | some v => v.node
    | none => []

/-- Every node reachable from `t` has a namespace and none is an orphan. -/
def no_orphan : tree_t → Prop
  | .NULL => True
  | .node ns _ ch sib =>
    (∃ n, ns = some n ∧ is_orphaned_namespace (some n) = 0) ∧ no_orphan ch ∧ no_orphan sib

/-- A sibling chain below the root: every node of the chain has a namespace and a
non-zero depth, and no orphan lies below a node of the chain. -/
def level1 : tree_t → Prop
  | .NULL => True
  | .node ns d ch sib => (∃ n, ns = some n) ∧ d ≠ 0 ∧ no_orphan ch ∧ level1 sib

/-- The shape of a forest built by insertion: one root of depth 0 without sibling,
orphans only as the root or in the child chain of the root. -/
def forest_shape : tree_t → Prop
  | .NULL => True
  | .node ns d ch sib => (∃ n, ns = some n) ∧ d = 0 ∧ sib = .NULL ∧ level1 ch

/-- The node of a visit is classified orphaned (`is_orphaned_namespace` is not 0). -/
def Visit.orphaned (v : Visit) : Bool :=
  is_orphaned_namespace v.ns != 0

/-! ## `process.c` -/

/-- `create_empty_process`: every field zero / `NULL`. -/
def create_empty_process : process_t :=
  { pid := 0, ppid := 0, uid := 0, gid := 0, name := "", parent := none, nsp := fun _ => none }

/-- `insert_process_list`: walk to the last cell and link the new cell there
(the list becomes the one new cell when it was empty). Used for the registry
(cells hold processes) and for member lists (cells hold process pointers). -/
def insert_process_list {α : Type} : List α → α → List α
  | [], p => [p]
  | c :: l, p => c :: insert_process_list l p

/-- `count_process_list`. -/
def count_process_list {α : Type} (l : List α) : Nat :=
  l.length

/-- `search_process_list`: pointer to the first process whose pid is `pid`. -/
def search_process_list : List process_t → pid_t → Option Nat
  | [], _ => none
  | c :: l, pid =>
    if c.pid = pid then some 0
    else
      match search_process_list l pid with
      | some j => some (j + 1)
      | none => none

/-- The inner part of `sort_process_list` (lines 195-209): link cell `c` into the
sorted list `h`, before the first cell whose pid is greater than `c`'s. -/
def sort_link (c : process_t) : List process_t → List process_t
  | [] => [c]
  | h :: t => if c.pid < h.pid then c :: h :: t else h :: sort_link c t

/-- `sort_process_list`: an empty or one-cell list is left alone, otherwise the
cells are taken from the front one by one and linked into a new sorted list. -/
def sort_process_list (l : List process_t) : List process_t :=
  match l with
  | [] => []
  | [a] => [a]
  | _ => l.foldl (fun h c => sort_link c h) []

/-! ## `info.c` -/

/-- The record `callargs_t`. -/
structure callargs_t where
  ns : ino_t
  pid : pid_t
  flags : Nat
  wanted : Nat → Nat
  proc_mnt : String

/-- The record `info_t`; `forest k` is the pointer `info->namespace[k]`. -/
structure info_t where
  process : List process_t
  forest : Nat → tree_t
  args : Option callargs_t

/-- What a run of `build_info` depends on besides the state it starts in. For the
process directory of a pid (the path `proc_mnt/pid` that `build_info` builds):
`get_proc_namespace` gives the inode of `ns/<type>` or fails (any status other
than `RET_OK`); `uid_map` and `gid_map` are the rows of the files of these names,
`none` when the file cannot be opened. `ltr` tells in which order the compiled
program evaluates the arguments of a call, left to right or right to left. -/
structure procfs where
  get_proc_namespace : pid_t → Nat → Option ino_t
  uid_map : pid_t → Option (List (Nat × Nat × Nat))
  gid_map : pid_t → Option (List (Nat × Nat × Nat))
  ltr : Bool

/-- Dereference a process pointer. -/
def process_at (l : List process_t) (i : Nat) : process_t :=
  l.getD i create_empty_process

/-- Write through a process pointer. -/
def update_process (f : process_t → process_t) : Nat → List process_t → List process_t
  | _, [] => []
  | 0, p :: l => f p :: l
  | i + 1, p :: l => p :: update_process f i l

/-- The assignment `l->process->namespace[type] = v`. -/
def set_nsp (type : Nat) (v : Option ino_t) (p : process_t) : process_t :=
  { p with nsp := fun t => if t = type then v else p.nsp t }

/-- Write through the pointer `ns_tree->namespace` of the node at `p`. -/
def update_namespace (f : namespace_t → namespace_t) : tree_t → Path → tree_t
  | .NULL, _ => .NULL
  | .node ns d ch sib, [] => .node (ns.map f) d ch sib
  | .node ns d ch sib, Step.child :: p => .node ns d (update_namespace f ch p) sib
  | .node ns d ch sib, Step.sibling :: p => .node ns d ch (update_namespace f sib p)

/-- The assignment `info->namespace[type] = t`. -/
def set_forest (type : Nat) (t : tree_t) (forest : Nat → tree_t) : Nat → tree_t :=
  fun k => if k = type then t else forest k

/-- The call `insert_process_list(&(ns->members), l->process)` on a record. -/
def add_member (i : Nat) (ns : namespace_t) : namespace_t :=
  { ns with members := insert_process_list ns.members i }

/-- Where a store behind the array `ns->uid_map` lands: in `namespace_t` the array
`gid_map` follows `uid_map`, so row `j` of the one is row `j - MAP_LIMIT` of the
other. -/
def behind_uid_map (ns : namespace_t) (w : Nat × map_field × Nat) : namespace_t :=
  { ns with gid_map := update_row (set_field w.2.1 w.2.2) (w.1 - MAP_LIMIT) ns.gid_map }

/-- Where a store behind the array `ns->gid_map` lands: in `namespace_t` the fields
`nid` and `pnid` follow `gid_map`, 8 bytes each with the low 32 bits first, so the
three fields of the row `MAP_LIMIT` are the low and the high half of `nid` and the
low half of `pnid`, and the next field is the high half of `pnid`. The readers make
no store further behind. -/
def behind_gid_map (ns : namespace_t) (w : Nat × map_field × Nat) : namespace_t :=
  match w with
  | (5, .inside, v) => { ns with nid := ns.nid / 2 ^ 32 * 2 ^ 32 + v }
  | (5, .outside, v) => { ns with nid := v * 2 ^ 32 + ns.nid % 2 ^ 32 }
  | (5, .length, v) => { ns with pnid := ns.pnid / 2 ^ 32 * 2 ^ 32 + v }
  | (6, .inside, v) => { ns with pnid := v * 2 ^ 32 + ns.pnid % 2 ^ 32 }
  | _ => ns

/-- Lines 205-217 of `build_info`: a USER namespace gets its maps read by
`get_proc_uid_map(path, ns->uid_map)` and `get_proc_gid_map(path, ns->gid_map)`;
the stores of a reader behind its array change the fields of the record that lie
there. A failed read ends `build_info` with the status of the read. -/
def read_maps (fs : procfs) (pid : pid_t) (type : Nat) (ns : namespace_t) :
    Except Int namespace_t :=
  if type = USER then
    match get_proc_uid_map fs.ltr (fs.uid_map pid) ns.uid_map with
    | .error status => .error status
    | .ok um =>
      let ns := um.behind.foldl behind_uid_map { ns with uid_map := um.rows }
      match get_proc_gid_map fs.ltr (fs.gid_map pid) ns.gid_map with
      | .error status => .error status
      | .ok gm => .ok (gm.behind.foldl behind_gid_map { ns with gid_map := gm.rows })
  else .ok ns

/-- No `gid_map` file has more than one row: `get_proc_gid_map` then stays inside the
array `ns->gid_map`. -/
def clean (fs : procfs) : Prop :=
  ∀ pid rows, fs.gid_map pid = some rows → rows.length ≤ 1

/-- The map readers leave the ids of the records of the kind `k` alone: only records
of the kind USER have their maps read. -/
def intact (fs : procfs) (k : Nat) : Prop :=
  k = USER → clean fs

/-- Lines 218-226 of `build_info`: the parent id of a new namespace, read through
the parent pointer `p` of the current process. -/
def parent_nid (process : List process_t) (p : Option Nat) (type : Nat) (pnid : ino_t) : ino_t :=
  match p with
  | some j =>
    match (process_at process j).nsp type with
    | some m => m
    | none => pnid
  | none => 0

/-- The body of the loop over the namespace types in `build_info` (lines 181-243)
for the process pointer `i` whose parent pointer is `p`. -/
def build_namespace (fs : procfs) (i : Nat) (p : Option Nat) (type : Nat) (info : info_t) :
    Except Int info_t :=
  match fs.get_proc_namespace (process_at info.process i).pid type with
  | none => .ok { info with process := update_process (set_nsp type none) i info.process }
  | some nid =>
    match search_namespace_tree (info.forest type) nid with
    | some ns_tree =>
      .ok { info with
            process := update_process
              (set_nsp type ((subtree (info.forest type) ns_tree).namespace.map (·.nid)))
              i info.process
            forest := set_forest type
              (update_namespace (add_member i) (info.forest type) ns_tree)
              info.forest }
    | none =>
      match read_maps fs (process_at info.process i).pid type
          { create_empty_namespace with nid := nid, type := type } with
      | .error status => .error status
      | .ok ns =>
        let ns := { ns with
                    creator := some i
                    creator_pid := (process_at info.process i).pid
                    pnid := parent_nid info.process p type ns.pnid }
        let ns := { ns with members := insert_process_list ns.members i }
        .ok { info with
              process := update_process (set_nsp type (some ns.nid)) i info.process
              forest := set_forest type (insert_namespace_tree (info.forest type) ns)
                info.forest }

/-- A `for` loop whose body may return early with an error status. -/
def for_loop {σ : Type} (body : Nat → σ → Except Int σ) : List Nat → σ → Except Int σ
  | [], s => .ok s
  | x :: xs, s =>
    match body x s with
    | .error status => .error status
    | .ok s' => for_loop body xs s'

/-- The body of the loop over the process list in `build_info` (lines 165-245). -/
def build_process (fs : procfs) (i : Nat) (info : info_t) : Except Int info_t :=
  let p := search_process_list info.process (process_at info.process i).ppid
  let info := { info with
                process := update_process (fun q => { q with parent := p }) i info.process }
  for_loop (build_namespace fs i p) (List.range NSCOUNT) info

/-- `build_info`: the state after the call, or the error status returned. The
argument is the global pointer `info`. -/
def build_info (fs : procfs) (info : Option info_t) : Except Int info_t :=
  match info with
  | none => .error RET_ERR_PARAM
  | some info =>
    if info.args.isNone || info.process.isEmpty then .error RET_ERR_PARAM
    else
      let info := { info with process := sort_process_list info.process }
      for_loop (build_process fs) (List.range info.process.length) info

/-- The state in which `main` calls `build_info`: no forest yet, and processes as
`handle_proc_entry` stores them, without parent and namespace links. -/
def initial (info : info_t) : Prop :=
  (∀ k, info.forest k = .NULL) ∧ ∀ q ∈ info.process, q.parent = none ∧ ∀ k, q.nsp k = none

/-- Test data: a process as `handle_proc_entry` stores it. -/
def mkproc (pid ppid : pid_t) (name : String) : process_t :=
  { create_empty_process with pid := pid, ppid := ppid, name := name }

/-- Test data: the state before `build_info` for a list of processes. -/
def mkinfo (l : List process_t) : info_t :=
  { process := l, forest := fun _ => .NULL,
    args := some { ns := 0, pid := 0, flags := 0, wanted := fun _ => 0, proc_mnt := "/proc/" } }

/-- The visit of a node after the write `update_namespace f _ p`. -/
def Visit.update (f : namespace_t → namespace_t) (p : Path) (v : Visit) : Visit :=
  if v.node = p then { v with ns := v.ns.map f } else v

/-- The parent id that `build_info` stores in the namespace of kind `k` created
for the process at position `c` of the sorted list `S`: the kind-`k` id of the
parent process when the parent is in the list and was processed before `c`
(only then does the parent have a namespace link), and 0 otherwise. -/
def expected_pnid (fs : procfs) (S : List process_t) (k c : Nat) : ino_t :=
  match search_process_list S (process_at S c).ppid with
  | some j => if j < c then (fs.get_proc_namespace (process_at S j).pid k).getD 0 else 0
  | none => 0

/-- The positions below `i` whose process resolves kind `k` to `nid`. -/
def resolved_to (fs : procfs) (S : List process_t) (k : Nat) (nid : ino_t) (i : Nat) : List Nat :=
  (List.range i).filter (fun a => fs.get_proc_namespace (process_at S a).pid k == some nid)

/-- `v` is a child of `u`: it lies in the child chain of `u`, one level deeper. -/
def Visit.child_of (v u : Visit) : Prop :=
  (∃ c, v.node = u.node ++ Step.child :: List.replicate c Step.sibling)
    ∧ v.depth = u.depth + 1

/-- The state of kind `k` in `build_info` when the processes at the positions
below `i` of the sorted list `S` have been handled for this kind: `t` is the
forest of the kind and `slot a` the link `namespace[k]` of the process at `a`. -/
structure kind_inv (fs : procfs) (S : List process_t) (k i : Nat) (t : tree_t)
    (slot : Nat → Option ino_t) : Prop where
  slot_done : ∀ a, a < i → slot a = fs.get_proc_namespace (process_at S a).pid k
  slot_todo : ∀ a, i ≤ a → slot a = none
  records : ∀ v ∈ preorder t, ∃ ns, v.ns = some ns ∧ ns.type = k
    ∧ ns.members = resolved_to fs S k ns.nid i
    ∧ ∃ c, ns.members.head? = some c ∧ ns.creator = some c
      ∧ ns.creator_pid = (process_at S c).pid ∧ ns.pnid = expected_pnid fs S k c
  unique : ((preorder t).map (fun v => v.ns.map (·.nid))).Nodup
  present : ∀ a, a < i → ∀ m, fs.get_proc_namespace (process_at S a).pid k = some m →
    ∃ v ∈ preorder t, nid_matches v.ns m = true
  placed : ∀ v ∈ preorder t, ∀ ns, v.ns = some ns → ns.pnid ≠ 0 →
    ∃ u ∈ preorder t, nid_matches u.ns ns.pnid = true ∧ v.child_of u

/-- The links `namespace[k]` of the processes of the list, by position. -/
def slots (info : info_t) (k : Nat) : Nat → Option ino_t :=
  fun a => (process_at info.process a).nsp k

/-- The process list holds the processes of `S` in the same order, with the same
`pid` and `ppid`. -/
def same_facts (S : List process_t) (info : info_t) : Prop :=
  info.process.map (·.pid) = S.map (·.pid) ∧ info.process.map (·.ppid) = S.map (·.ppid)

/-- The state of `build_info` when the processes at the positions below `i` have
been handled. -/
def build_inv (fs : procfs) (S : List process_t) (i : Nat) (info : info_t) : Prop :=
  same_facts S info
  ∧ (∀ k, k < NSCOUNT → intact fs k → kind_inv fs S k i (info.forest k) (slots info k))
  ∧ (∀ k, NSCOUNT ≤ k → info.forest k = .NULL)

/-- Test data: five processes in the order of discovery; pid 2 is a child of pid 1,
pid 3 a child of pid 2, and the parent 49 of pid 50 is not in the list. -/
def demo_registry : List process_t :=
  [mkproc 3 2 "c", mkproc 1 0 "init", mkproc 50 49 "orphanproc", mkproc 2 1 "child",
   mkproc 4 1 "d"]

/-- Test data: the pids 1, 2 and 4 are in PID namespace 100, pid 3 in 200 and pid 50
in 300; pid 50 is in NET namespace 7 and the others in 5; no other type resolves. -/
def demo_fs : procfs :=
  { get_proc_namespace := fun pid type =>
      if type = PID then
        (if pid = 3 then some 200 else if pid = 50 then some 300 else some 100)
      else if type = NET then (if pid = 50 then some 7 else some 5)
      else none
    uid_map := fun _ => some [(0, 0, 4294967295)]
    gid_map := fun _ => some [(0, 0, 4294967295)]
    ltr := false }

/-- Test data: the state that `build_info` leaves for the test registry. -/
def demo_final : info_t :=
  match build_info demo_fs (some (mkinfo demo_registry)) with
  | .ok info => info
  | .error _ => mkinfo demo_registry

/-- Apply `g` to the namespace record of every node. -/
def map_namespaces (g : namespace_t → namespace_t) : tree_t → tree_t
  | .NULL => .NULL
  | .node ns d ch sib => .node (ns.map g) d (map_namespaces g ch) (map_namespaces g sib)

/-- The record change made by `add_member i` on the records with id `nid`. -/
def add_member_to (nid : ino_t) (i : Nat) (ns : namespace_t) : namespace_t :=
  if ns.nid = nid then add_member i ns else ns

/-- `g` changes neither the ids nor the creator pid of a record. -/
def keeps_ids (g : namespace_t → namespace_t) : Prop :=
  ∀ ns, (g ns).nid = ns.nid ∧ (g ns).pnid = ns.pnid ∧ (g ns).creator_pid = ns.creator_pid

/-- Test data: two processes whose parent 49 is not in the list, in the NET
namespaces 7 and 8; no other type resolves. -/
def demo_orphans : List process_t :=
  [mkproc 50 49 "a", mkproc 60 49 "b"]

/-- Test data: the resolver for `demo_orphans`. -/
def demo_orphans_fs : procfs :=
  { get_proc_namespace := fun pid type =>
      if type = NET then (if pid = 50 then some 7 else some 8) else none
    uid_map := fun _ => some [(0, 0, 4294967295)]
    gid_map := fun _ => some [(0, 0, 4294967295)]
    ltr := false }

/-- Test data: the state that `build_info` leaves for `demo_orphans`. -/
def demo_orphans_final : info_t :=
  match build_info demo_orphans_fs (some (mkinfo demo_orphans)) with
  | .ok info => info
  | .error _ => mkinfo demo_orphans

/-- `v` lies below `u`: in the subtree that hangs off the child link of `u`. -/
def Visit.below (v u : Visit) : Prop :=
  ∃ r, v.node = u.node ++ Step.child :: r

/-- The orphaned sequence in the words of the specification: walk the forest in
pre-order (node, child subtree, sibling chain) and emit every orphaned node,
immediately followed by the parented traversal of its own child subtree. -/
def orphaned_reference : tree_t → List Visit
  | .NULL => []
  | .node ns d ch sib =>
    (match ns with
      | some n =>
        if is_orphaned_namespace (some n) ≠ 0 then
          ⟨[], some n, d⟩ :: (print_parented_namespaces ch).map (Visit.under Step.child)
        else []
      | none => [])
    ++ (orphaned_reference ch).map (Visit.under Step.child)
    ++ (orphaned_reference sib).map (Visit.under Step.sibling)

/-- The visit of the root when the root is classified orphaned, nothing otherwise. -/
def orphaned_root (t : tree_t) : List Visit :=
  match t with
  | .node (some n) d _ _ => if is_orphaned_namespace (some n) ≠ 0 then [⟨[], some n, d⟩] else []
  | _ => []

/-- `insert_process_list` with its return value (lines 111-131): `RET_ERR_PARAM` and
no change when `l` or `p` is `NULL`; otherwise the cell is linked at the end and
the call returns `RET_OK`. No other test is made. -/
def insert_process_list_call {α : Type} (l : Option (List α)) (p : Option α) :
    Except Int (List α) :=
  match l, p with
  | some l, some p => .ok (insert_process_list l p)
  | _, _ => .error RET_ERR_PARAM

/-- The loop of `print_info` (lines 75-78) that looks a namespace id up: `nt` is
`NULL` at the start; each type with a forest is searched and the loop is left at
the first hit. The result is `nt` together with the type it was found under. -/
def lookup_loop (forest : Nat → tree_t) (ns : ino_t) : List Nat → Option (Nat × Path)
  | [] => none
  | type :: types =>
    match forest type with
    | .NULL => lookup_loop forest ns types
    | .node n d ch sib =>
      match search_namespace_tree (.node n d ch sib) ns with
      | some nt => some (type, nt)
      | none => lookup_loop forest ns types

/-- The branch of `print_info` for a requested namespace id (lines 74-85): the
error message, or the node whose record `print_namespace_info` prints. -/
def print_info_lookup (forest : Nat → tree_t) (ns : ino_t) : Except String (Nat × Path) :=
  match lookup_loop forest ns (List.range NSCOUNT) with
  | none => .error "No such namespace"
  | some r => .ok r

/-- The process at position `i` of `S` is the first that resolves kind `k` to its
id: for a kind whose ids the map readers leave alone, `build_info` creates the record
of that namespace for it. -/
def discovers (fs : procfs) (S : List process_t) (k i : Nat) : Prop :=
  ∃ nid, fs.get_proc_namespace (process_at S i).pid k = some nid
    ∧ ∀ a, a < i → fs.get_proc_namespace (process_at S a).pid k ≠ some nid

/-- Both map reads for a new USER namespace of the process `pid` return `RET_OK`:
the two files can be opened. -/
def maps_ok (fs : procfs) (pid : pid_t) : Prop :=
  fs.uid_map pid ≠ none ∧ fs.gid_map pid ≠ none

/-- The state inside the loop over the types for the process at position `i`, when
the types below `t` have been handled. -/
def types_inv (fs : procfs) (S : List process_t) (i t : Nat) (x : info_t) : Prop :=
  same_facts S x
  ∧ (∀ k, k < t → intact fs k → kind_inv fs S k (i + 1) (x.forest k) (slots x k))
  ∧ (∀ k, t ≤ k → k < NSCOUNT → intact fs k →
      kind_inv fs S k i (x.forest k) (slots x k))
  ∧ (∀ k, NSCOUNT ≤ k → x.forest k = .NULL)

/-- Test data: one process in a USER namespace whose `uid_map` cannot be opened. -/
def demo_nomap_fs : procfs :=
  { get_proc_namespace := fun _ type => if type = USER then some 9 else none
    uid_map := fun _ => none
    gid_map := fun _ => some [(0, 0, 4294967295)]
    ltr := false }

/-! ## `common.c` -/

/-- `isspace` in the C locale: the space and the characters `\t \n \v \f \r`. -/
def isspace (c : Nat) : Bool :=
  c == 32 || (9 ≤ c && c ≤ 13)

/-- The loop of `delete_spaces` (lines 92-96) at the read index `s` and the write
index `d`, and the final store `(*src)[d] = 0` (line 97). `buf` is the memory that
`*src` points to, one number per character. A read behind the buffer has no result;
`fuel` is the number of characters from `s` to the end of the buffer. -/
def delete_spaces_loop : Nat → List Nat → Nat → Nat → Option (List Nat)
  | 0, _, _, _ => none
  | fuel + 1, buf, s, d =>
    match buf.get? s with
    | none => none
    | some c =>
      if c = 0 then some (buf.set d 0)
      else if !isspace c then delete_spaces_loop fuel (buf.set d c) (s + 1) (d + 1)
      else delete_spaces_loop fuel buf (s + 1) d

/-- `delete_spaces` for a string pointer that is not `NULL`: the buffer after the call. -/
def delete_spaces (buf : List Nat) : Option (List Nat) :=
  delete_spaces_loop buf.length buf 0 0

/-- The string that a buffer holds: the characters before the first NUL. -/
def c_string (buf : List Nat) : List Nat :=
  buf.takeWhile (fun c => c != 0)

/-- What the comment of `delete_spaces` announces, "delete trailing spaces": the
string without the whitespace characters at its end. -/
def trailing_spaces_deleted (s : List Nat) : List Nat :=
  (s.reverse.dropWhile isspace).reverse

/-! ## The descendants report of `print_info` (`info.c`, `info.h`) -/

def FLAG_PROCESS : Nat := 0x00000001
def FLAG_DESCS : Nat := 0x00000010
def FLAG_NSWANT : Nat := 0x00000100
def FLAG_EXTEND : Nat := 0x00001000

/-- A visit recorded by a traversal that was started at the node `nt`, with the
pointer of its node taken from the forest root. -/
def Visit.rooted (nt : Path) (v : Visit) : Visit :=
  { v with node := nt ++ v.node }

/-- The body of the loop over the types in the descendants branch of `print_info`
(lines 95-109) for the process pointer `p`: `none` when the type is skipped
(`continue`), otherwise the calls of `print_namespace_tree` made by
`print_parented_namespaces(nt)` followed by `print_orphaned_namespaces(nt)`. -/
def print_info_descendants (info : info_t) (args : callargs_t) (p : Nat) (type : Nat) :
    Option (List Visit) :=
  if args.flags &&& FLAG_NSWANT ≠ 0 ∧ args.wanted type = 0 then none
  else
    match info.forest type, (process_at info.process p).nsp type with
    | .NULL, _ => none
    | _, none => none
    | .node ns d ch sib, some nid =>
      match search_namespace_tree (.node ns d ch sib) nid with
      | none => none
      | some nt =>
        some ((print_parented_namespaces (subtree (.node ns d ch sib) nt)
          ++ print_orphaned_namespaces (subtree (.node ns d ch sib) nt)).map (Visit.rooted nt))

/-- Test data: the arguments of the call `nscat --pid 3 --descendants`. -/
def demo_args : callargs_t :=
  { ns := 0, pid := 3, flags := FLAG_DESCS, wanted := fun _ => 0, proc_mnt := "/proc/" }

/-! ## Test data for the USER kind -/

/-- Test data: two processes in one USER namespace. -/
def demo_user : List process_t :=
  [mkproc 10 1 "a", mkproc 11 1 "b"]

/-- Test data: both processes resolve the kind USER to 9 and no other kind; every
`uid_map` and `gid_map` file holds the rows `(0,1000,1)` and `(1,1001,99999)`; the
arguments of a call are evaluated from right to left. -/
def demo_user_fs : procfs :=
  { get_proc_namespace := fun _ type => if type = USER then some 9 else none
    uid_map := fun _ => some [(0, 1000, 1), (1, 1001, 99999)]
    gid_map := fun _ => some [(0, 1000, 1), (1, 1001, 99999)]
    ltr := false }

/-- Test data: the state that `build_info` leaves for `demo_user`. -/
def demo_user_final : info_t :=
  match build_info demo_user_fs (some (mkinfo demo_user)) with
  | .ok info => info
  | .error _ => mkinfo demo_user

/-- Test data: a chain of three processes, each the parent of the next. -/
def demo_chain : List process_t :=
  [mkproc 1 0 "init", mkproc 2 1 "q", mkproc 3 2 "p"]

/-- Test data: the pids 1, 2 and 3 resolve the kind USER to 5, 9 and 10 and no other
kind; every `uid_map` and `gid_map` file holds the rows `(0,1000,1)` and
`(1,1001,99999)`; the arguments of a call are evaluated from right to left. -/
def demo_chain_fs : procfs :=
  { get_proc_namespace := fun pid type =>
      if type = USER then (if pid = 1 then some 5 else if pid = 2 then some 9 else some 10)
      else none
    uid_map := fun _ => some [(0, 1000, 1), (1, 1001, 99999)]
    gid_map := fun _ => some [(0, 1000, 1), (1, 1001, 99999)]
    ltr := false }

/-- Test data: the state that `build_info` leaves for `demo_chain`. -/
def demo_chain_final : info_t :=
  match build_info demo_chain_fs (some (mkinfo demo_chain)) with
  | .ok info => info
  | .error _ => mkinfo demo_chain

/-- The facts of a visit that the claims about `build_info` speak of: the node, the
ids `nid` and `pnid`, `creator_pid` and the members of its record, and the depth. -/
def Visit.facts (v : Visit) : Path × Option (ino_t × ino_t × pid_t × List Nat) × Nat :=
  (v.node, v.ns.map (fun n => (n.nid, n.pnid, n.creator_pid, n.members)), v.depth)

/-! ## Reference notions for the sibling order -/

/-- The record of the node `a` of a child list was created for a process that stands
before the one that the record of the node `b` was created for. -/
def created_before (a b : Option namespace_t × Nat) : Prop :=
  ∃ n m c d, a.1 = some n ∧ b.1 = some m ∧ n.creator = some c ∧ m.creator = some d ∧ c < d

/-- Every child list of the forest is in the order of creation. -/
def sibling_order (t : tree_t) : Prop :=
  ∀ p, (child_list t p).Pairwise created_before

/-- What holds of every record of the kind `k` when the processes at the positions
below `i` of the sorted list `S` have been handled: its members are positions below
`i` in ascending order, the first of them is the creator, and `creator_pid` is the
pid of that process. -/
def record_inv (S : List process_t) (k i : Nat) (ns : namespace_t) : Prop :=
  ns.type = k ∧ ns.members.Pairwise (· < ·) ∧ (∀ a ∈ ns.members, a < i)
    ∧ ∃ c, ns.members.head? = some c ∧ ns.creator = some c
      ∧ ns.creator_pid = (process_at S c).pid

/-! ## Properties -/

/-! ### Pointers, pre-order and the forest -/

@[simp] theorem subtree_NULL (p : Path) : subtree .NULL p = .NULL := by
  induction p with
  | nil => rfl
  | cons s p ih => cases s <;> simpa [subtree, tree_t.childOf, tree_t.siblingOf] using ih

theorem subtree_append (t : tree_t) (p q : Path) :
    subtree t (p ++ q) = subtree (subtree t p) q := by
  induction p generalizing t with
  | nil => rfl
  | cons s p ih => cases s <;> simp [subtree, ih]

theorem subtree_child (t : tree_t) (p : Path) :
    subtree t (p ++ [Step.child]) = (subtree t p).childOf := by
  rw [subtree_append]; rfl

theorem subtree_sibling (t : tree_t) (p : Path) :
    subtree t (p ++ [Step.sibling]) = (subtree t p).siblingOf := by
  rw [subtree_append]; rfl

theorem mem_preorder (t : tree_t) (v : Visit) :
    v ∈ preorder t ↔
      (subtree t v.node ≠ .NULL ∧ (subtree t v.node).namespace = v.ns
        ∧ (subtree t v.node).depthOf = v.depth) := by
  induction t generalizing v with
  | NULL => simp [preorder]
  | node ns d ch sib ihc ihs =>
    obtain ⟨p, vns, vd⟩ := v
    simp only [preorder, List.mem_cons, List.mem_append, List.mem_map]
    cases p with
    | nil =>
      simp [subtree, tree_t.namespace, tree_t.depthOf, Visit.under]
      constructor
      · rintro ⟨h1, h2⟩; exact ⟨h1.symm, h2.symm⟩
      · rintro ⟨h1, h2⟩; exact ⟨h1.symm, h2.symm⟩
    | cons s p =>
      cases s with
      | child =>
        simp only [subtree]
        constructor
        · rintro (h | ⟨w, hw, h⟩ | ⟨w, hw, h⟩)
          · simp at h
          · have := (ihc w).1 hw
            simp only [Visit.under, Visit.mk.injEq, List.cons.injEq, true_and] at h
            obtain ⟨h1, h2, h3⟩ := h
            subst h1 h2 h3
            exact this
          · simp [Visit.under] at h
        · intro h
          right; left
          exact ⟨⟨p, vns, vd⟩, (ihc ⟨p, vns, vd⟩).2 h, rfl⟩
      | sibling =>
        simp only [subtree]
        constructor
        · rintro (h | ⟨w, hw, h⟩ | ⟨w, hw, h⟩)
          · simp at h
          · simp [Visit.under] at h
          · have := (ihs w).1 hw
            simp only [Visit.under, Visit.mk.injEq, List.cons.injEq, true_and] at h
            obtain ⟨h1, h2, h3⟩ := h
            subst h1 h2 h3
            exact this
        · intro h
          right; right
          exact ⟨⟨p, vns, vd⟩, (ihs ⟨p, vns, vd⟩).2 h, rfl⟩

theorem under_injective (s : Step) : Function.Injective (Visit.under s) := by
  intro a b h
  obtain ⟨p, n, d⟩ := a
  obtain ⟨q, m, e⟩ := b
  simp only [Visit.under, Visit.mk.injEq, List.cons.injEq, true_and] at h
  obtain ⟨h1, h2, h3⟩ := h
  subst h1 h2 h3
  rfl

theorem preorder_nodup (t : tree_t) : (preorder t).Nodup := by
  induction t with
  | NULL => simp [preorder]
  | node ns d ch sib ihc ihs =>
    simp only [preorder, List.nodup_cons, List.mem_append, List.mem_map, not_or, not_exists,
      not_and]
    refine ⟨⟨?_, ?_⟩, ?_⟩
    · intro w _ h; simp [Visit.under] at h
    · intro w _ h; simp [Visit.under] at h
    · rw [List.nodup_append]
      refine ⟨ihc.map (under_injective _), ihs.map (under_injective _), ?_⟩
      intro a ha hb
      simp only [List.mem_map] at ha hb
      obtain ⟨w, _, hw⟩ := ha
      obtain ⟨u, _, hu⟩ := hb
      rw [← hu] at hw
      simp [Visit.under] at hw

/-- node paths of preorder are pairwise distinct -/
theorem preorder_nodes_nodup (t : tree_t) : ((preorder t).map Visit.node).Nodup := by
  induction t with
  | NULL => simp [preorder]
  | node ns d ch sib ihc ihs =>
    simp only [preorder, List.map_cons, List.map_append, List.map_map, List.nodup_cons,
      List.mem_append, List.mem_map, not_or, not_exists, not_and]
    have ec : Visit.node ∘ Visit.under Step.child = (fun p => Step.child :: p) ∘ Visit.node := by
      funext v; rfl
    have es : Visit.node ∘ Visit.under Step.sibling
        = (fun p => Step.sibling :: p) ∘ Visit.node := by
      funext v; rfl
    refine ⟨⟨?_, ?_⟩, ?_⟩
    · intro w _ h; simp [Visit.under] at h
    · intro w _ h; simp [Visit.under] at h
    · rw [ec, es, ← List.map_map, ← List.map_map, List.nodup_append]
      refine ⟨ihc.map (fun a b h => by simpa using h), ihs.map (fun a b h => by simpa using h), ?_⟩
      intro a ha hb
      simp only [List.mem_map] at ha hb
      obtain ⟨w, _, hw⟩ := ha
      obtain ⟨u, _, hu⟩ := hb
      rw [← hu] at hw
      simp at hw

theorem search_eq_find (t : tree_t) (nid : ino_t) :
    search_namespace_tree t nid
      = ((preorder t).find? (fun v => nid_matches v.ns nid)).map Visit.node := by
  induction t with
  | NULL => rfl
  | node ns d ch sib ihc ihs =>
    simp only [search_namespace_tree, preorder]
    by_cases h : nid_matches ns nid = true
    · simp [h, List.find?_cons]
    · simp only [h, if_false, List.find?_cons, Bool.false_eq_true]
      rw [List.find?_append, ihc, ihs]
      simp only [List.find?_map]
      have e : ∀ s : Step, ((fun v => nid_matches v.ns nid) ∘ Visit.under s)
          = (fun v => nid_matches v.ns nid) := by
        intro s; funext v; rfl
      rw [e, e]
      cases hc : List.find? (fun v => nid_matches v.ns nid) (preorder ch) with
      | some v => simp [Visit.under]
      | none =>
        cases hs : List.find? (fun v => nid_matches v.ns nid) (preorder sib) with
        | some v => simp [Visit.under]
        | none => simp

theorem subtree_ne_NULL_of_cons {t : tree_t} {s : Step} {p : Path}
    (h : subtree t (s :: p) ≠ .NULL) : t ≠ .NULL := by
  intro e; subst e; simp at h

@[simp] theorem namespace_node (n : Option namespace_t) (d : Nat) (c s : tree_t) :
    (tree_t.node n d c s).namespace = n := rfl
@[simp] theorem depthOf_node (n : Option namespace_t) (d : Nat) (c s : tree_t) :
    (tree_t.node n d c s).depthOf = d := rfl
@[simp] theorem childOf_node (n : Option namespace_t) (d : Nat) (c s : tree_t) :
    (tree_t.node n d c s).childOf = c := rfl
@[simp] theorem siblingOf_node (n : Option namespace_t) (d : Nat) (c s : tree_t) :
    (tree_t.node n d c s).siblingOf = s := rfl
@[simp] theorem childOf_NULL : tree_t.NULL.childOf = .NULL := rfl
@[simp] theorem siblingOf_NULL : tree_t.NULL.siblingOf = .NULL := rfl
@[simp] theorem subtree_nil (t : tree_t) : subtree t [] = t := rfl
@[simp] theorem subtree_cons_child (t : tree_t) (p : Path) :
    subtree t (Step.child :: p) = subtree t.childOf p := rfl
@[simp] theorem subtree_cons_sibling (t : tree_t) (p : Path) :
    subtree t (Step.sibling :: p) = subtree t.siblingOf p := rfl

theorem chain_append_sibling (ch : tree_t) (ns : Option namespace_t) (d : Nat) :
    chain (append_sibling ch (.node ns d .NULL .NULL)) = chain ch ++ [(ns, d)] := by
  induction ch with
  | NULL => rfl
  | node n e c s _ ihs => simp [append_sibling, chain, ihs]

theorem subtree_append_sibling_new (ch c : tree_t) :
    subtree (append_sibling ch c) (List.replicate (chain ch).length Step.sibling) = c := by
  induction ch with
  | NULL => rfl
  | node n e c' s _ ihs =>
    simp only [append_sibling, chain, List.length_cons, List.replicate_succ,
      subtree_cons_sibling, siblingOf_node]
    exact ihs

theorem subtree_append_sibling_old (ch c : tree_t) (q : Path) (h : subtree ch q ≠ .NULL) :
    (subtree (append_sibling ch c) q).namespace = (subtree ch q).namespace
    ∧ (subtree (append_sibling ch c) q).depthOf = (subtree ch q).depthOf
    ∧ (subtree (append_sibling ch c) q).childOf = (subtree ch q).childOf
    ∧ subtree (append_sibling ch c) q ≠ .NULL := by
  induction ch generalizing q with
  | NULL => simp at h
  | node n e c' s _ ihs =>
    cases q with
    | nil => simp [append_sibling]
    | cons st q =>
      cases st with
      | child => simpa [append_sibling] using h
      | sibling =>
        simp only [append_sibling, subtree_cons_sibling, siblingOf_node]
        exact ihs q (by simpa using h)

theorem preorder_append_sibling (ch : tree_t) (ns : Option namespace_t) (d : Nat) :
    (preorder (append_sibling ch (.node ns d .NULL .NULL))).Perm
      (⟨List.replicate (chain ch).length Step.sibling, ns, d⟩ :: preorder ch) := by
  induction ch with
  | NULL => simp [append_sibling, preorder, chain]
  | node n e c s _ ihs =>
    simp only [append_sibling, preorder, chain, List.length_cons, List.replicate_succ]
    have h1 := (ihs.map (Visit.under Step.sibling)).append_left
      (List.map (Visit.under Step.child) (preorder c))
    have h2 := (List.Perm.cons (⟨[], n, e⟩ : Visit) h1)
    refine h2.trans ?_
    simp only [List.map_cons, Visit.under]
    refine (List.Perm.cons _ List.perm_middle).trans ?_
    exact List.Perm.swap _ _ _

theorem chain_attach (t : tree_t) (p : Path) (c : tree_t) :
    chain (attach t p c) = chain t := by
  induction t generalizing p with
  | NULL => rfl
  | node n e ch s _ ihs =>
    cases p with
    | nil => simp [attach, chain]
    | cons st p =>
      cases st with
      | child => simp [attach, chain]
      | sibling => simp [attach, chain, ihs]

/-- Frame of `attach`: every node that exists keeps namespace and depth, and keeps
its child list unless it is the node written to. -/
theorem subtree_attach_old (t : tree_t) (p : Path) (c : tree_t) (q : Path)
    (h : subtree t q ≠ .NULL) :
    (subtree (attach t p c) q).namespace = (subtree t q).namespace
    ∧ (subtree (attach t p c) q).depthOf = (subtree t q).depthOf
    ∧ subtree (attach t p c) q ≠ .NULL
    ∧ (q ≠ p → chain (subtree (attach t p c) q).childOf = chain (subtree t q).childOf) := by
  induction t generalizing p q with
  | NULL => simp at h
  | node n e ch s ihc ihs =>
    cases p with
    | nil =>
      cases q with
      | nil => simp [attach]
      | cons st q =>
        cases st with
        | child =>
          simp only [attach, subtree_cons_child, childOf_node] at h ⊢
          have := subtree_append_sibling_old ch c q h
          exact ⟨this.1, this.2.1, this.2.2.2, fun _ => by rw [this.2.2.1]⟩
        | sibling => simpa [attach] using h
    | cons stp p =>
      cases stp with
      | child =>
        cases q with
        | nil => simp [attach, chain_attach]
        | cons st q =>
          cases st with
          | child =>
            simp only [attach, subtree_cons_child, childOf_node] at h ⊢
            have := ihc p q h
            refine ⟨this.1, this.2.1, this.2.2.1, fun hne => this.2.2.2 ?_⟩
            intro e0; exact hne (by rw [e0])
          | sibling => simpa [attach] using h
      | sibling =>
        cases q with
        | nil => simp [attach]
        | cons st q =>
          cases st with
          | child => simpa [attach] using h
          | sibling =>
            simp only [attach, subtree_cons_sibling, siblingOf_node] at h ⊢
            have := ihs p q h
            refine ⟨this.1, this.2.1, this.2.2.1, fun hne => this.2.2.2 ?_⟩
            intro e0; exact hne (by rw [e0])

/-- The written node: its child list gains `c` at the end. -/
theorem child_list_attach_self (t : tree_t) (p : Path) (ns : Option namespace_t) (d : Nat)
    (h : subtree t p ≠ .NULL) :
    child_list (attach t p (.node ns d .NULL .NULL)) p = child_list t p ++ [(ns, d)] := by
  induction t generalizing p with
  | NULL => simp at h
  | node n e ch s ihc ihs =>
    cases p with
    | nil => simp [attach, child_list, chain_append_sibling]
    | cons st p =>
      cases st with
      | child =>
        have := ihc p (by simpa using h)
        simpa [attach, child_list] using this
      | sibling =>
        have := ihs p (by simpa using h)
        simpa [attach, child_list] using this

/-- The linked node sits at `new_path t p`. -/
theorem subtree_attach_new (t : tree_t) (p : Path) (c : tree_t) (h : subtree t p ≠ .NULL) :
    subtree (attach t p c) (new_path t p) = c := by
  induction t generalizing p with
  | NULL => simp at h
  | node n e ch s ihc ihs =>
    cases p with
    | nil =>
      simp only [attach, new_path, child_list, List.nil_append, subtree_cons_child,
        childOf_node, subtree_nil]
      exact subtree_append_sibling_new ch c
    | cons st p =>
      cases st with
      | child =>
        have := ihc p (by simpa using h)
        simpa [attach, new_path, child_list] using this
      | sibling =>
        have := ihs p (by simpa using h)
        simpa [attach, new_path, child_list] using this

theorem subtree_new_path_NULL (t : tree_t) (p : Path) :
    subtree t (new_path t p) = .NULL := by
  have key : ∀ ch : tree_t, subtree ch (List.replicate (chain ch).length Step.sibling) = .NULL := by
    intro ch
    induction ch with
    | NULL => rfl
    | node n e c s _ ihs => simpa [chain, List.replicate_succ] using ihs
  unfold new_path child_list
  rw [subtree_append]
  simp only [subtree_cons_child]
  exact key _

theorem preorder_attach (t : tree_t) (p : Path) (ns : Option namespace_t) (d : Nat)
    (h : subtree t p ≠ .NULL) :
    (preorder (attach t p (.node ns d .NULL .NULL))).Perm
      (⟨new_path t p, ns, d⟩ :: preorder t) := by
  induction t generalizing p with
  | NULL => simp at h
  | node n e ch s ihc ihs =>
    cases p with
    | nil =>
      simp only [attach, preorder, new_path, child_list, subtree_nil, childOf_node,
        List.nil_append]
      have h1 := ((preorder_append_sibling ch ns d).map (Visit.under Step.child)).append_right
        (List.map (Visit.under Step.sibling) (preorder s))
      refine (List.Perm.cons (⟨[], n, e⟩ : Visit) h1).trans ?_
      simp only [List.map_cons, Visit.under, List.cons_append]
      exact List.Perm.swap _ _ _
    | cons st p =>
      cases st with
      | child =>
        have ih := ihc p (by simpa using h)
        simp only [attach, preorder]
        have h1 := (ih.map (Visit.under Step.child)).append_right
          (List.map (Visit.under Step.sibling) (preorder s))
        refine (List.Perm.cons (⟨[], n, e⟩ : Visit) h1).trans ?_
        simp only [List.map_cons, Visit.under, List.cons_append, new_path, child_list,
          subtree_cons_child, childOf_node]
        exact List.Perm.swap _ _ _
      | sibling =>
        have ih := ihs p (by simpa using h)
        simp only [attach, preorder]
        have h1 := (ih.map (Visit.under Step.sibling)).append_left
          (List.map (Visit.under Step.child) (preorder ch))
        refine (List.Perm.cons (⟨[], n, e⟩ : Visit) h1).trans ?_
        simp only [List.map_cons, Visit.under, new_path, child_list,
          subtree_cons_sibling, siblingOf_node]
        refine (List.Perm.cons _ List.perm_middle).trans ?_
        exact List.Perm.swap _ _ _

theorem is_orphaned_eq_zero_iff (n : namespace_t) :
    is_orphaned_namespace (some n) = 0 ↔ (n.pnid ≠ 0 ∨ n.creator_pid = 1) := by
  unfold is_orphaned_namespace
  by_cases h : n.pnid ≠ 0 ∨ n.creator_pid = 1
  · simp [h]
  · simp [h]

theorem is_orphaned_eq_one_iff (n : namespace_t) :
    is_orphaned_namespace (some n) = 1 ↔ (n.pnid = 0 ∧ n.creator_pid ≠ 1) := by
  unfold is_orphaned_namespace
  by_cases h : n.pnid ≠ 0 ∨ n.creator_pid = 1
  · simp only [h, if_true]
    constructor
    · intro h1; exact absurd h1 (by decide)
    · rintro ⟨h1, h2⟩
      rcases h with h | h
      · exact absurd h1 h
      · exact absurd h h2
  · simp only [h, if_false, true_iff]
    push_neg at h
    exact h

theorem is_orphaned_zero_or_one (n : Option namespace_t) :
    is_orphaned_namespace n = 0 ∨ is_orphaned_namespace n = 1 := by
  unfold is_orphaned_namespace
  cases n with
  | none => simp
  | some n => by_cases h : n.pnid ≠ 0 ∨ n.creator_pid = 1 <;> simp [h]

theorem search_some {t : tree_t} {nid : ino_t} {p : Path}
    (h : search_namespace_tree t nid = some p) :
    subtree t p ≠ .NULL ∧ nid_matches (subtree t p).namespace nid = true := by
  rw [search_eq_find] at h
  simp only [Option.map_eq_some'] at h
  obtain ⟨v, hv, rfl⟩ := h
  have hm := List.mem_of_find?_eq_some hv
  have hp := List.find?_some hv
  have := (mem_preorder t v).1 hm
  refine ⟨this.1, ?_⟩
  rw [this.2.1]; exact hp

theorem search_none {t : tree_t} {nid : ino_t} :
    search_namespace_tree t nid = none ↔ ∀ v ∈ preorder t, nid_matches v.ns nid = false := by
  rw [search_eq_find]
  simp [List.find?_eq_none]

theorem insert_parent_eq_spec (t : tree_t) (ns : namespace_t) :
    insert_parent t ns = spec_parent t ns := by
  unfold insert_parent spec_parent
  by_cases ho : ns.pnid = 0 ∧ ns.creator_pid ≠ 1
  · have : is_orphaned_namespace (some ns) = 1 := (is_orphaned_eq_one_iff ns).2 ho
    simp [this, ho]
  · have h0 : is_orphaned_namespace (some ns) = 0 := by
      apply (is_orphaned_eq_zero_iff ns).2
      by_contra hc
      push_neg at hc
      exact ho ⟨hc.1, hc.2⟩
    rw [if_neg (by simp [h0]), if_neg ho, search_eq_find]
    cases List.find? (fun v => nid_matches v.ns ns.pnid) (preorder t) <;> rfl

theorem insert_parent_valid {t : tree_t} (ns : namespace_t) (h : t ≠ .NULL) :
    subtree t (insert_parent t ns) ≠ .NULL := by
  unfold insert_parent
  split
  · simpa using h
  · split
    · next p hp => exact (search_some hp).1
    · simpa using h

theorem insert_eq_attach {t : tree_t} (ns : namespace_t) (h : t ≠ .NULL) :
    insert_namespace_tree t ns
      = attach t (insert_parent t ns)
          (.node (some ns) ((subtree t (insert_parent t ns)).depthOf + 1) .NULL .NULL) := by
  cases t with
  | NULL => exact absurd rfl h
  | node n e c s => rfl

theorem insert_ne_NULL (t : tree_t) (ns : namespace_t) : insert_namespace_tree t ns ≠ .NULL := by
  cases t with
  | NULL => simp [insert_namespace_tree]
  | node n e c s =>
    rw [insert_eq_attach ns (by simp)]
    exact (subtree_attach_old _ _ _ [] (by simp)).2.2.1

/-- Every node of the forest after an insertion into a non-empty forest is an old
node or the node just linked. -/
theorem insert_nodes {t : tree_t} (ns : namespace_t) (h : t ≠ .NULL) {q : Path}
    (hq : subtree (insert_namespace_tree t ns) q ≠ .NULL) :
    q = new_path t (insert_parent t ns) ∨ subtree t q ≠ .NULL := by
  rw [insert_eq_attach ns h] at hq
  have hv : (⟨q, (subtree _ q).namespace, (subtree _ q).depthOf⟩ : Visit) ∈ preorder _ :=
    (mem_preorder _ _).2 ⟨hq, rfl, rfl⟩
  have := (preorder_attach t _ _ _ (insert_parent_valid ns h)).subset hv
  rcases List.mem_cons.1 this with e | m
  · left; exact congrArg Visit.node e
  · right; exact ((mem_preorder _ _).1 m).1

theorem count_new_path (t : tree_t) (p : Path) :
    (new_path t p).count Step.child = p.count Step.child + 1 := by
  unfold new_path
  rw [List.count_append, List.count_cons_self, List.count_replicate]
  simp

/-- Depth invariant of the forests built by insertion: the stored depth of a node
is the number of `child` links on the way from the root. -/
theorem forest_depth (l : List namespace_t) (p : Path)
    (h : subtree (forest_of l) p ≠ .NULL) :
    (subtree (forest_of l) p).depthOf = p.count Step.child := by
  induction l using List.reverseRecOn generalizing p with
  | nil => simp [forest_of] at h
  | append_singleton l ns ih =>
    have e : forest_of (l ++ [ns]) = insert_namespace_tree (forest_of l) ns := by
      simp [forest_of]
    rw [e] at h ⊢
    by_cases hn : forest_of l = .NULL
    · rw [hn] at h ⊢
      simp only [insert_namespace_tree] at h ⊢
      cases p with
      | nil => simp
      | cons s p => cases s <;> simp at h
    · rcases insert_nodes ns hn h with hq | hq
      · subst hq
        rw [insert_eq_attach ns hn, subtree_attach_new _ _ _ (insert_parent_valid ns hn),
          count_new_path]
        simp [ih _ (insert_parent_valid ns hn)]
      · rw [insert_eq_attach ns hn, (subtree_attach_old _ _ _ p hq).2.1]
        exact ih _ hq

theorem subtree_prefix_ne_NULL {t : tree_t} {p q : Path} (h : subtree t (p ++ q) ≠ .NULL) :
    subtree t p ≠ .NULL := by
  intro e
  rw [subtree_append, e] at h
  simp at h

theorem child_list_new_leaf (t : tree_t) (p : Path) (ns : Option namespace_t) (d : Nat)
    (h : subtree t p ≠ .NULL) :
    child_list (attach t p (.node ns d .NULL .NULL)) (new_path t p) = [] := by
  unfold child_list
  rw [subtree_attach_new t p _ h]
  rfl

theorem no_orphan_append_sibling {ch : tree_t} {n : namespace_t} {d : Nat}
    (h : no_orphan ch) (hn : is_orphaned_namespace (some n) = 0) :
    no_orphan (append_sibling ch (.node (some n) d .NULL .NULL)) := by
  induction ch with
  | NULL => exact ⟨⟨n, rfl, hn⟩, trivial, trivial⟩
  | node m e c s _ ihs => exact ⟨h.1, h.2.1, ihs h.2.2⟩

theorem no_orphan_attach {t : tree_t} {n : namespace_t} {d : Nat} (p : Path)
    (h : no_orphan t) (hn : is_orphaned_namespace (some n) = 0) :
    no_orphan (attach t p (.node (some n) d .NULL .NULL)) := by
  induction t generalizing p with
  | NULL => trivial
  | node m e c s ihc ihs =>
    cases p with
    | nil => exact ⟨h.1, no_orphan_append_sibling h.2.1 hn, h.2.2⟩
    | cons st p =>
      cases st with
      | child => exact ⟨h.1, ihc p h.2.1, h.2.2⟩
      | sibling => exact ⟨h.1, h.2.1, ihs p h.2.2⟩

theorem level1_append_sibling {ch : tree_t} {n : namespace_t} {d : Nat}
    (h : level1 ch) (hd : d ≠ 0) :
    level1 (append_sibling ch (.node (some n) d .NULL .NULL)) := by
  induction ch with
  | NULL => exact ⟨⟨n, rfl⟩, hd, trivial, trivial⟩
  | node m e c s _ ihs => exact ⟨h.1, h.2.1, h.2.2.1, ihs h.2.2.2⟩

theorem level1_attach {t : tree_t} {n : namespace_t} {d : Nat} (p : Path)
    (h : level1 t) (hn : is_orphaned_namespace (some n) = 0) :
    level1 (attach t p (.node (some n) d .NULL .NULL)) := by
  induction t generalizing p with
  | NULL => trivial
  | node m e c s _ ihs =>
    cases p with
    | nil => exact ⟨h.1, h.2.1, no_orphan_append_sibling h.2.2.1 hn, h.2.2.2⟩
    | cons st p =>
      cases st with
      | child => exact ⟨h.1, h.2.1, no_orphan_attach p h.2.2.1 hn, h.2.2.2⟩
      | sibling => exact ⟨h.1, h.2.1, h.2.2.1, ihs p h.2.2.2⟩

theorem insert_parent_orphan (t : tree_t) {ns : namespace_t}
    (h : is_orphaned_namespace (some ns) = 1) : insert_parent t ns = [] := by
  unfold insert_parent; rw [if_pos (by simp [h])]

theorem insert_parent_found {t : tree_t} {ns : namespace_t} {p : Path}
    (h : is_orphaned_namespace (some ns) = 0)
    (hs : search_namespace_tree t ns.pnid = some p) : insert_parent t ns = p := by
  unfold insert_parent; rw [if_neg (by simp [h]), hs]

theorem insert_parent_not_found {t : tree_t} {ns : namespace_t}
    (h : is_orphaned_namespace (some ns) = 0)
    (hs : search_namespace_tree t ns.pnid = none) : insert_parent t ns = [] := by
  unfold insert_parent; rw [if_neg (by simp [h]), hs]

theorem forest_shape_insert {t : tree_t} (ns : namespace_t) (h : forest_shape t) :
    forest_shape (insert_namespace_tree t ns) := by
  cases t with
  | NULL => exact ⟨⟨ns, rfl⟩, rfl, rfl, trivial⟩
  | node m e c s =>
    obtain ⟨hm, he, hs, hc⟩ := h
    subst he hs
    rw [insert_eq_attach ns (by simp)]
    have hroot : ∀ d, d ≠ 0 → forest_shape
        (attach (.node m 0 c .NULL) [] (.node (some ns) d .NULL .NULL)) :=
      fun d hd => ⟨hm, rfl, rfl, level1_append_sibling hc hd⟩
    rcases is_orphaned_zero_or_one (some ns) with h0 | h1
    · cases hsr : search_namespace_tree (.node m 0 c .NULL) ns.pnid with
      | none =>
        rw [insert_parent_not_found h0 hsr]
        exact hroot _ (by simp)
      | some p =>
        rw [insert_parent_found h0 hsr]
        cases p with
        | nil => exact hroot _ (by simp)
        | cons st p =>
          cases st with
          | child => exact ⟨hm, rfl, rfl, level1_attach p hc h0⟩
          | sibling => exact ⟨hm, rfl, rfl, hc⟩
    · rw [insert_parent_orphan _ h1]
      exact hroot _ (by simp)

theorem forest_of_snoc (l : List namespace_t) (ns : namespace_t) :
    forest_of (l ++ [ns]) = insert_namespace_tree (forest_of l) ns := by
  simp [forest_of]

theorem forest_shape_forest_of (l : List namespace_t) : forest_shape (forest_of l) := by
  induction l using List.reverseRecOn with
  | nil => trivial
  | append_singleton l ns ih => rw [forest_of_snoc]; exact forest_shape_insert ns ih

@[simp] theorem orphaned_under (s : Step) (v : Visit) :
    (Visit.under s v).orphaned = v.orphaned := rfl

theorem filter_map_under (f : Visit → Bool) (hf : ∀ s v, f (Visit.under s v) = f v)
    (s : Step) (l : List Visit) :
    (l.map (Visit.under s)).filter f = (l.filter f).map (Visit.under s) := by
  rw [List.filter_map]
  congr 1
  apply List.filter_congr
  intro v _
  exact hf s v

theorem filter_orphaned_under (s : Step) (l : List Visit) :
    (l.map (Visit.under s)).filter Visit.orphaned
      = (l.filter Visit.orphaned).map (Visit.under s) :=
  filter_map_under Visit.orphaned (fun _ _ => rfl) s l

theorem filter_parented_under (s : Step) (l : List Visit) :
    (l.map (Visit.under s)).filter (fun v => !v.orphaned)
      = (l.filter (fun v => !v.orphaned)).map (Visit.under s) :=
  filter_map_under (fun v => !v.orphaned) (fun _ _ => rfl) s l

/-- The parented sequence is the pre-order sequence without the orphaned nodes. -/
theorem print_parented_eq_filter (t : tree_t) :
    print_parented_namespaces t = (preorder t).filter (fun v => !v.orphaned) := by
  induction t with
  | NULL => rfl
  | node ns d ch sib ihc ihs =>
    simp only [print_parented_namespaces, preorder, List.filter_cons, List.filter_append]
    rw [filter_parented_under, filter_parented_under, ← ihc, ← ihs]
    cases ns with
    | none => simp [Visit.orphaned, is_orphaned_namespace]
    | some n =>
      rcases is_orphaned_zero_or_one (some n) with h | h
      · simp [Visit.orphaned, h]
      · simp [Visit.orphaned, h]

theorem print_parented_sublist (t : tree_t) :
    (print_parented_namespaces t).Sublist (preorder t) := by
  rw [print_parented_eq_filter]; exact List.filter_sublist _

/-- The orphaned sequence lists nodes of the forest in pre-order, none twice. -/
theorem print_orphaned_sublist (t : tree_t) :
    (print_orphaned_namespaces t).Sublist (preorder t) := by
  induction t with
  | NULL => exact List.Sublist.refl _
  | node ns d ch sib ihc ihs =>
    have hc := ihc.map (Visit.under Step.child)
    have hs := ihs.map (Visit.under Step.sibling)
    have hp := (print_parented_sublist ch).map (Visit.under Step.child)
    cases ns with
    | none => simp [print_orphaned_namespaces]
    | some n =>
      simp only [print_orphaned_namespaces, preorder]
      split
      · split
        · exact (hc.append hs).cons₂ _
        · exact (hp.append hs).cons₂ _
      · exact (hc.append hs).cons _

theorem no_orphan_print_orphaned {t : tree_t} (h : no_orphan t) :
    print_orphaned_namespaces t = [] := by
  induction t with
  | NULL => rfl
  | node ns d ch sib ihc ihs =>
    obtain ⟨⟨n, rfl, hn⟩, h1, h2⟩ := h
    simp [print_orphaned_namespaces, hn, ihc h1, ihs h2]

theorem no_orphan_filter {t : tree_t} (h : no_orphan t) :
    (preorder t).filter Visit.orphaned = [] := by
  induction t with
  | NULL => rfl
  | node ns d ch sib ihc ihs =>
    obtain ⟨⟨n, rfl, hn⟩, h1, h2⟩ := h
    simp only [preorder, List.filter_cons, List.filter_append]
    rw [filter_orphaned_under, filter_orphaned_under, ihc h1, ihs h2]
    simp [Visit.orphaned, hn]

theorem print_parented_filter_orphaned (t : tree_t) :
    (print_parented_namespaces t).filter Visit.orphaned = [] := by
  rw [print_parented_eq_filter, List.filter_filter]
  simp

theorem level1_orphans {t : tree_t} (h : level1 t) :
    (print_orphaned_namespaces t).filter Visit.orphaned
      = (preorder t).filter Visit.orphaned := by
  induction t with
  | NULL => rfl
  | node ns d ch sib _ ihs =>
    obtain ⟨⟨n, rfl⟩, hd, h1, h2⟩ := h
    simp only [print_orphaned_namespaces, preorder, List.filter_cons, List.filter_append]
    rw [filter_orphaned_under Step.sibling (preorder sib),
      filter_orphaned_under Step.child (preorder ch), no_orphan_filter h1]
    rcases is_orphaned_zero_or_one (some n) with h0 | h0
    · simp only [h0, ne_eq, not_true_eq_false, if_false, List.filter_append,
        no_orphan_print_orphaned h1, List.map_nil, List.filter_nil, List.nil_append]
      rw [filter_orphaned_under, ihs h2]
      simp [Visit.orphaned, h0]
    · simp only [h0, ne_eq, one_ne_zero, not_false_eq_true, if_true, hd, if_false,
        List.filter_append, List.filter_cons, List.filter_nil]
      rw [filter_orphaned_under, filter_orphaned_under, ihs h2,
        print_parented_filter_orphaned]
      simp [Visit.orphaned, h0]

theorem forest_shape_orphans {t : tree_t} (h : forest_shape t) :
    (print_orphaned_namespaces t).filter Visit.orphaned
      = (preorder t).filter Visit.orphaned := by
  cases t with
  | NULL => rfl
  | node ns d ch sib =>
    obtain ⟨⟨n, rfl⟩, hd, hs, h2⟩ := h
    subst hd hs
    simp only [print_orphaned_namespaces, preorder, List.filter_cons, List.filter_append]
    rw [filter_orphaned_under Step.child (preorder ch), ← level1_orphans h2]
    rcases is_orphaned_zero_or_one (some n) with h0 | h0
    · simp only [h0, ne_eq, not_true_eq_false, if_false, List.filter_append]
      rw [filter_orphaned_under]
      simp [Visit.orphaned, h0]
    · simp only [h0, ne_eq, one_ne_zero, not_false_eq_true, if_true,
        List.filter_append, List.filter_cons, List.filter_nil]
      rw [filter_orphaned_under]
      simp [Visit.orphaned, h0]

theorem mem_preorder_node {v : Visit} {ns : Option namespace_t} {d : Nat} {ch sib : tree_t} :
    v ∈ preorder (.node ns d ch sib) ↔
      v = ⟨[], ns, d⟩ ∨ (∃ w ∈ preorder ch, v = Visit.under Step.child w)
        ∨ (∃ w ∈ preorder sib, v = Visit.under Step.sibling w) := by
  simp only [preorder, List.mem_cons, List.mem_append, List.mem_map]
  constructor
  · rintro (h | ⟨w, hw, h⟩ | ⟨w, hw, h⟩)
    · exact Or.inl h
    · exact Or.inr (Or.inl ⟨w, hw, h.symm⟩)
    · exact Or.inr (Or.inr ⟨w, hw, h.symm⟩)
  · rintro (h | ⟨w, hw, h⟩ | ⟨w, hw, h⟩)
    · exact Or.inl h
    · exact Or.inr (Or.inl ⟨w, hw, h.symm⟩)
    · exact Or.inr (Or.inr ⟨w, hw, h.symm⟩)

theorem no_orphan_mem {t : tree_t} (h : no_orphan t) {u : Visit} (hu : u ∈ preorder t) :
    u.orphaned = false := by
  by_contra hc
  have : u ∈ (preorder t).filter Visit.orphaned :=
    List.mem_filter.2 ⟨hu, by simpa using hc⟩
  rw [no_orphan_filter h] at this
  simp at this

theorem mem_print_parented {t : tree_t} {v : Visit} :
    v ∈ print_parented_namespaces t ↔ v ∈ preorder t ∧ v.orphaned = false := by
  rw [print_parented_eq_filter, List.mem_filter]
  simp

/-- In a chain below the root, the non-orphaned nodes that the orphaned traversal
prints are the nodes below an orphan. -/
theorem level1_mem_orphaned {c : tree_t} (h : level1 c) {v : Visit} (hv : v.orphaned = false) :
    v ∈ print_orphaned_namespaces c ↔
      v ∈ preorder c ∧ ∃ u ∈ preorder c, u.orphaned = true
        ∧ ∃ r, v.node = u.node ++ Step.child :: r := by
  induction c generalizing v with
  | NULL => simp [print_orphaned_namespaces, preorder]
  | node ns d ch sib _ ihs =>
    obtain ⟨⟨n, rfl⟩, hd, h1, h2⟩ := h
    have hsib : ∀ w : Visit, w.orphaned = false →
        (Visit.under Step.sibling w ∈ print_orphaned_namespaces (.node (some n) d ch sib)
          ↔ w ∈ print_orphaned_namespaces sib) := by
      intro w hw
      simp only [print_orphaned_namespaces]
      split
      · simp only [hd, if_false, List.mem_append, List.mem_cons, List.mem_map,
          List.mem_singleton, List.not_mem_nil, or_false]
        constructor
        · rintro ((e | ⟨x, _, e⟩) | ⟨x, hx, e⟩)
          · simp [Visit.under] at e
          · simp [Visit.under] at e
          · rw [← under_injective _ e]; exact hx
        · intro hx; exact Or.inr ⟨w, hx, rfl⟩
      · simp only [List.mem_append, List.mem_map]
        constructor
        · rintro (⟨x, _, e⟩ | ⟨x, hx, e⟩)
          · simp [Visit.under] at e
          · rw [← under_injective _ e]; exact hx
        · intro hx; exact Or.inr ⟨w, hx, rfl⟩
    constructor
    · intro hm
      have hpre := (print_orphaned_sublist _).subset hm
      refine ⟨hpre, ?_⟩
      rcases mem_preorder_node.1 hpre with e | ⟨w, hw, e⟩ | ⟨w, hw, e⟩
      · -- the chain head itself: it is printed only if it is an orphan
        subst e
        exfalso
        have h0 : is_orphaned_namespace (some n) = 0 := by
          simpa [Visit.orphaned] using hv
        simp only [print_orphaned_namespaces, h0, ne_eq, not_true_eq_false, if_false,
          no_orphan_print_orphaned h1, List.map_nil, List.nil_append, List.mem_map] at hm
        obtain ⟨x, _, e⟩ := hm
        simp [Visit.under] at e
      · subst e
        rcases is_orphaned_zero_or_one (some n) with h0 | h0
        · exfalso
          simp only [print_orphaned_namespaces, h0, ne_eq, not_true_eq_false, if_false,
            no_orphan_print_orphaned h1, List.map_nil, List.nil_append, List.mem_map] at hm
          obtain ⟨x, _, e⟩ := hm
          simp [Visit.under] at e
        · exact ⟨⟨[], some n, d⟩, mem_preorder_node.2 (Or.inl rfl),
            by simp [Visit.orphaned, h0], w.node, rfl⟩
      · subst e
        have hw' : w.orphaned = false := hv
        obtain ⟨_, u, hu, huo, r, hr⟩ := (ihs h2 hw').1 ((hsib w hw').1 hm)
        exact ⟨Visit.under Step.sibling u, mem_preorder_node.2 (Or.inr (Or.inr ⟨u, hu, rfl⟩)),
          huo, r, by simp [Visit.under, hr]⟩
    · rintro ⟨hpre, u, hu, huo, r, hr⟩
      rcases mem_preorder_node.1 hpre with e | ⟨w, hw, e⟩ | ⟨w, hw, e⟩
      · subst e
        simp at hr
      · subst e
        rcases mem_preorder_node.1 hu with e | ⟨x, hx, e⟩ | ⟨x, hx, e⟩
        · subst e
          have h0 : is_orphaned_namespace (some n) = 1 := by
            rcases is_orphaned_zero_or_one (some n) with h0 | h0
            · simp [Visit.orphaned, h0] at huo
            · exact h0
          simp only [print_orphaned_namespaces, h0, ne_eq, one_ne_zero, not_false_eq_true,
            if_true, hd, if_false, List.mem_append, List.mem_cons, List.mem_map]
          exact Or.inl (Or.inr ⟨w, mem_print_parented.2 ⟨hw, hv⟩, rfl⟩)
        · subst e
          have := no_orphan_mem h1 hx
          rw [orphaned_under] at huo
          rw [this] at huo
          exact absurd huo (by simp)
        · subst e
          simp [Visit.under] at hr
      · subst e
        have hw' : w.orphaned = false := hv
        apply (hsib w hw').2
        apply (ihs h2 hw').2
        refine ⟨hw, ?_⟩
        rcases mem_preorder_node.1 hu with e | ⟨x, hx, e⟩ | ⟨x, hx, e⟩
        · subst e
          simp [Visit.under] at hr
        · subst e
          simp [Visit.under] at hr
        · subst e
          refine ⟨x, hx, huo, r, ?_⟩
          simpa [Visit.under] using hr

theorem forest_shape_mem_orphaned {t : tree_t} (h : forest_shape t) {v : Visit}
    (hv : v.orphaned = false) :
    v ∈ print_orphaned_namespaces t ↔
      v ∈ preorder t ∧ ∃ u ∈ preorder t, u.orphaned = true ∧ u.node ≠ []
        ∧ ∃ r, v.node = u.node ++ Step.child :: r := by
  cases t with
  | NULL => simp [print_orphaned_namespaces, preorder]
  | node ns d ch sib =>
    obtain ⟨⟨n, rfl⟩, hd, hs, h2⟩ := h
    subst hd hs
    have hch : ∀ w : Visit, w.orphaned = false →
        (Visit.under Step.child w ∈ print_orphaned_namespaces (.node (some n) 0 ch .NULL)
          ↔ w ∈ print_orphaned_namespaces ch) := by
      intro w hw
      simp only [print_orphaned_namespaces]
      split
      · simp only [if_true, List.map_nil, List.append_nil, List.mem_append, List.mem_cons,
          List.mem_map, List.not_mem_nil, or_false]
        constructor
        · rintro (e | ⟨x, hx, e⟩)
          · simp [Visit.under] at e
          · rw [← under_injective _ e]; exact hx
        · intro hx; exact Or.inr ⟨w, hx, rfl⟩
      · simp only [List.map_nil, List.append_nil, List.mem_map]
        constructor
        · rintro ⟨x, hx, e⟩
          rw [← under_injective _ e]; exact hx
        · intro hx; exact ⟨w, hx, rfl⟩
    constructor
    · intro hm
      have hpre := (print_orphaned_sublist _).subset hm
      refine ⟨hpre, ?_⟩
      rcases mem_preorder_node.1 hpre with e | ⟨w, hw, e⟩ | ⟨w, hw, e⟩
      · subst e
        exfalso
        have h0 : is_orphaned_namespace (some n) = 0 := by
          simpa [Visit.orphaned] using hv
        simp only [print_orphaned_namespaces, h0, ne_eq, not_true_eq_false, if_false,
          List.map_nil, List.append_nil, List.mem_map] at hm
        obtain ⟨x, _, e⟩ := hm
        simp [Visit.under] at e
      · subst e
        have hw' : w.orphaned = false := hv
        obtain ⟨_, u, hu, huo, r, hr⟩ := (level1_mem_orphaned h2 hw').1 ((hch w hw').1 hm)
        exact ⟨Visit.under Step.child u, mem_preorder_node.2 (Or.inr (Or.inl ⟨u, hu, rfl⟩)),
          huo, by simp [Visit.under], r, by simp [Visit.under, hr]⟩
      · simp [preorder] at hw
    · rintro ⟨hpre, u, hu, huo, hune, r, hr⟩
      rcases mem_preorder_node.1 hpre with e | ⟨w, hw, e⟩ | ⟨w, hw, e⟩
      · subst e
        simp at hr
      · subst e
        have hw' : w.orphaned = false := hv
        apply (hch w hw').2
        apply (level1_mem_orphaned h2 hw').2
        refine ⟨hw, ?_⟩
        rcases mem_preorder_node.1 hu with e | ⟨x, hx, e⟩ | ⟨x, hx, e⟩
        · subst e
          exact absurd rfl hune
        · subst e
          refine ⟨x, hx, huo, r, ?_⟩
          simpa [Visit.under] using hr
        · simp [preorder] at hx
      · simp [preorder] at hw

/-! ### The claims about the forest -/

/-- C3. Orphan rule: `is_orphaned_namespace` returns 1 exactly when `pnid == 0` and
`creator_pid != 1`, and 0 exactly when `pnid != 0` or `creator_pid == 1`; the
answer depends on the record alone, not on any forest. -/
theorem is_orphaned_namespace_rule (n : namespace_t) :
    (is_orphaned_namespace (some n) = 1 ↔ (n.pnid = 0 ∧ n.creator_pid ≠ 1))
    ∧ (is_orphaned_namespace (some n) = 0 ↔ (n.pnid ≠ 0 ∨ n.creator_pid = 1)) :=
  ⟨is_orphaned_eq_one_iff n, is_orphaned_eq_zero_iff n⟩

/-- C7. `search_namespace_tree` returns the first node in pre-order (node, child
subtree, sibling chain) whose namespace has the id searched for, and `NULL`
exactly when no node reachable from `t` has that id. -/
theorem search_namespace_tree_first (t : tree_t) (nid : ino_t) :
    search_namespace_tree t nid
        = ((preorder t).find? (fun v => nid_matches v.ns nid)).map Visit.node
    ∧ (search_namespace_tree t nid = none
        ↔ ¬ ∃ v ∈ preorder t, ∃ n, v.ns = some n ∧ n.nid = nid) := by
  refine ⟨search_eq_find t nid, ?_⟩
  rw [search_none]
  constructor
  · rintro h ⟨v, hv, n, hn, hnid⟩
    have := h v hv
    simp [nid_matches, hn, hnid] at this
  · intro h v hv
    cases hn : v.ns with
    | none => rfl
    | some n =>
      simp only [nid_matches, beq_eq_false_iff_ne, ne_eq]
      intro e
      exact h ⟨v, hv, n, hn, e⟩

/-- C4. Insertion parent: in a non-empty forest the new node is linked below `P`,
after the children `P` already has, where `P` is the root for an orphan, else the
first node in pre-order whose nid is `ns.pnid`, else the root; it is stored with
depth `P.depth + 1` and the place it takes was free before. -/
theorem insert_namespace_tree_parent (t : tree_t) (ns : namespace_t) (h : t ≠ .NULL) :
    insert_parent t ns = spec_parent t ns
    ∧ subtree t (spec_parent t ns) ≠ .NULL
    ∧ subtree t (spec_parent t ns ++ Step.child ::
        List.replicate (child_list t (spec_parent t ns)).length Step.sibling) = .NULL
    ∧ subtree (insert_namespace_tree t ns) (spec_parent t ns ++ Step.child ::
        List.replicate (child_list t (spec_parent t ns)).length Step.sibling)
      = .node (some ns) ((subtree t (spec_parent t ns)).depthOf + 1) .NULL .NULL := by
  have e := insert_parent_eq_spec t ns
  have hv := insert_parent_valid ns h
  rw [e] at hv
  refine ⟨e, hv, subtree_new_path_NULL t _, ?_⟩
  rw [insert_eq_attach ns h, e]
  exact subtree_attach_new t _ _ hv

/-- C5. Depth correctness: in a forest built by insertions from the empty forest the
root exists with stored depth 0, the stored depth of every node is the number of
`child` links from the root, so a child is stored one deeper than its parent;
inserting into the empty forest gives a single node of depth 0 without child and
sibling. -/
theorem forest_depth_correct (l : List namespace_t) :
    (∀ p, subtree (forest_of l) p ≠ .NULL →
        (subtree (forest_of l) p).depthOf = p.count Step.child)
    ∧ (∀ p j, subtree (forest_of l) (p ++ Step.child :: List.replicate j Step.sibling) ≠ .NULL →
        (subtree (forest_of l) (p ++ Step.child :: List.replicate j Step.sibling)).depthOf
          = (subtree (forest_of l) p).depthOf + 1)
    ∧ (l ≠ [] → forest_of l ≠ .NULL ∧ (forest_of l).depthOf = 0)
    ∧ (∀ ns, insert_namespace_tree .NULL ns = .node (some ns) 0 .NULL .NULL) := by
  refine ⟨forest_depth l, ?_, ?_, fun _ => rfl⟩
  · intro p j hq
    rw [forest_depth l _ hq, forest_depth l p (subtree_prefix_ne_NULL hq), List.count_append,
      List.count_cons_self, List.count_replicate]
    simp
  · intro hl
    have hne : forest_of l ≠ .NULL := by
      induction l using List.reverseRecOn with
      | nil => exact absurd rfl hl
      | append_singleton l ns _ =>
        have e : forest_of (l ++ [ns]) = insert_namespace_tree (forest_of l) ns := by
          simp [forest_of]
        rw [e]; exact insert_ne_NULL _ _
    exact ⟨hne, by simpa using forest_depth l [] (by simpa using hne)⟩

/-- C6. Last-sibling append: after an insertion into a non-empty forest the child
list of the chosen parent is its previous child list followed by the new node,
the new node has no children, every node that existed keeps its namespace and
depth, every node other than the parent keeps its child list, and the nodes of
the forest are the previous nodes and the new one. -/
theorem insert_namespace_tree_frame (t : tree_t) (ns : namespace_t) (h : t ≠ .NULL) :
    child_list (insert_namespace_tree t ns) (insert_parent t ns)
        = child_list t (insert_parent t ns)
          ++ [(some ns, (subtree t (insert_parent t ns)).depthOf + 1)]
    ∧ child_list (insert_namespace_tree t ns) (new_path t (insert_parent t ns)) = []
    ∧ (∀ q, subtree t q ≠ .NULL →
        subtree (insert_namespace_tree t ns) q ≠ .NULL
        ∧ (subtree (insert_namespace_tree t ns) q).namespace = (subtree t q).namespace
        ∧ (subtree (insert_namespace_tree t ns) q).depthOf = (subtree t q).depthOf
        ∧ (q ≠ insert_parent t ns →
            child_list (insert_namespace_tree t ns) q = child_list t q))
    ∧ (preorder (insert_namespace_tree t ns)).Perm
        (⟨new_path t (insert_parent t ns), some ns,
            (subtree t (insert_parent t ns)).depthOf + 1⟩ :: preorder t) := by
  have hv := insert_parent_valid ns h
  rw [insert_eq_attach ns h]
  refine ⟨child_list_attach_self t _ _ _ hv, child_list_new_leaf t _ _ _ hv, ?_,
    preorder_attach t _ _ _ hv⟩
  intro q hq
  have := subtree_attach_old t (insert_parent t ns)
    (.node (some ns) ((subtree t (insert_parent t ns)).depthOf + 1) .NULL .NULL) q hq
  exact ⟨this.2.2.1, this.1, this.2.1, this.2.2.2⟩


theorem insert_namespace_tree_parent_witness :
    forest_of [mkns 1 0 1, mkns 2 0 50] ≠ .NULL
    ∧ subtree (insert_namespace_tree (forest_of [mkns 1 0 1, mkns 2 0 50]) (mkns 3 2 51))
        [Step.child, Step.child]
      = .node (some (mkns 3 2 51)) 2 .NULL .NULL :=
  ⟨by decide,
   (insert_namespace_tree_parent (forest_of [mkns 1 0 1, mkns 2 0 50]) (mkns 3 2 51)
      (by decide)).2.2.2⟩

theorem forest_depth_correct_witness :
    subtree (forest_of [mkns 1 0 1, mkns 2 0 50, mkns 3 2 51]) [Step.child, Step.child] ≠ .NULL
    ∧ (subtree (forest_of [mkns 1 0 1, mkns 2 0 50, mkns 3 2 51])
        [Step.child, Step.child]).depthOf = 2 :=
  ⟨by decide,
   (forest_depth_correct [mkns 1 0 1, mkns 2 0 50, mkns 3 2 51]).1 [Step.child, Step.child]
      (by decide)⟩

theorem insert_namespace_tree_frame_witness :
    forest_of [mkns 1 0 1, mkns 2 0 50] ≠ .NULL
    ∧ child_list (insert_namespace_tree (forest_of [mkns 1 0 1, mkns 2 0 50]) (mkns 4 1 52)) []
      = [(some (mkns 2 0 50), 1), (some (mkns 4 1 52), 1)] :=
  ⟨by decide,
   (insert_namespace_tree_frame (forest_of [mkns 1 0 1, mkns 2 0 50]) (mkns 4 1 52)
      (by decide)).1⟩


/-- C2 as stated fails: in the forest built from a root, an orphan and a child of
that orphan, the child is printed by both traversals, so the two sequences are
not disjoint and together list four visits for three nodes. -/
theorem report_sequences_overlap :
    ¬ List.Disjoint
        (print_parented_namespaces (forest_of [mkns 1 0 1, mkns 2 0 50, mkns 3 2 51]))
        (print_orphaned_namespaces (forest_of [mkns 1 0 1, mkns 2 0 50, mkns 3 2 51]))
    ∧ ¬ (print_parented_namespaces (forest_of [mkns 1 0 1, mkns 2 0 50, mkns 3 2 51])
          ++ print_orphaned_namespaces (forest_of [mkns 1 0 1, mkns 2 0 50, mkns 3 2 51])).Perm
        (preorder (forest_of [mkns 1 0 1, mkns 2 0 50, mkns 3 2 51])) := by
  constructor
  · intro h
    exact h (a := ⟨[Step.child, Step.child], some (mkns 3 2 51), 2⟩) (by decide) (by decide)
  · intro h
    exact absurd h.length_eq (by decide)

/-- C2 amended. For a forest built by insertions from the empty forest: every node
is printed by at least one of the two traversals; the parented sequence is the
pre-order sequence of the non-orphaned nodes; the orphaned sequence is a
subsequence of the pre-order sequence that contains every orphaned node; so
neither sequence prints a node twice. A node is printed by both exactly when it
is not orphaned and lies below an orphaned node other than the root. -/
theorem report_sequences_cover (l : List namespace_t) :
    (∀ v ∈ preorder (forest_of l),
        v ∈ print_parented_namespaces (forest_of l)
        ∨ v ∈ print_orphaned_namespaces (forest_of l))
    ∧ print_parented_namespaces (forest_of l)
        = (preorder (forest_of l)).filter (fun v => !v.orphaned)
    ∧ (print_orphaned_namespaces (forest_of l)).Sublist (preorder (forest_of l))
    ∧ (print_orphaned_namespaces (forest_of l)).filter Visit.orphaned
        = (preorder (forest_of l)).filter Visit.orphaned
    ∧ (print_parented_namespaces (forest_of l)).Nodup
    ∧ (print_orphaned_namespaces (forest_of l)).Nodup
    ∧ (∀ v, (v ∈ print_parented_namespaces (forest_of l)
              ∧ v ∈ print_orphaned_namespaces (forest_of l))
          ↔ (v ∈ preorder (forest_of l) ∧ v.orphaned = false
              ∧ ∃ u ∈ preorder (forest_of l), u.orphaned = true ∧ u.node ≠ []
                ∧ ∃ r, v.node = u.node ++ Step.child :: r)) := by
  have hs := forest_shape_forest_of l
  refine ⟨?_, print_parented_eq_filter _, print_orphaned_sublist _, forest_shape_orphans hs,
    (print_parented_sublist _).nodup (preorder_nodup _),
    (print_orphaned_sublist _).nodup (preorder_nodup _), ?_⟩
  · intro v hv
    cases ho : v.orphaned with
    | false => exact Or.inl (mem_print_parented.2 ⟨hv, ho⟩)
    | true =>
      right
      have : v ∈ (preorder (forest_of l)).filter Visit.orphaned :=
        List.mem_filter.2 ⟨hv, ho⟩
      rw [← forest_shape_orphans hs] at this
      exact (List.mem_filter.1 this).1
  · intro v
    constructor
    · rintro ⟨hp, ho⟩
      have hp' := mem_print_parented.1 hp
      exact ⟨hp'.1, hp'.2, ((forest_shape_mem_orphaned hs hp'.2).1 ho).2⟩
    · rintro ⟨hv, ho, hu⟩
      exact ⟨mem_print_parented.2 ⟨hv, ho⟩, (forest_shape_mem_orphaned hs ho).2 ⟨hv, hu⟩⟩

theorem report_sequences_cover_witness :
    (⟨[Step.child, Step.child], some (mkns 3 2 51), 2⟩ : Visit)
        ∈ preorder (forest_of [mkns 1 0 1, mkns 2 0 50, mkns 3 2 51])
    ∧ ((⟨[Step.child, Step.child], some (mkns 3 2 51), 2⟩ : Visit)
          ∈ print_parented_namespaces (forest_of [mkns 1 0 1, mkns 2 0 50, mkns 3 2 51])
        ∨ (⟨[Step.child, Step.child], some (mkns 3 2 51), 2⟩ : Visit)
          ∈ print_orphaned_namespaces (forest_of [mkns 1 0 1, mkns 2 0 50, mkns 3 2 51])) :=
  ⟨by decide,
   (report_sequences_cover [mkns 1 0 1, mkns 2 0 50, mkns 3 2 51]).1
      ⟨[Step.child, Step.child], some (mkns 3 2 51), 2⟩ (by decide)⟩

/-! ### The process list -/

theorem insert_process_list_eq {α : Type} (l : List α) (p : α) :
    insert_process_list l p = l ++ [p] := by
  induction l with
  | nil => rfl
  | cons c l ih => simp [insert_process_list, ih]

theorem length_update_process (f : process_t → process_t) (i : Nat) (l : List process_t) :
    (update_process f i l).length = l.length := by
  induction l generalizing i with
  | nil => cases i <;> rfl
  | cons p l ih => cases i <;> simp [update_process, ih]

theorem process_at_nil (a : Nat) : process_at [] a = create_empty_process := by
  simp [process_at]

@[simp] theorem process_at_zero (p : process_t) (l : List process_t) :
    process_at (p :: l) 0 = p := by
  simp [process_at]

@[simp] theorem process_at_succ (p : process_t) (l : List process_t) (a : Nat) :
    process_at (p :: l) (a + 1) = process_at l a := by
  simp [process_at]

theorem process_at_update_self (f : process_t → process_t) (i : Nat) (l : List process_t)
    (h : i < l.length) : process_at (update_process f i l) i = f (process_at l i) := by
  induction l generalizing i with
  | nil => simp at h
  | cons p l ih =>
    cases i with
    | zero => simp [update_process]
    | succ i => simpa [update_process] using ih i (by simpa using h)

theorem process_at_update_other (f : process_t → process_t) (i a : Nat) (l : List process_t)
    (h : a ≠ i) : process_at (update_process f i l) a = process_at l a := by
  induction l generalizing i a with
  | nil => cases i <;> rfl
  | cons p l ih =>
    cases i with
    | zero =>
      cases a with
      | zero => exact absurd rfl h
      | succ a => simp [update_process]
    | succ i =>
      cases a with
      | zero => simp [update_process]
      | succ a => simpa [update_process] using ih i a (by simpa using h)

/-- A write that keeps `pid` and `ppid` keeps these fields of every process. -/
theorem map_update_process {β : Type} (g : process_t → β) (f : process_t → process_t)
    (hf : ∀ q, g (f q) = g q) (i : Nat) (l : List process_t) :
    (update_process f i l).map g = l.map g := by
  induction l generalizing i with
  | nil => cases i <;> rfl
  | cons p l ih => cases i <;> simp [update_process, hf, ih]

theorem search_process_list_congr {l l' : List process_t}
    (h : l.map (·.pid) = l'.map (·.pid)) (pid : pid_t) :
    search_process_list l pid = search_process_list l' pid := by
  induction l generalizing l' with
  | nil =>
    cases l' with
    | nil => rfl
    | cons _ _ => simp at h
  | cons c l ih =>
    cases l' with
    | nil => simp at h
    | cons c' l' =>
      simp only [List.map_cons, List.cons.injEq] at h
      simp only [search_process_list, h.1, ih h.2]

theorem process_at_pid_congr {l l' : List process_t}
    (h : l.map (·.pid) = l'.map (·.pid)) (a : Nat) :
    (process_at l a).pid = (process_at l' a).pid := by
  induction l generalizing l' a with
  | nil =>
    cases l' with
    | nil => rfl
    | cons _ _ => simp at h
  | cons c l ih =>
    cases l' with
    | nil => simp at h
    | cons c' l' =>
      simp only [List.map_cons, List.cons.injEq] at h
      cases a with
      | zero => simpa using h.1
      | succ a => simpa using ih h.2 a

theorem process_at_ppid_congr {l l' : List process_t}
    (h : l.map (·.ppid) = l'.map (·.ppid)) (a : Nat) :
    (process_at l a).ppid = (process_at l' a).ppid := by
  induction l generalizing l' a with
  | nil =>
    cases l' with
    | nil => rfl
    | cons _ _ => simp at h
  | cons c l ih =>
    cases l' with
    | nil => simp at h
    | cons c' l' =>
      simp only [List.map_cons, List.cons.injEq] at h
      cases a with
      | zero => simpa using h.1
      | succ a => simpa using ih h.2 a

theorem search_process_list_some {l : List process_t} {pid : pid_t} {j : Nat}
    (h : search_process_list l pid = some j) :
    j < l.length ∧ (process_at l j).pid = pid
      ∧ ∀ a, a < j → (process_at l a).pid ≠ pid := by
  induction l generalizing j with
  | nil => simp [search_process_list] at h
  | cons c l ih =>
    simp only [search_process_list] at h
    by_cases hc : c.pid = pid
    · rw [if_pos hc] at h
      cases h
      exact ⟨by simp, by simpa using hc, fun a ha => absurd ha (Nat.not_lt_zero a)⟩
    · rw [if_neg hc] at h
      cases hs : search_process_list l pid with
      | none => rw [hs] at h; cases h
      | some j' =>
        rw [hs] at h
        cases h
        obtain ⟨h1, h2, h3⟩ := ih hs
        refine ⟨by simpa using h1, by simpa using h2, ?_⟩
        intro a ha
        cases a with
        | zero => simpa using hc
        | succ a => simpa using h3 a (by omega)

theorem search_process_list_none {l : List process_t} {pid : pid_t} :
    search_process_list l pid = none ↔ ∀ q ∈ l, q.pid ≠ pid := by
  induction l with
  | nil => simp [search_process_list]
  | cons c l ih =>
    simp only [search_process_list, List.mem_cons, forall_eq_or_imp]
    by_cases hc : c.pid = pid
    · simp [hc]
    · rw [if_neg hc]
      cases hs : search_process_list l pid with
      | none => simpa [hc] using ih.1 hs
      | some j =>
        simp only [false_iff, not_and, reduceCtorEq]
        intro _ hall
        rw [ih.2 hall] at hs
        cases hs

/-! ### `sort_process_list` -/

theorem sort_link_perm (c : process_t) (h : List process_t) :
    (sort_link c h).Perm (c :: h) := by
  induction h with
  | nil => exact List.Perm.refl _
  | cons a t ih =>
    simp only [sort_link]
    split
    · exact List.Perm.refl _
    · exact (List.Perm.cons a ih).trans (List.Perm.swap c a t)

theorem sort_link_sorted (c : process_t) (h : List process_t)
    (hs : h.Pairwise (fun a b => a.pid ≤ b.pid)) :
    (sort_link c h).Pairwise (fun a b => a.pid ≤ b.pid) := by
  induction h with
  | nil => simp [sort_link]
  | cons a t ih =>
    simp only [sort_link]
    rw [List.pairwise_cons] at hs
    split
    · next hlt =>
      refine List.Pairwise.cons ?_ (List.Pairwise.cons hs.1 hs.2)
      intro b hb
      rcases List.mem_cons.1 hb with rfl | hb
      · exact le_of_lt hlt
      · exact le_trans (le_of_lt hlt) (hs.1 b hb)
    · next hge =>
      refine List.Pairwise.cons ?_ (ih hs.2)
      intro b hb
      rcases List.mem_cons.1 ((sort_link_perm c t).subset hb) with rfl | hb
      · exact not_lt.1 hge
      · exact hs.1 b hb

theorem foldl_sort_link_perm (l h : List process_t) :
    (l.foldl (fun h c => sort_link c h) h).Perm (l ++ h) := by
  induction l generalizing h with
  | nil => exact List.Perm.refl _
  | cons c l ih =>
    simp only [List.foldl_cons, List.cons_append]
    refine (ih _).trans ?_
    exact (List.Perm.append_left l (sort_link_perm c h)).trans List.perm_middle

theorem foldl_sort_link_sorted (l h : List process_t)
    (hs : h.Pairwise (fun a b => a.pid ≤ b.pid)) :
    (l.foldl (fun h c => sort_link c h) h).Pairwise (fun a b => a.pid ≤ b.pid) := by
  induction l generalizing h with
  | nil => exact hs
  | cons c l ih => exact ih _ (sort_link_sorted c h hs)

theorem sort_process_list_perm (l : List process_t) : (sort_process_list l).Perm l := by
  unfold sort_process_list
  split
  · exact List.Perm.refl _
  · exact List.Perm.refl _
  · simpa using foldl_sort_link_perm l []

theorem sort_process_list_sorted (l : List process_t) :
    (sort_process_list l).Pairwise (fun a b => a.pid ≤ b.pid) := by
  unfold sort_process_list
  split
  · exact List.Pairwise.nil
  · exact List.pairwise_singleton _ _
  · exact foldl_sort_link_sorted l [] List.Pairwise.nil

/-! ### Writes through a namespace pointer, loops -/

theorem update_under_child (f : namespace_t → namespace_t) (p : Path) (v : Visit) :
    Visit.update f (Step.child :: p) (Visit.under Step.child v)
      = Visit.under Step.child (Visit.update f p v) := by
  unfold Visit.update Visit.under
  by_cases h : v.node = p
  · simp [h]
  · simp [h]

theorem update_under_sibling (f : namespace_t → namespace_t) (p : Path) (v : Visit) :
    Visit.update f (Step.sibling :: p) (Visit.under Step.sibling v)
      = Visit.under Step.sibling (Visit.update f p v) := by
  unfold Visit.update Visit.under
  by_cases h : v.node = p
  · simp [h]
  · simp [h]

theorem update_under_ne (f : namespace_t → namespace_t) (s s' : Step) (hs : s ≠ s') (p : Path)
    (v : Visit) :
    Visit.update f (s :: p) (Visit.under s' v) = Visit.under s' v := by
  unfold Visit.update Visit.under
  rw [if_neg]
  simp only [List.cons.injEq, not_and]
  intro e; exact absurd e.symm hs

theorem update_under_nil (f : namespace_t → namespace_t) (s : Step) (v : Visit) :
    Visit.update f [] (Visit.under s v) = Visit.under s v := by
  unfold Visit.update Visit.under
  rw [if_neg]
  simp

theorem preorder_update_namespace (f : namespace_t → namespace_t) (t : tree_t) (p : Path) :
    preorder (update_namespace f t p) = (preorder t).map (Visit.update f p) := by
  induction t generalizing p with
  | NULL => rfl
  | node ns d ch sib ihc ihs =>
    have hmap : ∀ (g : Visit → Visit) (s : Step) (l : List Visit),
        (∀ v, g (Visit.under s v) = Visit.under s v) →
        List.map g (List.map (Visit.under s) l) = List.map (Visit.under s) l := by
      intro g s l hg
      rw [List.map_map]
      apply List.map_congr_left
      intro v _
      exact hg v
    cases p with
    | nil =>
      simp only [update_namespace, preorder, List.map_cons, List.map_append]
      rw [hmap _ _ _ (update_under_nil f _), hmap _ _ _ (update_under_nil f _)]
      simp [Visit.update]
    | cons st p =>
      cases st with
      | child =>
        simp only [update_namespace, preorder, List.map_cons, List.map_append, ihc]
        rw [hmap _ Step.sibling _ (update_under_ne f Step.child Step.sibling (by decide) p)]
        have : List.map (Visit.update f (Step.child :: p))
            (List.map (Visit.under Step.child) (preorder ch))
            = List.map (Visit.under Step.child) (List.map (Visit.update f p) (preorder ch)) := by
          rw [List.map_map, List.map_map]
          apply List.map_congr_left
          intro v _
          exact update_under_child f p v
        rw [this]
        simp [Visit.update]
      | sibling =>
        simp only [update_namespace, preorder, List.map_cons, List.map_append, ihs]
        rw [hmap _ Step.child _ (update_under_ne f Step.sibling Step.child (by decide) p)]
        have : List.map (Visit.update f (Step.sibling :: p))
            (List.map (Visit.under Step.sibling) (preorder sib))
            = List.map (Visit.under Step.sibling) (List.map (Visit.update f p) (preorder sib)) := by
          rw [List.map_map, List.map_map]
          apply List.map_congr_left
          intro v _
          exact update_under_sibling f p v
        rw [this]
        simp [Visit.update]

theorem for_loop_range' {σ : Type} (body : Nat → σ → Except Int σ) (P : Nat → σ → Prop)
    (m a : Nat) (s s' : σ) (h0 : P a s)
    (hstep : ∀ x s s', a ≤ x → x < a + m → P x s → body x s = .ok s' → P (x + 1) s')
    (h : for_loop body (List.range' a m) s = .ok s') : P (a + m) s' := by
  induction m generalizing a s with
  | zero =>
    simp only [List.range'_zero, for_loop, Except.ok.injEq] at h
    subst h; simpa using h0
  | succ m ih =>
    simp only [List.range'_succ, for_loop] at h
    cases hb : body a s with
    | error e => rw [hb] at h; cases h
    | ok s1 =>
      rw [hb] at h
      have h1 := hstep a s s1 (le_refl a) (by omega) h0 hb
      have := ih (a + 1) s1 h1 (fun x t t' hx1 hx2 => hstep x t t' (by omega) (by omega)) h
      simpa [Nat.add_assoc, Nat.add_comm 1 m] using this

/-- Invariant rule for a counting loop that ran to its end. -/
theorem for_loop_range {σ : Type} (body : Nat → σ → Except Int σ) (P : Nat → σ → Prop)
    (n : Nat) (s s' : σ) (h0 : P 0 s)
    (hstep : ∀ x s s', x < n → P x s → body x s = .ok s' → P (x + 1) s')
    (h : for_loop body (List.range n) s = .ok s') : P n s' := by
  rw [List.range_eq_range'] at h
  have := for_loop_range' body P n 0 s s' h0
    (fun x t t' _ hx => hstep x t t' (by omega)) h
  simpa using this

/-! ### One step of `build_info` -/

theorem length_update_row (g : map_t → map_t) (j : Nat) (l : List map_t) :
    (update_row g j l).length = l.length := by
  induction l generalizing j with
  | nil => cases j <;> rfl
  | cons r l ih => cases j <;> simp [update_row, ih]

theorem foldl_behind_uid_map (l : List (Nat × map_field × Nat)) (ns : namespace_t) :
    (l.foldl behind_uid_map ns).nid = ns.nid ∧ (l.foldl behind_uid_map ns).pnid = ns.pnid
    ∧ (l.foldl behind_uid_map ns).type = ns.type
    ∧ (l.foldl behind_uid_map ns).members = ns.members
    ∧ (l.foldl behind_uid_map ns).creator = ns.creator
    ∧ (l.foldl behind_uid_map ns).creator_pid = ns.creator_pid
    ∧ (l.foldl behind_uid_map ns).gid_map.length = ns.gid_map.length := by
  induction l generalizing ns with
  | nil => simp
  | cons w l ih =>
    simp only [List.foldl_cons]
    obtain ⟨h1, h2, h3, h4, h5, h6, h7⟩ := ih (behind_uid_map ns w)
    rw [h1, h2, h3, h4, h5, h6, h7]
    simp [behind_uid_map, length_update_row]

theorem behind_gid_map_keeps (ns : namespace_t) (w : Nat × map_field × Nat) :
    (behind_gid_map ns w).type = ns.type ∧ (behind_gid_map ns w).members = ns.members
    ∧ (behind_gid_map ns w).creator = ns.creator
    ∧ (behind_gid_map ns w).creator_pid = ns.creator_pid := by
  unfold behind_gid_map
  split <;> simp

theorem foldl_behind_gid_map (l : List (Nat × map_field × Nat)) (ns : namespace_t) :
    (l.foldl behind_gid_map ns).type = ns.type
    ∧ (l.foldl behind_gid_map ns).members = ns.members
    ∧ (l.foldl behind_gid_map ns).creator = ns.creator
    ∧ (l.foldl behind_gid_map ns).creator_pid = ns.creator_pid := by
  induction l generalizing ns with
  | nil => simp
  | cons w l ih =>
    simp only [List.foldl_cons]
    obtain ⟨h1, h2, h3, h4⟩ := ih (behind_gid_map ns w)
    obtain ⟨k1, k2, k3, k4⟩ := behind_gid_map_keeps ns w
    rw [h1, h2, h3, h4, k1, k2, k3, k4]
    simp

/-- The shape of a successful `read_maps` for a USER namespace. -/
theorem read_maps_user_ok {fs : procfs} {pid : pid_t} {ns ns' : namespace_t}
    (h : read_maps fs pid USER ns = .ok ns') :
    ∃ urows grows, fs.uid_map pid = some urows ∧ fs.gid_map pid = some grows
      ∧ ns' = (read_rows false fs.ltr grows 0
            ⟨((read_rows true fs.ltr urows 0 ⟨ns.uid_map, []⟩).behind.foldl behind_uid_map
              { ns with uid_map := (read_rows true fs.ltr urows 0 ⟨ns.uid_map, []⟩).rows }).gid_map,
             []⟩).behind.foldl behind_gid_map
          { ((read_rows true fs.ltr urows 0 ⟨ns.uid_map, []⟩).behind.foldl behind_uid_map
              { ns with uid_map := (read_rows true fs.ltr urows 0 ⟨ns.uid_map, []⟩).rows })
            with gid_map := (read_rows false fs.ltr grows 0
              ⟨((read_rows true fs.ltr urows 0 ⟨ns.uid_map, []⟩).behind.foldl behind_uid_map
                { ns with
                  uid_map := (read_rows true fs.ltr urows 0 ⟨ns.uid_map, []⟩).rows }).gid_map,
               []⟩).rows } := by
  unfold read_maps at h
  rw [if_pos rfl] at h
  cases hu : fs.uid_map pid with
  | none => rw [hu] at h; cases h
  | some urows =>
    cases hg : fs.gid_map pid with
    | none => rw [hu, hg] at h; cases h
    | some grows =>
      rw [hu, hg] at h
      simp only [get_proc_uid_map, get_proc_gid_map] at h
      exact ⟨urows, grows, rfl, rfl, (Except.ok.inj h).symm⟩

/-- What `read_maps` never changes. -/
theorem read_maps_ok {fs : procfs} {pid : pid_t} {type : Nat} {ns ns' : namespace_t}
    (h : read_maps fs pid type ns = .ok ns') :
    ns'.type = ns.type ∧ ns'.members = ns.members
      ∧ ns'.creator = ns.creator ∧ ns'.creator_pid = ns.creator_pid := by
  by_cases ht : type = USER
  · subst ht
    obtain ⟨urows, grows, -, -, rfl⟩ := read_maps_user_ok h
    obtain ⟨h1, h2, h3, h4⟩ := foldl_behind_gid_map
      (read_rows false fs.ltr grows 0
        ⟨((read_rows true fs.ltr urows 0 ⟨ns.uid_map, []⟩).behind.foldl behind_uid_map
          { ns with uid_map := (read_rows true fs.ltr urows 0 ⟨ns.uid_map, []⟩).rows }).gid_map,
         []⟩).behind
      { ((read_rows true fs.ltr urows 0 ⟨ns.uid_map, []⟩).behind.foldl behind_uid_map
          { ns with uid_map := (read_rows true fs.ltr urows 0 ⟨ns.uid_map, []⟩).rows })
        with gid_map := (read_rows false fs.ltr grows 0
          ⟨((read_rows true fs.ltr urows 0 ⟨ns.uid_map, []⟩).behind.foldl behind_uid_map
            { ns with
              uid_map := (read_rows true fs.ltr urows 0 ⟨ns.uid_map, []⟩).rows }).gid_map,
           []⟩).rows }
    obtain ⟨-, -, k3, k4, k5, k6, -⟩ := foldl_behind_uid_map
      (read_rows true fs.ltr urows 0 ⟨ns.uid_map, []⟩).behind
      { ns with uid_map := (read_rows true fs.ltr urows 0 ⟨ns.uid_map, []⟩).rows }
    rw [h1, h2, h3, h4]
    exact ⟨k3, k4, k5, k6⟩
  · unfold read_maps at h
    rw [if_neg ht] at h
    cases h
    simp

theorem store_field_inside {m : map_memory} {j : Nat} (f : map_field) (v : Nat)
    (h : j < m.rows.length) :
    (store_field m j f v).behind = m.behind
    ∧ (store_field m j f v).rows.length = m.rows.length := by
  unfold store_field
  rw [if_pos h]
  simp [length_update_row]

/-- A `gid_map` file with at most one row is read without a store behind the array. -/
theorem read_rows_inside (ltr : Bool) {rows : List (Nat × Nat × Nat)} (hr : rows.length ≤ 1)
    {gm : List map_t} (hg : gm.length = MAP_LIMIT) :
    (read_rows false ltr rows 0 ⟨gm, []⟩).behind = [] := by
  have h5 : MAP_LIMIT = 5 := rfl
  cases rows with
  | nil => rfl
  | cons r rest =>
    cases rest with
    | cons _ _ => simp at hr
    | nil =>
      simp only [read_rows, Nat.zero_add, h5, Nat.lt_irrefl, if_true, show (3 : Nat) < 5 by omega]
      unfold fscanf_row store_value
      simp only [Bool.false_eq_true, if_false]
      cases ltr
      · simp only [Bool.false_eq_true, if_false]
        obtain ⟨a1, a2⟩ := store_field_inside (m := ⟨gm, []⟩) (j := 0 + 2) .inside (r.1 % 2 ^ 32)
          (by simp [hg, h5])
        obtain ⟨b1, b2⟩ := store_field_inside
          (m := store_field ⟨gm, []⟩ (0 + 2) .inside (r.1 % 2 ^ 32)) (j := 0 + 1) .outside
          (r.2.1 % 2 ^ 32) (by rw [a2]; simp [hg, h5])
        obtain ⟨c1, -⟩ := store_field_inside
          (m := store_field (store_field ⟨gm, []⟩ (0 + 2) .inside (r.1 % 2 ^ 32)) (0 + 1)
            .outside (r.2.1 % 2 ^ 32)) (j := 0) .length (r.2.2 % 2 ^ 32)
          (by rw [b2, a2]; simp [hg, h5])
        rw [c1, b1, a1]
      · simp only [if_true]
        obtain ⟨a1, a2⟩ := store_field_inside (m := ⟨gm, []⟩) (j := 0) .inside (r.1 % 2 ^ 32)
          (by simp [hg, h5])
        obtain ⟨b1, b2⟩ := store_field_inside
          (m := store_field ⟨gm, []⟩ 0 .inside (r.1 % 2 ^ 32)) (j := 0 + 1) .outside
          (r.2.1 % 2 ^ 32) (by rw [a2]; simp [hg, h5])
        obtain ⟨c1, -⟩ := store_field_inside
          (m := store_field (store_field ⟨gm, []⟩ 0 .inside (r.1 % 2 ^ 32)) (0 + 1)
            .outside (r.2.1 % 2 ^ 32)) (j := 0 + 2) .length (r.2.2 % 2 ^ 32)
          (by rw [b2, a2]; simp [hg, h5])
        rw [c1, b1, a1]

/-- When the map readers stay inside their arrays `read_maps` leaves the ids alone. -/
theorem read_maps_intact {fs : procfs} {pid : pid_t} {type : Nat} {ns ns' : namespace_t}
    (h : read_maps fs pid type ns = .ok ns') (hg : ns.gid_map.length = MAP_LIMIT)
    (hi : intact fs type) : ns'.nid = ns.nid ∧ ns'.pnid = ns.pnid := by
  by_cases ht : type = USER
  · subst ht
    obtain ⟨urows, grows, -, hgr, rfl⟩ := read_maps_user_ok h
    obtain ⟨k1, k2, -, -, -, -, k7⟩ := foldl_behind_uid_map
      (read_rows true fs.ltr urows 0 ⟨ns.uid_map, []⟩).behind
      { ns with uid_map := (read_rows true fs.ltr urows 0 ⟨ns.uid_map, []⟩).rows }
    rw [read_rows_inside fs.ltr (hi rfl pid grows hgr) (k7.trans hg)]
    exact ⟨k1, k2⟩
  · unfold read_maps at h
    rw [if_neg ht] at h
    cases h
    exact ⟨rfl, rfl⟩

/-- The three ways in which one step of the loop over the types succeeds. -/
theorem build_namespace_ok {fs : procfs} {i : Nat} {p : Option Nat} {type : Nat}
    {info info' : info_t} (h : build_namespace fs i p type info = .ok info') :
    (fs.get_proc_namespace (process_at info.process i).pid type = none
      ∧ info'.forest = info.forest
      ∧ info'.process = update_process (set_nsp type none) i info.process
      ∧ info'.args = info.args)
    ∨ (∃ nid ns_tree, fs.get_proc_namespace (process_at info.process i).pid type = some nid
      ∧ search_namespace_tree (info.forest type) nid = some ns_tree
      ∧ info'.forest = set_forest type
          (update_namespace (add_member i) (info.forest type) ns_tree) info.forest
      ∧ info'.process = update_process (set_nsp type (some nid)) i info.process
      ∧ info'.args = info.args)
    ∨ (∃ nid ns, fs.get_proc_namespace (process_at info.process i).pid type = some nid
      ∧ search_namespace_tree (info.forest type) nid = none
      ∧ (intact fs type → ns.nid = nid) ∧ ns.type = type ∧ ns.members = [i]
      ∧ ns.creator = some i
      ∧ ns.creator_pid = (process_at info.process i).pid
      ∧ (intact fs type → ns.pnid = parent_nid info.process p type 0)
      ∧ info'.forest = set_forest type (insert_namespace_tree (info.forest type) ns) info.forest
      ∧ info'.process = update_process (set_nsp type (some ns.nid)) i info.process
      ∧ info'.args = info.args) := by
  unfold build_namespace at h
  cases hr : fs.get_proc_namespace (process_at info.process i).pid type with
  | none =>
    simp only [hr, Except.ok.injEq] at h
    subst h
    exact Or.inl ⟨rfl, rfl, rfl, rfl⟩
  | some nid =>
    simp only [hr] at h
    right
    cases hs : search_namespace_tree (info.forest type) nid with
    | some ns_tree =>
      simp only [hs, Except.ok.injEq] at h
      subst h
      left
      refine ⟨nid, ns_tree, rfl, hs, rfl, ?_, rfl⟩
      have hm := (search_some hs).2
      cases hn : (subtree (info.forest type) ns_tree).namespace with
      | none => rw [hn] at hm; simp [nid_matches] at hm
      | some n =>
        rw [hn] at hm
        simp only [nid_matches, beq_iff_eq] at hm
        simp [hm]
    | none =>
      simp only [hs] at h
      right
      cases hm : read_maps fs (process_at info.process i).pid type
          { create_empty_namespace with nid := nid, type := type } with
      | error e => simp only [hm] at h; cases h
      | ok ns =>
        simp only [hm, Except.ok.injEq] at h
        subst h
        have hk := read_maps_ok hm
        have hi := fun hint => read_maps_intact hm rfl hint
        refine ⟨nid, _, rfl, hs, ?_, ?_, ?_, rfl, rfl, ?_, rfl, rfl, rfl⟩
        · exact fun hint => (hi hint).1
        · exact hk.1
        · simp [hk.2.1, insert_process_list, create_empty_namespace]
        · intro hint
          simp [(hi hint).2, create_empty_namespace]

theorem resolved_to_succ (fs : procfs) (S : List process_t) (k : Nat) (nid : ino_t) (i : Nat) :
    resolved_to fs S k nid (i + 1)
      = resolved_to fs S k nid i
        ++ (if fs.get_proc_namespace (process_at S i).pid k = some nid then [i] else []) := by
  unfold resolved_to
  rw [List.range_succ, List.filter_append]
  congr 1
  by_cases h : fs.get_proc_namespace (process_at S i).pid k = some nid
  · simp [h]
  · simp [h]

theorem resolved_to_lt {fs : procfs} {S : List process_t} {k : Nat} {nid : ino_t} {i a : Nat}
    (h : a ∈ resolved_to fs S k nid i) :
    a < i ∧ fs.get_proc_namespace (process_at S a).pid k = some nid := by
  unfold resolved_to at h
  rw [List.mem_filter] at h
  exact ⟨List.mem_range.1 h.1, by simpa using h.2⟩

/-- Two nodes of a forest with the same pointer are the same node. -/
theorem preorder_node_inj {t : tree_t} {v w : Visit} (hv : v ∈ preorder t) (hw : w ∈ preorder t)
    (h : v.node = w.node) : v = w := by
  have a := (mem_preorder t v).1 hv
  have b := (mem_preorder t w).1 hw
  obtain ⟨p, n, d⟩ := v
  obtain ⟨q, m, e⟩ := w
  simp only at h a b
  subst h
  simp only [Visit.mk.injEq, true_and]
  exact ⟨a.2.1.symm.trans b.2.1, a.2.2.symm.trans b.2.2⟩

/-- With unique ids, two nodes with the same id are the same node. -/
theorem unique_nid {t : tree_t}
    (hu : ((preorder t).map (fun v => v.ns.map (·.nid))).Nodup)
    {v w : Visit} (hv : v ∈ preorder t) (hw : w ∈ preorder t)
    (h : v.ns.map (·.nid) = w.ns.map (·.nid)) : v = w :=
  List.inj_on_of_nodup_map hu hv hw h

theorem kind_inv_skip {fs : procfs} {S : List process_t} {k i : Nat} {t : tree_t}
    {slot slot' : Nat → Option ino_t} (hinv : kind_inv fs S k i t slot)
    (hr : fs.get_proc_namespace (process_at S i).pid k = none)
    (hi : slot' i = none) (ho : ∀ a, a ≠ i → slot' a = slot a) :
    kind_inv fs S k (i + 1) t slot' := by
  refine ⟨?_, ?_, ?_, hinv.unique, ?_, hinv.placed⟩
  · intro a ha
    by_cases e : a = i
    · subst e; rw [hi, hr]
    · rw [ho a e]; exact hinv.slot_done a (by omega)
  · intro a ha
    rw [ho a (by omega)]; exact hinv.slot_todo a (by omega)
  · intro v hv
    obtain ⟨ns, h1, h2, h3, h4⟩ := hinv.records v hv
    refine ⟨ns, h1, h2, ?_, h4⟩
    rw [resolved_to_succ, hr]
    simpa using h3
  · intro a ha m hm
    by_cases e : a = i
    · subst e; rw [hr] at hm; cases hm
    · exact hinv.present a (by omega) m hm

@[simp] theorem update_node (f : namespace_t → namespace_t) (p : Path) (v : Visit) :
    (Visit.update f p v).node = v.node := by
  unfold Visit.update; split <;> rfl

@[simp] theorem update_depth (f : namespace_t → namespace_t) (p : Path) (v : Visit) :
    (Visit.update f p v).depth = v.depth := by
  unfold Visit.update; split <;> rfl

theorem update_add_member_ns (i : Nat) (p : Path) (v : Visit) :
    (Visit.update (add_member i) p v).ns
      = if v.node = p then v.ns.map (add_member i) else v.ns := by
  unfold Visit.update; split <;> rfl

theorem update_add_member_nid (i : Nat) (p : Path) (v : Visit) :
    (Visit.update (add_member i) p v).ns.map (·.nid) = v.ns.map (·.nid) := by
  rw [update_add_member_ns]
  split
  · cases v.ns <;> rfl
  · rfl

theorem update_add_member_matches (i : Nat) (p : Path) (v : Visit) (m : ino_t) :
    nid_matches (Visit.update (add_member i) p v).ns m = nid_matches v.ns m := by
  rw [update_add_member_ns]
  split
  · cases v.ns <;> rfl
  · rfl

theorem mem_preorder_update {f : namespace_t → namespace_t} {t : tree_t} {p : Path} {v : Visit} :
    v ∈ preorder (update_namespace f t p) ↔ ∃ w ∈ preorder t, Visit.update f p w = v := by
  rw [preorder_update_namespace, List.mem_map]

theorem kind_inv_member {fs : procfs} {S : List process_t} {k i : Nat} {t : tree_t}
    {slot slot' : Nat → Option ino_t} {nid : ino_t} {path : Path}
    (hinv : kind_inv fs S k i t slot)
    (hr : fs.get_proc_namespace (process_at S i).pid k = some nid)
    (hs : search_namespace_tree t nid = some path)
    (hi : slot' i = some nid) (ho : ∀ a, a ≠ i → slot' a = slot a) :
    kind_inv fs S k (i + 1) (update_namespace (add_member i) t path) slot' := by
  have hsome := search_some hs
  have hv0 : (⟨path, (subtree t path).namespace, (subtree t path).depthOf⟩ : Visit)
      ∈ preorder t := (mem_preorder t _).2 ⟨hsome.1, rfl, rfl⟩
  refine ⟨?_, ?_, ?_, ?_, ?_, ?_⟩
  · intro a ha
    by_cases e : a = i
    · subst e; rw [hi, hr]
    · rw [ho a e]; exact hinv.slot_done a (by omega)
  · intro a ha
    rw [ho a (by omega)]; exact hinv.slot_todo a (by omega)
  · intro v hv
    obtain ⟨w, hw, rfl⟩ := mem_preorder_update.1 hv
    obtain ⟨ns, h1, h2, h3, c, h4, h5, h6, h7⟩ := hinv.records w hw
    rw [update_add_member_ns]
    by_cases e : w.node = path
    · have hw0 := preorder_node_inj hw hv0 e
      have hn : ns.nid = nid := by
        have := hsome.2
        rw [hw0] at h1
        simp only at h1
        rw [h1] at this
        simpa [nid_matches] using this
      rw [if_pos e, h1]
      refine ⟨add_member i ns, rfl, h2, ?_, c, ?_, h5, h6, h7⟩
      · show insert_process_list ns.members i = resolved_to fs S k ns.nid (i + 1)
        rw [resolved_to_succ, hn, hr, if_pos rfl, insert_process_list_eq, h3, hn]
      · show (insert_process_list ns.members i).head? = some c
        rw [insert_process_list_eq]
        cases hm : ns.members with
        | nil => rw [hm] at h4; simp at h4
        | cons x xs => rw [hm] at h4; simpa using h4
    · rw [if_neg e]
      refine ⟨ns, h1, h2, ?_, c, h4, h5, h6, h7⟩
      rw [resolved_to_succ, hr, if_neg, List.append_nil]
      · exact h3
      · intro hc
        simp only [Option.some.injEq] at hc
        apply e
        have : w = ⟨path, (subtree t path).namespace, (subtree t path).depthOf⟩ := by
          apply unique_nid hinv.unique hw hv0
          rw [h1]
          have := hsome.2
          cases hn : (subtree t path).namespace with
          | none => rw [hn] at this; simp [nid_matches] at this
          | some n0 =>
            rw [hn] at this
            simp only [nid_matches, beq_iff_eq] at this
            simp [this, hc]
        rw [this]
  · rw [preorder_update_namespace, List.map_map]
    have : ((fun v : Visit => v.ns.map (·.nid)) ∘ Visit.update (add_member i) path)
        = (fun v : Visit => v.ns.map (·.nid)) := by
      funext v; exact update_add_member_nid i path v
    rw [this]
    exact hinv.unique
  · intro a ha m hm
    by_cases e : a = i
    · subst e
      rw [hr] at hm
      cases hm
      exact ⟨_, mem_preorder_update.2 ⟨_, hv0, rfl⟩, by
        rw [update_add_member_matches]; exact hsome.2⟩
    · obtain ⟨v, hv, hvm⟩ := hinv.present a (by omega) m hm
      exact ⟨_, mem_preorder_update.2 ⟨v, hv, rfl⟩, by
        rw [update_add_member_matches]; exact hvm⟩
  · intro v hv ns hns hp
    obtain ⟨w, hw, rfl⟩ := mem_preorder_update.1 hv
    rw [update_add_member_ns] at hns
    have : ∃ nw, w.ns = some nw ∧ nw.pnid = ns.pnid := by
      by_cases e : w.node = path
      · rw [if_pos e] at hns
        cases hw' : w.ns with
        | none => rw [hw'] at hns; cases hns
        | some nw =>
          rw [hw'] at hns
          simp only [Option.map_some', Option.some.injEq] at hns
          exact ⟨nw, rfl, by rw [← hns]; rfl⟩
      · rw [if_neg e] at hns
        exact ⟨ns, hns, rfl⟩
    obtain ⟨nw, hnw, hpw⟩ := this
    obtain ⟨u, hu, hum, hc⟩ := hinv.placed w hw nw hnw (by rw [hpw]; exact hp)
    refine ⟨_, mem_preorder_update.2 ⟨u, hu, rfl⟩, ?_, ?_⟩
    · rw [update_add_member_matches, ← hpw]; exact hum
    · simpa [Visit.child_of] using hc

/-- The nodes after an insertion: the new node and the nodes there were; a
namespace that is not an orphan and whose parent id is found is placed as a
child of the node found. -/
theorem preorder_insert (t : tree_t) (ns : namespace_t) :
    ∃ p d, (preorder (insert_namespace_tree t ns)).Perm (⟨p, some ns, d⟩ :: preorder t)
      ∧ ∀ pm, is_orphaned_namespace (some ns) = 0 →
          search_namespace_tree t ns.pnid = some pm →
          (∃ c, p = pm ++ Step.child :: List.replicate c Step.sibling)
            ∧ d = (subtree t pm).depthOf + 1 := by
  cases t with
  | NULL =>
    refine ⟨[], 0, List.Perm.refl _, ?_⟩
    intro pm _ h
    simp [search_namespace_tree] at h
  | node m e c s =>
    have hne : tree_t.node m e c s ≠ .NULL := by simp
    refine ⟨new_path (.node m e c s) (insert_parent (.node m e c s) ns),
      (subtree (.node m e c s) (insert_parent (.node m e c s) ns)).depthOf + 1, ?_, ?_⟩
    · rw [insert_eq_attach ns hne]
      exact preorder_attach _ _ _ _ (insert_parent_valid ns hne)
    · intro pm ho hs
      rw [insert_parent_found ho hs]
      exact ⟨⟨_, rfl⟩, rfl⟩

theorem expected_pnid_ne_zero {fs : procfs} {S : List process_t} {k c : Nat}
    (h : expected_pnid fs S k c ≠ 0) :
    ∃ j, j < c ∧ fs.get_proc_namespace (process_at S j).pid k = some (expected_pnid fs S k c) := by
  unfold expected_pnid at h ⊢
  cases hs : search_process_list S (process_at S c).ppid with
  | none => simp [hs] at h
  | some j =>
    simp only [hs] at h ⊢
    by_cases hj : j < c
    · rw [if_pos hj] at h ⊢
      cases hr : fs.get_proc_namespace (process_at S j).pid k with
      | none => simp [hr] at h
      | some m => exact ⟨j, hj, by simp [hr]⟩
    · simp [hj] at h

theorem kind_inv_new {fs : procfs} {S : List process_t} {k i : Nat} {t : tree_t}
    {slot slot' : Nat → Option ino_t} {nid : ino_t} {ns : namespace_t}
    (hinv : kind_inv fs S k i t slot)
    (hr : fs.get_proc_namespace (process_at S i).pid k = some nid)
    (hs : search_namespace_tree t nid = none)
    (hnid : ns.nid = nid) (htype : ns.type = k) (hmem : ns.members = [i])
    (hcr : ns.creator = some i) (hcp : ns.creator_pid = (process_at S i).pid)
    (hpn : ns.pnid = expected_pnid fs S k i)
    (hi : slot' i = some nid) (ho : ∀ a, a ≠ i → slot' a = slot a) :
    kind_inv fs S k (i + 1) (insert_namespace_tree t ns) slot' := by
  obtain ⟨p, d, hperm, hplace⟩ := preorder_insert t ns
  have hnone := search_none.1 hs
  have hold : ∀ v, v ∈ preorder t → v ∈ preorder (insert_namespace_tree t ns) :=
    fun v hv => hperm.symm.subset (List.mem_cons_of_mem _ hv)
  have hnew : (⟨p, some ns, d⟩ : Visit) ∈ preorder (insert_namespace_tree t ns) :=
    hperm.symm.subset (List.mem_cons_self _ _)
  have hfirst : resolved_to fs S k nid i = [] := by
    rw [List.eq_nil_iff_forall_not_mem]
    intro a ha
    obtain ⟨h1, h2⟩ := resolved_to_lt ha
    obtain ⟨v, hv, hm⟩ := hinv.present a h1 nid h2
    rw [hnone v hv] at hm
    cases hm
  refine ⟨?_, ?_, ?_, ?_, ?_, ?_⟩
  · intro a ha
    by_cases e : a = i
    · subst e; rw [hi, hr]
    · rw [ho a e]; exact hinv.slot_done a (by omega)
  · intro a ha
    rw [ho a (by omega)]; exact hinv.slot_todo a (by omega)
  · intro v hv
    rcases List.mem_cons.1 (hperm.subset hv) with e | hv'
    · subst e
      refine ⟨ns, rfl, htype, ?_, i, by simp [hmem], hcr, hcp, hpn⟩
      rw [resolved_to_succ, hnid, hfirst, hr, if_pos rfl, hmem]
      rfl
    · obtain ⟨n', h1, h2, h3, h4⟩ := hinv.records v hv'
      refine ⟨n', h1, h2, ?_, h4⟩
      rw [resolved_to_succ, hr, if_neg, List.append_nil]
      · exact h3
      · intro hc
        simp only [Option.some.injEq] at hc
        have := hnone v hv'
        rw [h1] at this
        simp [nid_matches, hc] at this
  · have := (hperm.map (fun v : Visit => v.ns.map (·.nid))).nodup_iff.2
    apply this
    simp only [List.map_cons, List.nodup_cons, Option.map_some']
    refine ⟨?_, hinv.unique⟩
    intro hmem'
    obtain ⟨v, hv, hvn⟩ := List.mem_map.1 hmem'
    have := hnone v hv
    cases hn : v.ns with
    | none => rw [hn] at hvn; cases hvn
    | some n' =>
      rw [hn] at hvn this
      simp only [Option.map_some', Option.some.injEq] at hvn
      simp [nid_matches, hvn, hnid] at this
  · intro a ha m hm
    by_cases e : a = i
    · subst e
      rw [hr] at hm
      cases hm
      exact ⟨_, hnew, by simp [nid_matches, hnid]⟩
    · obtain ⟨v, hv, hvm⟩ := hinv.present a (by omega) m hm
      exact ⟨v, hold v hv, hvm⟩
  · intro v hv n' hn' hp
    rcases List.mem_cons.1 (hperm.subset hv) with e | hv'
    · subst e
      simp only [Option.some.injEq] at hn'
      subst hn'
      rw [hpn] at hp
      obtain ⟨j, hj, hrj⟩ := expected_pnid_ne_zero hp
      rw [← hpn] at hrj hp
      obtain ⟨u, hu, hum⟩ := hinv.present j hj _ hrj
      cases hsp : search_namespace_tree t ns.pnid with
      | none =>
        rw [search_none.1 hsp u hu] at hum
        cases hum
      | some pm =>
        have ho : is_orphaned_namespace (some ns) = 0 :=
          (is_orphaned_eq_zero_iff ns).2 (Or.inl hp)
        obtain ⟨hc, hd⟩ := hplace pm ho hsp
        have hpm := search_some hsp
        refine ⟨⟨pm, (subtree t pm).namespace, (subtree t pm).depthOf⟩,
          hold _ ((mem_preorder t _).2 ⟨hpm.1, rfl, rfl⟩), hpm.2, hc, hd⟩
    · obtain ⟨u, hu, hum, hc⟩ := hinv.placed v hv' n' hn' hp
      exact ⟨u, hold u hu, hum, hc⟩

/-! ### The loops of `build_info` -/

theorem same_facts_length {S : List process_t} {info : info_t} (h : same_facts S info) :
    info.process.length = S.length := by
  have := congrArg List.length h.1
  simpa using this

theorem same_facts_update {S : List process_t} {info : info_t} (h : same_facts S info)
    (f : process_t → process_t) (hpid : ∀ q, (f q).pid = q.pid) (hppid : ∀ q, (f q).ppid = q.ppid)
    (i : Nat) (forest : Nat → tree_t) :
    same_facts S { info with process := update_process f i info.process, forest := forest } := by
  constructor
  · show (update_process f i info.process).map (·.pid) = _
    rw [map_update_process _ f hpid]; exact h.1
  · show (update_process f i info.process).map (·.ppid) = _
    rw [map_update_process _ f hppid]; exact h.2

theorem slots_set_nsp_self (info : info_t) (type : Nat) (v : Option ino_t) (i : Nat)
    (hi : i < info.process.length) (forest : Nat → tree_t) :
    slots { info with process := update_process (set_nsp type v) i info.process,
                      forest := forest } type i = v := by
  show (process_at (update_process (set_nsp type v) i info.process) i).nsp type = v
  rw [process_at_update_self _ _ _ hi]
  simp [set_nsp]

theorem slots_set_nsp_other (info : info_t) (type : Nat) (v : Option ino_t) (i a : Nat)
    (ha : a ≠ i) (forest : Nat → tree_t) (k : Nat) :
    slots { info with process := update_process (set_nsp type v) i info.process,
                      forest := forest } k a = slots info k a := by
  show (process_at (update_process (set_nsp type v) i info.process) a).nsp k = _
  rw [process_at_update_other _ _ _ _ ha]
  rfl

theorem slots_set_nsp_kind (info : info_t) (type : Nat) (v : Option ino_t) (i : Nat)
    (forest : Nat → tree_t) (k : Nat) (hk : k ≠ type) :
    slots { info with process := update_process (set_nsp type v) i info.process,
                      forest := forest } k = slots info k := by
  funext a
  show (process_at (update_process (set_nsp type v) i info.process) a).nsp k = _
  by_cases ha : a = i
  · subst ha
    by_cases hi : a < info.process.length
    · rw [process_at_update_self _ _ _ hi]
      simp [set_nsp, hk, slots]
    · have h1 : process_at (update_process (set_nsp type v) a info.process) a
          = create_empty_process := by
        unfold process_at
        rw [List.getD_eq_default]
        rw [length_update_process]; omega
      have h2 : process_at info.process a = create_empty_process := by
        unfold process_at
        rw [List.getD_eq_default]; omega
      simp [slots, h1, h2]
  · rw [process_at_update_other _ _ _ _ ha]
    rfl

theorem parent_nid_eq {fs : procfs} {S : List process_t} {type i : Nat} {info : info_t}
    (hinv : kind_inv fs S type i (info.forest type) (slots info type)) :
    parent_nid info.process (search_process_list S (process_at S i).ppid) type 0
      = expected_pnid fs S type i := by
  unfold parent_nid expected_pnid
  cases hs : search_process_list S (process_at S i).ppid with
  | none => rfl
  | some j =>
    simp only
    have hslot : (process_at info.process j).nsp type = slots info type j := rfl
    by_cases hj : j < i
    · rw [if_pos hj, hslot, hinv.slot_done j hj]
      cases fs.get_proc_namespace (process_at S j).pid type <;> rfl
    · rw [if_neg hj, hslot, hinv.slot_todo j (by omega)]

theorem set_forest_self (type : Nat) (t : tree_t) (forest : Nat → tree_t) :
    set_forest type t forest type = t := by
  simp [set_forest]

theorem set_forest_other (type : Nat) (t : tree_t) (forest : Nat → tree_t) (k : Nat)
    (hk : k ≠ type) : set_forest type t forest k = forest k := by
  simp [set_forest, hk]

/-- A step of the loop over the types keeps the pids and leaves the other kinds alone. -/
theorem build_namespace_others {fs : procfs} {S : List process_t} {i type : Nat}
    {p : Option Nat} {info info' : info_t} (hS : same_facts S info)
    (h : build_namespace fs i p type info = .ok info') :
    same_facts S info'
    ∧ ∀ k, k ≠ type → info'.forest k = info.forest k ∧ slots info' k = slots info k := by
  rcases build_namespace_ok h with ⟨hr, hf, hp, hargs⟩ | ⟨nid, path, hr, hs, hf, hp, hargs⟩
      | ⟨nid, ns, hr, hs, h1, h2, h3, h4, h5, h6, hf, hp, hargs⟩
  · have e : info' = { info with process := update_process (set_nsp type none) i info.process,
                                  forest := info.forest } := by
      cases info'; simp only at hf hp hargs; subst hf hp hargs; rfl
    subst e
    refine ⟨same_facts_update hS (set_nsp type none) (fun _ => rfl) (fun _ => rfl) i _, ?_⟩
    intro k hk
    exact ⟨rfl, slots_set_nsp_kind info type none i _ k hk⟩
  · have e : info' = { info with
        process := update_process (set_nsp type (some nid)) i info.process,
        forest := set_forest type (update_namespace (add_member i) (info.forest type) path)
          info.forest } := by
      cases info'; simp only at hf hp hargs; subst hf hp hargs; rfl
    subst e
    refine ⟨same_facts_update hS (set_nsp type (some nid)) (fun _ => rfl) (fun _ => rfl) i _, ?_⟩
    intro k hk
    exact ⟨set_forest_other _ _ _ k hk, slots_set_nsp_kind info type _ i _ k hk⟩
  · have e : info' = { info with
        process := update_process (set_nsp type (some ns.nid)) i info.process,
        forest := set_forest type (insert_namespace_tree (info.forest type) ns) info.forest } := by
      cases info'; simp only at hf hp hargs; subst hf hp hargs; rfl
    subst e
    refine ⟨same_facts_update hS (set_nsp type (some ns.nid)) (fun _ => rfl) (fun _ => rfl) i _,
      ?_⟩
    intro k hk
    exact ⟨set_forest_other _ _ _ k hk, slots_set_nsp_kind info type _ i _ k hk⟩

/-- One step of the loop over the types: the state of the type handled advances,
everything of the other types stays. -/
theorem build_namespace_inv {fs : procfs} {S : List process_t} {i type : Nat}
    {info info' : info_t} (hS : same_facts S info) (hi : i < S.length)
    (hint : intact fs type)
    (hinv : kind_inv fs S type i (info.forest type) (slots info type))
    (h : build_namespace fs i (search_process_list S (process_at S i).ppid) type info
      = .ok info') :
    kind_inv fs S type (i + 1) (info'.forest type) (slots info' type)
    ∧ same_facts S info'
    ∧ ∀ k, k ≠ type → info'.forest k = info.forest k ∧ slots info' k = slots info k := by
  refine ⟨?_, build_namespace_others hS h⟩
  have hlen := same_facts_length hS
  have hpid : (process_at info.process i).pid = (process_at S i).pid :=
    process_at_pid_congr hS.1 i
  rcases build_namespace_ok h with ⟨hr, hf, hp, hargs⟩ | ⟨nid, path, hr, hs, hf, hp, hargs⟩
      | ⟨nid, ns, hr, hs, h1, h2, h3, h4, h5, h6, hf, hp, hargs⟩
  · have e : info' = { info with process := update_process (set_nsp type none) i info.process,
                                  forest := info.forest } := by
      cases info'; simp only at hf hp hargs; subst hf hp hargs; rfl
    rw [hpid] at hr
    subst e
    exact kind_inv_skip hinv hr (slots_set_nsp_self info type none i (by omega) _)
      (fun a ha => slots_set_nsp_other info type none i a ha _ type)
  · have e : info' = { info with
        process := update_process (set_nsp type (some nid)) i info.process,
        forest := set_forest type (update_namespace (add_member i) (info.forest type) path)
          info.forest } := by
      cases info'; simp only at hf hp hargs; subst hf hp hargs; rfl
    rw [hpid] at hr
    subst e
    show kind_inv fs S type (i + 1) (set_forest type _ info.forest type) _
    rw [set_forest_self]
    exact kind_inv_member hinv hr hs (slots_set_nsp_self info type _ i (by omega) _)
      (fun a ha => slots_set_nsp_other info type _ i a ha _ type)
  · have e : info' = { info with
        process := update_process (set_nsp type (some ns.nid)) i info.process,
        forest := set_forest type (insert_namespace_tree (info.forest type) ns) info.forest } := by
      cases info'; simp only at hf hp hargs; subst hf hp hargs; rfl
    rw [hpid] at hr h5
    subst e
    show kind_inv fs S type (i + 1) (set_forest type _ info.forest type) _
    rw [set_forest_self]
    exact kind_inv_new hinv hr hs (h1 hint) h2 h3 h4 h5 ((h6 hint).trans (parent_nid_eq hinv))
      ((slots_set_nsp_self info type _ i (by omega) _).trans (congrArg some (h1 hint)))
      (fun a ha => slots_set_nsp_other info type _ i a ha _ type)

theorem process_at_mem_or (l : List process_t) (a : Nat) :
    process_at l a ∈ l ∨ process_at l a = create_empty_process := by
  induction l generalizing a with
  | nil => right; simp [process_at]
  | cons q l ih =>
    cases a with
    | zero => left; simp
    | succ a =>
      rcases ih a with h | h
      · left; simpa using List.mem_cons_of_mem _ h
      · right; simpa using h

theorem slots_parent (info : info_t) (p : Option Nat) (i k : Nat) :
    slots { info with
            process := update_process (fun q => { q with parent := p }) i info.process } k
      = slots info k := by
  funext a
  show (process_at (update_process (fun q => { q with parent := p }) i info.process) a).nsp k = _
  by_cases ha : a = i
  · subst ha
    by_cases hi : a < info.process.length
    · rw [process_at_update_self _ _ _ hi]; rfl
    · have h1 : process_at (update_process (fun q => { q with parent := p }) a info.process) a
          = create_empty_process := by
        unfold process_at
        rw [List.getD_eq_default]
        rw [length_update_process]; omega
      have h2 : process_at info.process a = create_empty_process := by
        unfold process_at
        rw [List.getD_eq_default]; omega
      simp [slots, h1, h2]
  · rw [process_at_update_other _ _ _ _ ha]; rfl

/-- One pass of the loop over the process list. -/
theorem build_process_inv {fs : procfs} {S : List process_t} {i : Nat} {info info' : info_t}
    (hi : i < S.length) (hinv : build_inv fs S i info)
    (h : build_process fs i info = .ok info') : build_inv fs S (i + 1) info' := by
  obtain ⟨hS, hk, hN⟩ := hinv
  unfold build_process at h
  have hp : search_process_list info.process (process_at info.process i).ppid
      = search_process_list S (process_at S i).ppid := by
    rw [search_process_list_congr hS.1, process_at_ppid_congr hS.2]
  simp only [hp] at h
  have key := for_loop_range
    (build_namespace fs i (search_process_list S (process_at S i).ppid))
    (fun t x => same_facts S x
      ∧ (∀ k, k < t → intact fs k → kind_inv fs S k (i + 1) (x.forest k) (slots x k))
      ∧ (∀ k, t ≤ k → k < NSCOUNT → intact fs k →
          kind_inv fs S k i (x.forest k) (slots x k))
      ∧ (∀ k, NSCOUNT ≤ k → x.forest k = .NULL))
    NSCOUNT _ info' ?_ ?_ h
  · exact ⟨key.1, fun k hk' => key.2.1 k hk', key.2.2.2⟩
  · refine ⟨?_, fun k hk' => absurd hk' (Nat.not_lt_zero k), ?_, hN⟩
    · exact same_facts_update hS
        (fun q => { q with parent := search_process_list S (process_at S i).ppid })
        (fun _ => rfl) (fun _ => rfl) i info.forest
    · intro k _ hk' hint
      rw [slots_parent]
      exact hk k hk' hint
  · intro t x x' ht ⟨hSx, hlt, hge, hNx⟩ hb
    obtain ⟨h2, h3⟩ := build_namespace_others hSx hb
    refine ⟨h2, ?_, ?_, ?_⟩
    · intro k hk' hint
      by_cases e : k = t
      · subst e
        exact (build_namespace_inv hSx hi hint (hge k (le_refl k) ht hint) hb).1
      · rw [(h3 k e).1, (h3 k e).2]; exact hlt k (by omega) hint
    · intro k hk1 hk2 hint
      have e : k ≠ t := by omega
      rw [(h3 k e).1, (h3 k e).2]; exact hge k (by omega) hk2 hint
    · intro k hk'
      have e : k ≠ t := by omega
      rw [(h3 k e).1]; exact hNx k hk'

theorem kind_inv_init (fs : procfs) (S : List process_t) (k : Nat) (slot : Nat → Option ino_t)
    (h : ∀ a, slot a = none) : kind_inv fs S k 0 .NULL slot :=
  ⟨fun a ha => absurd ha (Nat.not_lt_zero a), fun a _ => h a,
   fun v hv => by simp [preorder] at hv, by simp [preorder],
   fun a ha => absurd ha (Nat.not_lt_zero a), fun v hv => by simp [preorder] at hv⟩

/-- The state after a successful `build_info` started in the initial state: every
process of the sorted list has been handled for every type. -/
theorem build_info_inv {fs : procfs} {info info' : info_t} (hinit : initial info)
    (h : build_info fs (some info) = .ok info') :
    build_inv fs (sort_process_list info.process) (sort_process_list info.process).length info'
    ∧ info.args ≠ none ∧ info.process ≠ [] := by
  unfold build_info at h
  simp only at h
  split at h
  · cases h
  · next hc =>
    simp only [Bool.or_eq_true, Option.isNone_iff_eq_none, List.isEmpty_iff, not_or] at hc
    refine ⟨?_, hc.1, hc.2⟩
    refine for_loop_range (build_process fs) (build_inv fs (sort_process_list info.process))
      _ _ info' ?_ (fun x s s' hx hP hb => build_process_inv hx hP hb) h
    refine ⟨⟨rfl, rfl⟩, fun k _ _ => ?_, fun k _ => hinit.1 k⟩
    show kind_inv fs _ k 0 (info.forest k) _
    rw [hinit.1 k]
    apply kind_inv_init
    intro a
    show (process_at (sort_process_list info.process) a).nsp k = none
    rcases process_at_mem_or (sort_process_list info.process) a with hm | hm
    · exact (hinit.2 _ ((sort_process_list_perm _).subset hm)).2 k
    · rw [hm]; rfl

/-! ### Consequences for the final state -/

theorem nid_matches_iff {ns : Option namespace_t} {m : ino_t} :
    nid_matches ns m = true ↔ ns.map (·.nid) = some m := by
  cases ns with
  | none => simp [nid_matches]
  | some n => simp [nid_matches]

/-- With unique ids the search finds the one node that has the id. -/
theorem search_of_unique {t : tree_t}
    (hu : ((preorder t).map (fun v => v.ns.map (·.nid))).Nodup) {u : Visit}
    (hmem : u ∈ preorder t) {m : ino_t} (hm : nid_matches u.ns m = true) :
    search_namespace_tree t m = some u.node := by
  cases hs : search_namespace_tree t m with
  | none =>
    rw [search_none.1 hs u hmem] at hm
    cases hm
  | some p =>
    obtain ⟨h1, h2⟩ := search_some hs
    have hw : (⟨p, (subtree t p).namespace, (subtree t p).depthOf⟩ : Visit) ∈ preorder t :=
      (mem_preorder t _).2 ⟨h1, rfl, rfl⟩
    have := unique_nid hu hw hmem (by
      rw [nid_matches_iff.1 hm]; exact nid_matches_iff.1 h2)
    rw [← this]

/-- With unique ids the nodes that have a given id are one node. -/
theorem filter_of_unique {l : List Visit}
    (hu : (l.map (fun v => v.ns.map (·.nid))).Nodup) {u : Visit}
    (hmem : u ∈ l) {m : ino_t} (hm : nid_matches u.ns m = true) :
    l.filter (fun w => nid_matches w.ns m) = [u] := by
  induction l with
  | nil => simp at hmem
  | cons x l ih =>
    simp only [List.map_cons, List.nodup_cons] at hu
    rcases List.mem_cons.1 hmem with e | hin
    · subst e
      rw [List.filter_cons, hm, if_pos rfl]
      congr 1
      rw [List.filter_eq_nil_iff]
      intro w hw hwm
      apply hu.1
      rw [nid_matches_iff.1 hm, ← nid_matches_iff.1 hwm]
      exact List.mem_map.2 ⟨w, hw, rfl⟩
    · have hx : nid_matches x.ns m = false := by
        by_contra hc
        have hc' : nid_matches x.ns m = true := by simpa using hc
        apply hu.1
        rw [nid_matches_iff.1 hc', ← nid_matches_iff.1 hm]
        exact List.mem_map.2 ⟨u, hin, rfl⟩
      rw [List.filter_cons, hx]
      simpa using ih hu.2 hin

theorem map_pid_range (l : List process_t) :
    (List.range l.length).map (fun a => (process_at l a).pid) = l.map (·.pid) := by
  apply List.ext_getElem
  · simp
  · intro n h1 h2
    simp [process_at, List.getD_eq_getElem?_getD, List.getElem?_eq_getElem (by simpa using h2)]

theorem process_at_mem {l : List process_t} {a : Nat} (h : a < l.length) :
    process_at l a ∈ l := by
  induction l generalizing a with
  | nil => simp at h
  | cons q l ih =>
    cases a with
    | zero => simp
    | succ a => simpa using List.mem_cons_of_mem _ (ih (by simpa using h))

theorem pairwise_process_at {R : process_t → process_t → Prop} {l : List process_t}
    (h : l.Pairwise R) {a b : Nat} (hab : a < b) (hb : b < l.length) :
    R (process_at l a) (process_at l b) := by
  induction l generalizing a b with
  | nil => simp at hb
  | cons q l ih =>
    rw [List.pairwise_cons] at h
    cases b with
    | zero => omega
    | succ b =>
      cases a with
      | zero =>
        simp only [process_at_zero, process_at_succ]
        exact h.1 _ (process_at_mem (by simpa using hb))
      | succ a =>
        simpa using ih h.2 (by omega) (by simpa using hb)

/-- In the sorted list a smaller pid stands at a smaller position. -/
theorem sorted_position_lt {l : List process_t}
    (h : l.Pairwise (fun a b => a.pid ≤ b.pid)) {i j : Nat} (hj : j < l.length)
    (hlt : (process_at l j).pid < (process_at l i).pid) : j < i := by
  by_contra hc
  rcases Nat.lt_or_ge i j with h1 | h1
  · exact absurd hlt (not_lt.2 (pairwise_process_at h h1 hj))
  · have : i = j := by omega
    subst this
    exact lt_irrefl _ hlt

theorem resolved_to_head {fs : procfs} {S : List process_t} {k : Nat} {n : ino_t} {i N : Nat}
    (hi : i < N) (hr : fs.get_proc_namespace (process_at S i).pid k = some n)
    (hfirst : ∀ a, a < i → fs.get_proc_namespace (process_at S a).pid k ≠ some n) :
    (resolved_to fs S k n N).head? = some i := by
  obtain ⟨m, rfl⟩ : ∃ m, N = i + (m + 1) := ⟨N - i - 1, by omega⟩
  unfold resolved_to
  rw [List.range_add, List.filter_append, List.range_succ_eq_map]
  have h0 : (List.range i).filter
      (fun a => fs.get_proc_namespace (process_at S a).pid k == some n) = [] := by
    rw [List.filter_eq_nil_iff]
    intro a ha
    simpa using hfirst a (List.mem_range.1 ha)
  rw [h0]
  simp [hr]

theorem initial_demo : initial (mkinfo demo_registry) := by
  refine ⟨fun _ => rfl, ?_⟩
  intro q hq
  simp only [mkinfo, demo_registry, List.mem_cons, List.mem_singleton, List.not_mem_nil,
    or_false] at hq
  rcases hq with rfl | rfl | rfl | rfl | rfl <;> exact ⟨rfl, fun _ => rfl⟩

theorem build_demo : build_info demo_fs (some (mkinfo demo_registry)) = .ok demo_final := by
  rfl

theorem initial_demo_user : initial (mkinfo demo_user) := by
  refine ⟨fun _ => rfl, ?_⟩
  intro q hq
  simp only [mkinfo, demo_user, List.mem_cons, List.mem_singleton, List.not_mem_nil,
    or_false] at hq
  rcases hq with rfl | rfl <;> exact ⟨rfl, fun _ => rfl⟩

/-- The record of kind `k` with id `n` after `build_info`, when the process at
position `i` of the sorted list is the first that resolves kind `k` to `n`. -/
theorem build_info_record {fs : procfs} {info info' : info_t} (hinit : initial info)
    (h : build_info fs (some info) = .ok info') {k i : Nat} {n : ino_t} (hk : k < NSCOUNT)
    (hint : intact fs k) (hi : i < (sort_process_list info.process).length)
    (hr : fs.get_proc_namespace (process_at (sort_process_list info.process) i).pid k = some n)
    (hfirst : ∀ a, a < i →
      fs.get_proc_namespace (process_at (sort_process_list info.process) a).pid k ≠ some n) :
    ∃ v ∈ preorder (info'.forest k), ∃ ns, v.ns = some ns ∧ ns.nid = n ∧ ns.type = k
      ∧ ns.members = resolved_to fs (sort_process_list info.process) k n
          (sort_process_list info.process).length
      ∧ ns.creator = some i
      ∧ ns.creator_pid = (process_at (sort_process_list info.process) i).pid
      ∧ ns.pnid = expected_pnid fs (sort_process_list info.process) k i := by
  have hinv := ((build_info_inv hinit h).1).2.1 k hk hint
  obtain ⟨v, hv, hm⟩ := hinv.present i hi n hr
  obtain ⟨ns, h1, h2, h3, c, h4, h5, h6, h7⟩ := hinv.records v hv
  have hn : ns.nid = n := by
    rw [h1] at hm
    simpa [nid_matches] using hm
  rw [hn] at h3
  have hc : c = i := by
    rw [h3, resolved_to_head hi hr hfirst] at h4
    simpa using h4.symm
  subst hc
  exact ⟨v, hv, ns, h1, hn, h2, h3, h5, h6, h7⟩

theorem count_eq_length_preorder (t : tree_t) :
    count_namespace_tree t = (preorder t).length := by
  induction t with
  | NULL => rfl
  | node ns d ch sib ihc ihs =>
    simp only [count_namespace_tree, preorder, List.length_cons, List.length_append,
      List.length_map, ihc, ihs]
    omega

/-- A step of `build_info` changes the number of nodes of a forest only when the
search for the resolved id over that forest found nothing. -/
theorem build_namespace_inserts {fs : procfs} {i : Nat} {p : Option Nat} {type : Nat}
    {x x' : info_t} (h : build_namespace fs i p type x = .ok x')
    (hc : count_namespace_tree (x'.forest type) ≠ count_namespace_tree (x.forest type)) :
    ∃ nid, fs.get_proc_namespace (process_at x.process i).pid type = some nid
      ∧ search_namespace_tree (x.forest type) nid = none := by
  rcases build_namespace_ok h with ⟨_, hf, _, _⟩ | ⟨nid, path, _, _, hf, _, _⟩
      | ⟨nid, ns, hr, hs, _⟩
  · rw [hf] at hc
    exact absurd rfl hc
  · rw [hf, set_forest_self, count_eq_length_preorder, count_eq_length_preorder,
      preorder_update_namespace, List.length_map] at hc
    exact absurd rfl hc
  · exact ⟨nid, hr, hs⟩

/-! ### Kinds whose ids the map readers leave alone -/

/-- For a kind whose ids the map readers leave alone, two nodes of the forest that
carry the same namespace id are the same node. -/
theorem unique_of_intact {fs : procfs} {info info' : info_t} (hinit : initial info)
    (h : build_info fs (some info) = .ok info') {k : Nat} (hint : intact fs k) :
    ∀ v ∈ preorder (info'.forest k), ∀ w ∈ preorder (info'.forest k),
      v.ns.map (·.nid) = w.ns.map (·.nid) → v = w := by
  have hb := (build_info_inv hinit h).1
  by_cases hk : k < NSCOUNT
  · exact fun v hv w hw e => unique_nid (hb.2.1 k hk hint).unique hv hw e
  · rw [hb.2.2 k (by omega)]
    simp [preorder]

/-- The record of a kind whose ids the map readers leave alone, with its members. -/
theorem members_of_intact (fs : procfs) (info info' : info_t) (hinit : initial info)
    (h : build_info fs (some info) = .ok info')
    (hpids : (info.process.map (·.pid)).Nodup) (k : Nat) (hk : k < NSCOUNT)
    (hint : intact fs k) (n : ino_t)
    (q : process_t) (hq : q ∈ info.process) (hqn : fs.get_proc_namespace q.pid k = some n) :
    ∃ v ns, (preorder (info'.forest k)).filter (fun w => nid_matches w.ns n) = [v]
      ∧ v.ns = some ns ∧ ns.nid = n ∧ ns.type = k
      ∧ search_namespace_tree (info'.forest k) n = some v.node
      ∧ ns.members.map (fun a => (process_at info'.process a).pid)
          = ((sort_process_list info.process).map (·.pid)).filter
              (fun pid => fs.get_proc_namespace pid k == some n)
      ∧ (ns.members.map (fun a => (process_at info'.process a).pid)).Pairwise (· < ·)
      ∧ ns.members.Nodup
      ∧ (∀ a, a < info'.process.length →
          (a ∈ ns.members ↔ fs.get_proc_namespace (process_at info'.process a).pid k = some n))
      ∧ (∀ a ∈ ns.members, (process_at info'.process a).nsp k = some n) := by
  obtain ⟨hS, hK, _⟩ := (build_info_inv hinit h).1
  have hinv := hK k hk hint
  have hlen := same_facts_length hS
  have hpid : ∀ a, (process_at info'.process a).pid
      = (process_at (sort_process_list info.process) a).pid :=
    fun a => process_at_pid_congr hS.1 a
  -- the position of `q` in the sorted list
  have hqS : q ∈ sort_process_list info.process := (sort_process_list_perm _).symm.subset hq
  obtain ⟨a0, ha0, hqa⟩ := List.getElem_of_mem hqS
  have hqa' : process_at (sort_process_list info.process) a0 = q := by
    simp [process_at, List.getD_eq_getElem?_getD, List.getElem?_eq_getElem ha0, hqa]
  obtain ⟨v, hv, hm⟩ := hinv.present a0 ha0 n (by rw [hqa']; exact hqn)
  obtain ⟨ns, h1, h2, h3, _⟩ := hinv.records v hv
  have hn : ns.nid = n := by
    rw [h1] at hm
    simpa [nid_matches] using hm
  rw [hn] at h3
  have hmap : ns.members.map (fun a => (process_at info'.process a).pid)
      = ((sort_process_list info.process).map (·.pid)).filter
          (fun pid => fs.get_proc_namespace pid k == some n) := by
    rw [h3, ← map_pid_range, List.filter_map]
    unfold resolved_to
    apply List.map_congr_left
    intro a _
    exact hpid a
  have hsorted : ((sort_process_list info.process).map (·.pid)).Pairwise (· < ·) := by
    have h1 : ((sort_process_list info.process).map (·.pid)).Pairwise (· ≤ ·) := by
      rw [List.pairwise_map]; exact sort_process_list_sorted _
    have h2 : ((sort_process_list info.process).map (·.pid)).Nodup :=
      (((sort_process_list_perm info.process).map (·.pid)).nodup_iff).2 hpids
    exact (h1.and h2).imp (fun hab => lt_of_le_of_ne hab.1 hab.2)
  refine ⟨v, ns, filter_of_unique hinv.unique hv hm, h1, hn, h2,
    search_of_unique hinv.unique hv hm, hmap, ?_, ?_, ?_, ?_⟩
  · rw [hmap]; exact hsorted.sublist (List.filter_sublist _)
  · rw [h3]; exact (List.nodup_range _).filter _
  · intro a ha
    rw [h3, hpid a]
    unfold resolved_to
    rw [List.mem_filter, List.mem_range]
    constructor
    · intro hx; simpa using hx.2
    · intro hx; exact ⟨by omega, by simpa using hx⟩
  · intro a ha
    rw [h3] at ha
    obtain ⟨hlt, hra⟩ := resolved_to_lt ha
    show slots info' k a = some n
    rw [hinv.slot_done a hlt, hra]

/-- The record created for the process that discovers a namespace of a kind whose ids
the map readers leave alone. -/
theorem new_namespace_of_intact (fs : procfs) (info info' : info_t) (hinit : initial info)
    (h : build_info fs (some info) = .ok info') (k : Nat) (hk : k < NSCOUNT)
    (hint : intact fs k) (i : Nat)
    (hi : i < (sort_process_list info.process).length) (n : ino_t)
    (hr : fs.get_proc_namespace (process_at (sort_process_list info.process) i).pid k = some n)
    (hfirst : ∀ a, a < i →
      fs.get_proc_namespace (process_at (sort_process_list info.process) a).pid k ≠ some n) :
    ∃ v ∈ preorder (info'.forest k), ∃ ns, v.ns = some ns ∧ ns.nid = n ∧ ns.type = k
      ∧ ns.creator_pid = (process_at (sort_process_list info.process) i).pid
      ∧ ns.creator = some i ∧ ns.members.head? = some i
      ∧ ns.pnid =
          (match search_process_list (sort_process_list info.process)
              (process_at (sort_process_list info.process) i).ppid with
            | some j =>
              if j < i then
                (fs.get_proc_namespace (process_at (sort_process_list info.process) j).pid
                  k).getD 0
              else 0
            | none => 0)
      ∧ (search_process_list (sort_process_list info.process)
            (process_at (sort_process_list info.process) i).ppid = none →
          (process_at (sort_process_list info.process) i).pid ≠ 1 →
          ns.pnid = 0 ∧ is_orphaned_namespace (some ns) = 1) := by
  obtain ⟨v, hv, ns, h1, h2, h3, h4, h5, h6, h7⟩ := build_info_record hinit h hk hint hi hr hfirst
  refine ⟨v, hv, ns, h1, h2, h3, h6, h5, ?_, h7, ?_⟩
  · rw [h4]; exact resolved_to_head hi hr hfirst
  · intro hnone hpid
    have h0 : ns.pnid = 0 := by
      rw [h7]; unfold expected_pnid; rw [hnone]
    refine ⟨h0, (is_orphaned_eq_one_iff ns).2 ⟨h0, ?_⟩⟩
    rw [h6]; exact hpid

/-- The place of the node of a new namespace of a kind whose ids the map readers leave
alone, when the parent process was handled before. -/
theorem child_placement_of_intact (fs : procfs) (info info' : info_t) (hinit : initial info)
    (h : build_info fs (some info) = .ok info') (k : Nat) (hk : k < NSCOUNT)
    (hint : intact fs k) (i j : Nat)
    (hi : i < (sort_process_list info.process).length) (n m : ino_t)
    (hparent : search_process_list (sort_process_list info.process)
      (process_at (sort_process_list info.process) i).ppid = some j)
    (hlt : (process_at (sort_process_list info.process) j).pid
      < (process_at (sort_process_list info.process) i).pid)
    (hm : fs.get_proc_namespace (process_at (sort_process_list info.process) j).pid k = some m)
    (hm0 : m ≠ 0)
    (hr : fs.get_proc_namespace (process_at (sort_process_list info.process) i).pid k = some n)
    (hfirst : ∀ a, a < i →
      fs.get_proc_namespace (process_at (sort_process_list info.process) a).pid k ≠ some n) :
    ∃ pm pn, search_namespace_tree (info'.forest k) m = some pm
      ∧ search_namespace_tree (info'.forest k) n = some pn
      ∧ (∃ c, pn = pm ++ Step.child :: List.replicate c Step.sibling)
      ∧ (subtree (info'.forest k) pn).depthOf = (subtree (info'.forest k) pm).depthOf + 1 := by
  have hinv := ((build_info_inv hinit h).1).2.1 k hk hint
  obtain ⟨v, hv, ns, h1, h2, _, _, _, _, h7⟩ := build_info_record hinit h hk hint hi hr hfirst
  have hj := (search_process_list_some hparent).1
  have hji : j < i := sorted_position_lt (sort_process_list_sorted _) hj hlt
  have hp : ns.pnid = m := by
    rw [h7]; unfold expected_pnid; rw [hparent]; simp [hji, hm]
  obtain ⟨u, hu, hum, hc, hd⟩ := hinv.placed v hv ns h1 (by rw [hp]; exact hm0)
  rw [hp] at hum
  refine ⟨u.node, v.node, search_of_unique hinv.unique hu hum,
    search_of_unique hinv.unique hv (by simp [h1, nid_matches, h2]), hc, ?_⟩
  rw [((mem_preorder _ v).1 hv).2.2, ((mem_preorder _ u).1 hu).2.2]
  exact hd

/-! ### Orphans in the forest -/

/-- The root is the namespace inserted first; later insertions do not replace it. -/
theorem forest_of_root (n : namespace_t) (l : List namespace_t) :
    (forest_of (n :: l)).namespace = some n ∧ forest_of (n :: l) ≠ .NULL := by
  induction l using List.reverseRecOn with
  | nil => exact ⟨rfl, by simp [forest_of, insert_namespace_tree]⟩
  | append_singleton l m ih =>
    have e : forest_of (n :: (l ++ [m])) = insert_namespace_tree (forest_of (n :: l)) m := by
      rw [← List.cons_append, forest_of_snoc]
    rw [e]
    refine ⟨?_, insert_ne_NULL _ _⟩
    rw [insert_eq_attach m ih.2]
    have := (subtree_attach_old (forest_of (n :: l)) (insert_parent (forest_of (n :: l)) m)
      (.node (some m) ((subtree (forest_of (n :: l)) (insert_parent (forest_of (n :: l)) m)).depthOf
        + 1) .NULL .NULL) [] (by simpa using ih.2)).1
    simpa using this.trans ih.1

/-- In a chain below the root the orphans are nodes of the chain itself. -/
theorem level1_orphan_node {c : tree_t} (h : level1 c) {v : Visit} (hv : v ∈ preorder c)
    (ho : v.orphaned = true) : ∃ j, v.node = List.replicate j Step.sibling := by
  induction c generalizing v with
  | NULL => simp [preorder] at hv
  | node ns d ch sib _ ihs =>
    obtain ⟨_, _, h1, h2⟩ := h
    rcases mem_preorder_node.1 hv with e | ⟨w, hw, e⟩ | ⟨w, hw, e⟩
    · subst e; exact ⟨0, rfl⟩
    · subst e
      have := no_orphan_mem h1 hw
      rw [orphaned_under] at ho
      rw [this] at ho
      cases ho
    · subst e
      obtain ⟨j, hj⟩ := ihs h2 hw ho
      exact ⟨j + 1, by simp [Visit.under, hj, List.replicate_succ]⟩

/-- In a forest of the shape built by insertion an orphan is the root or a child
of the root. -/
theorem forest_shape_orphan_node {t : tree_t} (h : forest_shape t) {v : Visit}
    (hv : v ∈ preorder t) (ho : v.orphaned = true) :
    v.node = [] ∨ ∃ j, v.node = Step.child :: List.replicate j Step.sibling := by
  cases t with
  | NULL => simp [preorder] at hv
  | node ns d ch sib =>
    obtain ⟨_, _, hs, h2⟩ := h
    subst hs
    rcases mem_preorder_node.1 hv with e | ⟨w, hw, e⟩ | ⟨w, hw, e⟩
    · subst e; exact Or.inl rfl
    · subst e
      obtain ⟨j, hj⟩ := level1_orphan_node h2 hw ho
      exact Or.inr ⟨j, by simp [Visit.under, hj]⟩
    · simp [preorder] at hw

/-- C11. Orphans are shallow: in a forest built by insertions from the empty forest
a node classified orphaned is stored with depth 1 as a child of the root, or it
is the root, the namespace inserted first, with depth 0; so no orphan has depth 2
or more. -/
theorem forest_orphans_shallow (l : List namespace_t) :
    ∀ v ∈ preorder (forest_of l), v.orphaned = true →
      (v.depth = 1 ∧ ∃ j, v.node = Step.child :: List.replicate j Step.sibling)
      ∨ (v.depth = 0 ∧ v.node = [] ∧ v.ns = l.head?) := by
  intro v hv ho
  have hm := (mem_preorder _ v).1 hv
  have hd := forest_depth l v.node hm.1
  rw [hm.2.2] at hd
  rcases forest_shape_orphan_node (forest_shape_forest_of l) hv ho with e | ⟨j, e⟩
  · right
    refine ⟨by rw [hd, e]; rfl, e, ?_⟩
    cases l with
    | nil => simp [forest_of, preorder] at hv
    | cons n l =>
      rw [← hm.2.1, e]
      exact (forest_of_root n l).1
  · left
    refine ⟨?_, j, e⟩
    rw [hd, e, List.count_cons_self, List.count_replicate]
    simp

theorem forest_orphans_shallow_witness :
    (⟨[Step.child], some (mkns 2 0 50), 1⟩ : Visit)
        ∈ preorder (forest_of [mkns 1 0 1, mkns 2 0 50, mkns 3 2 51])
    ∧ (⟨[Step.child], some (mkns 2 0 50), 1⟩ : Visit).orphaned = true
    ∧ (((⟨[Step.child], some (mkns 2 0 50), 1⟩ : Visit).depth = 1
        ∧ ∃ j, (⟨[Step.child], some (mkns 2 0 50), 1⟩ : Visit).node
            = Step.child :: List.replicate j Step.sibling)
      ∨ ((⟨[Step.child], some (mkns 2 0 50), 1⟩ : Visit).depth = 0
        ∧ (⟨[Step.child], some (mkns 2 0 50), 1⟩ : Visit).node = []
        ∧ (⟨[Step.child], some (mkns 2 0 50), 1⟩ : Visit).ns
            = [mkns 1 0 1, mkns 2 0 50, mkns 3 2 51].head?)) :=
  ⟨by decide, by decide,
   forest_orphans_shallow [mkns 1 0 1, mkns 2 0 50, mkns 3 2 51]
     ⟨[Step.child], some (mkns 2 0 50), 1⟩ (by decide) (by decide)⟩

/-- C13. Parented sequence: for every tree the visits of `print_parented_namespaces`
are the nodes reachable from the tree that are not classified orphaned, each once
and in pre-order, wherever they lie (also below an orphan). -/
theorem print_parented_sequence (t : tree_t) :
    print_parented_namespaces t = (preorder t).filter (fun v => !v.orphaned)
    ∧ (print_parented_namespaces t).Nodup
    ∧ (print_parented_namespaces t).Sublist (preorder t)
    ∧ (∀ v, v ∈ print_parented_namespaces t
        ↔ (v ∈ preorder t ∧ is_orphaned_namespace v.ns = 0)) := by
  refine ⟨print_parented_eq_filter t, (print_parented_sublist t).nodup (preorder_nodup t),
    print_parented_sublist t, ?_⟩
  intro v
  rw [mem_print_parented]
  simp [Visit.orphaned]

/-! ### The forests of `build_info` are built by insertions -/

theorem nid_matches_map {g : namespace_t → namespace_t} (hg : keeps_ids g)
    (ns : Option namespace_t) (x : ino_t) : nid_matches (ns.map g) x = nid_matches ns x := by
  cases ns with
  | none => rfl
  | some n => simp [nid_matches, (hg n).1]

theorem search_map_namespaces {g : namespace_t → namespace_t} (hg : keeps_ids g) (t : tree_t)
    (x : ino_t) : search_namespace_tree (map_namespaces g t) x = search_namespace_tree t x := by
  induction t with
  | NULL => rfl
  | node ns d ch sib ihc ihs =>
    simp only [map_namespaces, search_namespace_tree, nid_matches_map hg, ihc, ihs]

theorem is_orphaned_map {g : namespace_t → namespace_t} (hg : keeps_ids g) (ns : namespace_t) :
    is_orphaned_namespace (some (g ns)) = is_orphaned_namespace (some ns) := by
  simp [is_orphaned_namespace, (hg ns).2.1, (hg ns).2.2]

theorem childOf_map (g : namespace_t → namespace_t) (t : tree_t) :
    (map_namespaces g t).childOf = map_namespaces g t.childOf := by
  cases t <;> rfl

theorem siblingOf_map (g : namespace_t → namespace_t) (t : tree_t) :
    (map_namespaces g t).siblingOf = map_namespaces g t.siblingOf := by
  cases t <;> rfl

theorem depthOf_map (g : namespace_t → namespace_t) (t : tree_t) :
    (map_namespaces g t).depthOf = t.depthOf := by
  cases t <;> rfl

theorem subtree_map (g : namespace_t → namespace_t) (t : tree_t) (p : Path) :
    subtree (map_namespaces g t) p = map_namespaces g (subtree t p) := by
  induction p generalizing t with
  | nil => rfl
  | cons s p ih =>
    cases s with
    | child => simp only [subtree_cons_child, childOf_map, ih]
    | sibling => simp only [subtree_cons_sibling, siblingOf_map, ih]

theorem append_sibling_map (g : namespace_t → namespace_t) (a c : tree_t) :
    append_sibling (map_namespaces g a) (map_namespaces g c)
      = map_namespaces g (append_sibling a c) := by
  induction a with
  | NULL => rfl
  | node ns d ch sib _ ihs => simp only [map_namespaces, append_sibling, ihs]

theorem attach_map (g : namespace_t → namespace_t) (t : tree_t) (p : Path) (c : tree_t) :
    attach (map_namespaces g t) p (map_namespaces g c) = map_namespaces g (attach t p c) := by
  induction t generalizing p with
  | NULL => rfl
  | node ns d ch sib ihc ihs =>
    cases p with
    | nil => simp only [map_namespaces, attach, append_sibling_map]
    | cons s p =>
      cases s with
      | child => simp only [map_namespaces, attach, ihc]
      | sibling => simp only [map_namespaces, attach, ihs]

theorem insert_parent_map {g : namespace_t → namespace_t} (hg : keeps_ids g) (t : tree_t)
    (ns : namespace_t) : insert_parent (map_namespaces g t) (g ns) = insert_parent t ns := by
  unfold insert_parent
  rw [is_orphaned_map hg, search_map_namespaces hg, (hg ns).2.1]

theorem insert_map {g : namespace_t → namespace_t} (hg : keeps_ids g) (t : tree_t)
    (ns : namespace_t) :
    insert_namespace_tree (map_namespaces g t) (g ns)
      = map_namespaces g (insert_namespace_tree t ns) := by
  cases t with
  | NULL => rfl
  | node m d ch sib =>
    have h1 : map_namespaces g (.node m d ch sib) ≠ .NULL := by simp [map_namespaces]
    rw [insert_eq_attach _ h1, insert_eq_attach ns (by simp), insert_parent_map hg,
      subtree_map, depthOf_map, ← attach_map]
    rfl

theorem forest_of_map {g : namespace_t → namespace_t} (hg : keeps_ids g)
    (l : List namespace_t) : forest_of (l.map g) = map_namespaces g (forest_of l) := by
  induction l using List.reverseRecOn with
  | nil => rfl
  | append_singleton l ns ih =>
    rw [List.map_append, List.map_singleton, forest_of_snoc, forest_of_snoc, ih, insert_map hg]

theorem keeps_ids_add_member_to (nid : ino_t) (i : Nat) : keeps_ids (add_member_to nid i) := by
  intro ns
  unfold add_member_to
  split <;> simp [add_member]

theorem map_namespaces_id {nid : ino_t} {i : Nat} {t : tree_t}
    (h : ∀ v ∈ preorder t, nid_matches v.ns nid = false) :
    map_namespaces (add_member_to nid i) t = t := by
  induction t with
  | NULL => rfl
  | node ns d ch sib ihc ihs =>
    have h0 := h ⟨[], ns, d⟩ (mem_preorder_node.2 (Or.inl rfl))
    have hc : ∀ v ∈ preorder ch, nid_matches v.ns nid = false := fun v hv =>
      h (Visit.under Step.child v) (mem_preorder_node.2 (Or.inr (Or.inl ⟨v, hv, rfl⟩)))
    have hs : ∀ v ∈ preorder sib, nid_matches v.ns nid = false := fun v hv =>
      h (Visit.under Step.sibling v) (mem_preorder_node.2 (Or.inr (Or.inr ⟨v, hv, rfl⟩)))
    simp only [map_namespaces, ihc hc, ihs hs]
    congr 1
    cases ns with
    | none => rfl
    | some n =>
      simp only [nid_matches, beq_eq_false_iff_ne, ne_eq] at h0
      simp [add_member_to, h0]

/-- With unique ids, the write through the pointer found by the search is the
change of the records that have the id. -/
theorem update_eq_map {nid : ino_t} {i : Nat} {t : tree_t} {path : Path}
    (hm : nid_matches (subtree t path).namespace nid = true)
    (hu : ∀ v ∈ preorder t, nid_matches v.ns nid = true → v.node = path) :
    update_namespace (add_member i) t path = map_namespaces (add_member_to nid i) t := by
  induction t generalizing path with
  | NULL => simp [nid_matches, tree_t.namespace] at hm
  | node ns d ch sib ihc ihs =>
    cases path with
    | nil =>
      have hcn : ∀ v ∈ preorder ch, nid_matches v.ns nid = false := by
        intro v hv
        by_contra hx
        have := hu (Visit.under Step.child v)
          (mem_preorder_node.2 (Or.inr (Or.inl ⟨v, hv, rfl⟩))) (by simpa using hx)
        simp [Visit.under] at this
      have hsn : ∀ v ∈ preorder sib, nid_matches v.ns nid = false := by
        intro v hv
        by_contra hx
        have := hu (Visit.under Step.sibling v)
          (mem_preorder_node.2 (Or.inr (Or.inr ⟨v, hv, rfl⟩))) (by simpa using hx)
        simp [Visit.under] at this
      simp only [update_namespace, map_namespaces, map_namespaces_id hcn, map_namespaces_id hsn]
      congr 1
      cases ns with
      | none => rfl
      | some n =>
        simp only [subtree_nil, namespace_node, nid_matches, beq_iff_eq] at hm
        simp [add_member_to, hm]
    | cons s p =>
      have h0 : nid_matches ns nid = false := by
        by_contra hx
        have := hu ⟨[], ns, d⟩ (mem_preorder_node.2 (Or.inl rfl)) (by simpa using hx)
        simp at this
      have hns : ns.map (add_member_to nid i) = ns := by
        cases ns with
        | none => rfl
        | some n =>
          simp only [nid_matches, beq_eq_false_iff_ne, ne_eq] at h0
          simp [add_member_to, h0]
      cases s with
      | child =>
        have hsn : ∀ v ∈ preorder sib, nid_matches v.ns nid = false := by
          intro v hv
          by_contra hx
          have := hu (Visit.under Step.sibling v)
            (mem_preorder_node.2 (Or.inr (Or.inr ⟨v, hv, rfl⟩))) (by simpa using hx)
          simp [Visit.under] at this
        simp only [update_namespace, map_namespaces, map_namespaces_id hsn, hns]
        congr 1
        apply ihc (by simpa using hm)
        intro v hv hvm
        have := hu (Visit.under Step.child v)
          (mem_preorder_node.2 (Or.inr (Or.inl ⟨v, hv, rfl⟩))) hvm
        simpa [Visit.under] using this
      | sibling =>
        have hcn : ∀ v ∈ preorder ch, nid_matches v.ns nid = false := by
          intro v hv
          by_contra hx
          have := hu (Visit.under Step.child v)
            (mem_preorder_node.2 (Or.inr (Or.inl ⟨v, hv, rfl⟩))) (by simpa using hx)
          simp [Visit.under] at this
        simp only [update_namespace, map_namespaces, map_namespaces_id hcn, hns]
        congr 1
        apply ihs (by simpa using hm)
        intro v hv hvm
        have := hu (Visit.under Step.sibling v)
          (mem_preorder_node.2 (Or.inr (Or.inr ⟨v, hv, rfl⟩))) hvm
        simpa [Visit.under] using this

/-- A property of forests that insertions and member updates keep holds for every
forest after `build_info`. -/
theorem build_info_forest_induction (fs : procfs) (Q : Nat → tree_t → Prop)
    (hins : ∀ k t ns, Q k t → Q k (insert_namespace_tree t ns))
    (hupd : ∀ k t i nid path, Q k t → search_namespace_tree t nid = some path →
      Q k (update_namespace (add_member i) t path))
    {info info' : info_t} (h0 : ∀ k, Q k (info.forest k))
    (h : build_info fs (some info) = .ok info') : ∀ k, Q k (info'.forest k) := by
  have hstep : ∀ i p type (x x' : info_t), (∀ k, Q k (x.forest k)) →
      build_namespace fs i p type x = .ok x' → ∀ k, Q k (x'.forest k) := by
    intro i p type x x' hx hb k
    rcases build_namespace_ok hb with ⟨_, hf, _, _⟩ | ⟨nid, path, _, hs, hf, _, _⟩
        | ⟨nid, ns, _, hs, hn, _, _, _, _, _, hf, _, _⟩
    · rw [hf]; exact hx k
    · rw [hf]
      by_cases e : k = type
      · subst e; rw [set_forest_self]; exact hupd _ _ _ _ _ (hx k) hs
      · rw [set_forest_other _ _ _ k e]; exact hx k
    · rw [hf]
      by_cases e : k = type
      · subst e; rw [set_forest_self]; exact hins _ _ _ (hx k)
      · rw [set_forest_other _ _ _ k e]; exact hx k
  have hproc : ∀ i (x x' : info_t), (∀ k, Q k (x.forest k)) →
      build_process fs i x = .ok x' → ∀ k, Q k (x'.forest k) := by
    intro i x x' hx hb
    unfold build_process at hb
    exact for_loop_range _ (fun _ y => ∀ k, Q k (y.forest k)) NSCOUNT _ x' hx
      (fun t y y' _ hy hb' => hstep _ _ _ y y' hy hb') hb
  unfold build_info at h
  simp only at h
  split at h
  · cases h
  · exact for_loop_range _ (fun _ y => ∀ k, Q k (y.forest k)) _ _ info' h0
      (fun t y y' _ hy hb' => hproc _ y y' hy hb') h

theorem search_update {g : namespace_t → namespace_t} (hg : keeps_ids g) (t : tree_t)
    (p : Path) (x : ino_t) :
    search_namespace_tree (update_namespace g t p) x = search_namespace_tree t x := by
  induction t generalizing p with
  | NULL => cases p <;> rfl
  | node ns d ch sib ihc ihs =>
    cases p with
    | nil => simp only [update_namespace, search_namespace_tree, nid_matches_map hg]
    | cons s p =>
      cases s with
      | child => simp only [update_namespace, search_namespace_tree, ihc]
      | sibling => simp only [update_namespace, search_namespace_tree, ihs]

theorem update_NULL (g : namespace_t → namespace_t) (p : Path) :
    update_namespace g .NULL p = .NULL := by
  cases p <;> rfl

theorem depthOf_update (g : namespace_t → namespace_t) (t : tree_t) (p : Path) :
    (update_namespace g t p).depthOf = t.depthOf := by
  cases t with
  | NULL => rw [update_NULL]
  | node ns d ch sib =>
    cases p with
    | nil => rfl
    | cons s p => cases s <;> rfl

/-- The node at `q` after a write through a namespace pointer: the old node, or the
old node with a write below it. -/
theorem subtree_update (g : namespace_t → namespace_t) (t : tree_t) (p q : Path) :
    subtree (update_namespace g t p) q = subtree t q
    ∨ ∃ r, subtree (update_namespace g t p) q = update_namespace g (subtree t q) r := by
  induction q generalizing t p with
  | nil => exact Or.inr ⟨p, rfl⟩
  | cons s q ih =>
    cases t with
    | NULL => rw [update_NULL]; exact Or.inl rfl
    | node ns d ch sib =>
      cases p with
      | nil => cases s <;> exact Or.inl rfl
      | cons s' p =>
        cases s <;> cases s'
        · exact ih ch p
        · exact Or.inl rfl
        · exact Or.inl rfl
        · exact ih sib p

theorem depthOf_subtree_update (g : namespace_t → namespace_t) (t : tree_t) (p q : Path) :
    (subtree (update_namespace g t p) q).depthOf = (subtree t q).depthOf := by
  rcases subtree_update g t p q with h | ⟨r, h⟩
  · rw [h]
  · rw [h, depthOf_update]

theorem append_sibling_update (g : namespace_t → namespace_t) {ch : tree_t} {p : Path}
    (h : subtree ch p ≠ .NULL) (c : tree_t) :
    append_sibling (update_namespace g ch p) c
      = update_namespace g (append_sibling ch c) p := by
  induction ch generalizing p with
  | NULL => rw [subtree_NULL] at h; exact absurd rfl h
  | node ns d ch' sib _ ihs =>
    cases p with
    | nil => rfl
    | cons s p =>
      cases s with
      | child => rfl
      | sibling =>
        simp only [update_namespace, append_sibling]
        rw [ihs (by simpa using h)]

/-- A write through a namespace pointer and the linking of a new node commute. -/
theorem attach_update (g : namespace_t → namespace_t) {t : tree_t} {p : Path}
    (h : subtree t p ≠ .NULL) (q : Path) (c : tree_t) :
    attach (update_namespace g t p) q c = update_namespace g (attach t q c) p := by
  induction t generalizing p q with
  | NULL => rw [subtree_NULL] at h; exact absurd rfl h
  | node ns d ch sib ihc ihs =>
    cases p with
    | nil => cases q with
      | nil => rfl
      | cons s q => cases s <;> rfl
    | cons s p =>
      cases s with
      | child =>
        have hc : subtree ch p ≠ .NULL := by simpa using h
        cases q with
        | nil =>
          simp only [update_namespace, attach]
          rw [append_sibling_update g hc]
        | cons s' q =>
          cases s' with
          | child => simp only [update_namespace, attach]; rw [ihc hc]
          | sibling => rfl
      | sibling =>
        have hs : subtree sib p ≠ .NULL := by simpa using h
        cases q with
        | nil => rfl
        | cons s' q =>
          cases s' with
          | child => rfl
          | sibling => simp only [update_namespace, attach]; rw [ihs hs]

theorem insert_parent_update {g : namespace_t → namespace_t} (hg : keeps_ids g) (t : tree_t)
    (p : Path) (ns : namespace_t) :
    insert_parent (update_namespace g t p) ns = insert_parent t ns := by
  unfold insert_parent
  rw [search_update hg]

theorem insert_parent_keeps {g : namespace_t → namespace_t} (hg : keeps_ids g) (t : tree_t)
    (ns : namespace_t) : insert_parent t (g ns) = insert_parent t ns := by
  unfold insert_parent
  rw [is_orphaned_map hg, (hg ns).2.1]

/-- A write through a pointer to an old node and an insertion commute. -/
theorem insert_update {g : namespace_t → namespace_t} (hg : keeps_ids g) {t : tree_t}
    {p : Path} (h : subtree t p ≠ .NULL) (ns : namespace_t) :
    insert_namespace_tree (update_namespace g t p) ns
      = update_namespace g (insert_namespace_tree t ns) p := by
  have ht : t ≠ .NULL := by
    intro e; rw [e, subtree_NULL] at h; exact h rfl
  have hu : update_namespace g t p ≠ .NULL := by
    cases t with
    | NULL => exact absurd rfl ht
    | node n d ch sib =>
      cases p with
      | nil => simp [update_namespace]
      | cons s p => cases s <;> simp [update_namespace]
  rw [insert_eq_attach ns hu, insert_eq_attach ns ht, insert_parent_update hg,
    depthOf_subtree_update, attach_update g h]

theorem update_append_sibling_new (g : namespace_t → namespace_t) (ch : tree_t)
    (ns : namespace_t) (d : Nat) :
    update_namespace g (append_sibling ch (.node (some ns) d .NULL .NULL))
        (List.replicate (chain ch).length Step.sibling)
      = append_sibling ch (.node (some (g ns)) d .NULL .NULL) := by
  induction ch with
  | NULL => rfl
  | node n e ch' sib _ ihs =>
    simp only [chain, List.length_cons, List.replicate_succ, append_sibling, update_namespace]
    rw [ihs]

/-- A write through the pointer to the node just linked in. -/
theorem update_attach_new (g : namespace_t → namespace_t) {t : tree_t} {p : Path}
    (h : subtree t p ≠ .NULL) (ns : namespace_t) (d : Nat) :
    update_namespace g (attach t p (.node (some ns) d .NULL .NULL)) (new_path t p)
      = attach t p (.node (some (g ns)) d .NULL .NULL) := by
  induction t generalizing p with
  | NULL => rw [subtree_NULL] at h; exact absurd rfl h
  | node n e ch sib ihc ihs =>
    cases p with
    | nil =>
      show update_namespace g (.node n e (append_sibling ch _) sib)
        (Step.child :: List.replicate (chain ch).length Step.sibling) = _
      simp only [update_namespace, attach]
      rw [update_append_sibling_new]
    | cons s p =>
      cases s with
      | child =>
        have hc : subtree ch p ≠ .NULL := by simpa using h
        show update_namespace g (.node n e (attach ch p _) sib)
          (Step.child :: new_path ch p) = _
        simp only [update_namespace, attach]
        rw [ihc hc]
      | sibling =>
        have hs : subtree sib p ≠ .NULL := by simpa using h
        show update_namespace g (.node n e ch (attach sib p _))
          (Step.sibling :: new_path sib p) = _
        simp only [update_namespace, attach]
        rw [ihs hs]

theorem subtree_leaf (ns : Option namespace_t) (d : Nat) (s : Step) (p : Path) :
    subtree (.node ns d .NULL .NULL) (s :: p) = .NULL := by
  cases s <;> simp

/-- A write through a namespace pointer that keeps the ids turns a forest built by
insertions into a forest built by insertions. -/
theorem forest_of_update {g : namespace_t → namespace_t} (hg : keeps_ids g)
    (l : List namespace_t) (p : Path) (h : subtree (forest_of l) p ≠ .NULL) :
    ∃ l', update_namespace g (forest_of l) p = forest_of l' := by
  induction l using List.reverseRecOn generalizing p with
  | nil => exact absurd (subtree_NULL p) h
  | append_singleton l ns ih =>
    rw [forest_of_snoc] at h ⊢
    by_cases ht : forest_of l = .NULL
    · rw [ht] at h ⊢
      cases p with
      | nil =>
        refine ⟨[g ns], ?_⟩
        rfl
      | cons s p => exact absurd (subtree_leaf _ _ _ _) h
    · rcases insert_nodes ns ht h with e | e
      · refine ⟨l ++ [g ns], ?_⟩
        rw [forest_of_snoc, e, insert_eq_attach ns ht,
          update_attach_new g (insert_parent_valid ns ht), insert_eq_attach (g ns) ht,
          insert_parent_keeps hg]
      · obtain ⟨l', hl'⟩ := ih p e
        refine ⟨l' ++ [ns], ?_⟩
        rw [forest_of_snoc, ← hl', insert_update hg e]

theorem keeps_ids_add_member (i : Nat) : keeps_ids (add_member i) := by
  intro ns
  simp [add_member]

theorem unique_insert {t : tree_t} {ns : namespace_t}
    (hu : ((preorder t).map (fun v => v.ns.map (·.nid))).Nodup)
    (hs : search_namespace_tree t ns.nid = none) :
    ((preorder (insert_namespace_tree t ns)).map (fun v => v.ns.map (·.nid))).Nodup := by
  obtain ⟨p, d, hperm, _⟩ := preorder_insert t ns
  have hnone := search_none.1 hs
  apply (hperm.map (fun v : Visit => v.ns.map (·.nid))).nodup_iff.2
  simp only [List.map_cons, List.nodup_cons, Option.map_some']
  refine ⟨?_, hu⟩
  intro hmem
  obtain ⟨v, hv, hvn⟩ := List.mem_map.1 hmem
  have := hnone v hv
  rw [nid_matches_iff.2 hvn] at this
  cases this

theorem unique_update {t : tree_t} (i : Nat) (path : Path)
    (hu : ((preorder t).map (fun v => v.ns.map (·.nid))).Nodup) :
    ((preorder (update_namespace (add_member i) t path)).map
      (fun v => v.ns.map (·.nid))).Nodup := by
  rw [preorder_update_namespace, List.map_map]
  have : ((fun v : Visit => v.ns.map (·.nid)) ∘ Visit.update (add_member i) path)
      = (fun v : Visit => v.ns.map (·.nid)) := by
    funext v; exact update_add_member_nid i path v
  rw [this]
  exact hu

/-- Every forest that `build_info` leaves is built by a sequence of
`insert_namespace_tree` calls from the empty forest (the records are inserted with
the member lists they have at the end). -/
theorem build_info_reachable {fs : procfs} {info info' : info_t} (hinit : initial info)
    (h : build_info fs (some info) = .ok info') (k : Nat) :
    ∃ l, info'.forest k = forest_of l := by
  refine build_info_forest_induction fs (fun _ t => ∃ l, t = forest_of l) ?_ ?_
    (fun k => ?_) h k
  · rintro _ t ns ⟨l, rfl⟩
    exact ⟨l ++ [ns], (forest_of_snoc l ns).symm⟩
  · rintro _ t i nid path ⟨l, rfl⟩ hs
    exact forest_of_update (keeps_ids_add_member i) l path (search_some hs).1
  · rw [hinit.1 k]
    exact ⟨[], rfl⟩

/-! ### Descendants of orphans -/

/-- A pointer below `a` is a child-chain position of `a` or of a node below `a`. -/
theorem path_parent (a r : Path) :
    ∃ p c, a ++ Step.child :: r = p ++ Step.child :: List.replicate c Step.sibling
      ∧ (p = a ∨ ∃ r', p = a ++ Step.child :: r') := by
  induction r using List.reverseRecOn with
  | nil => exact ⟨a, 0, rfl, Or.inl rfl⟩
  | append_singleton r s ih =>
    obtain ⟨p, c, h1, h2⟩ := ih
    cases s with
    | child =>
      refine ⟨a ++ Step.child :: r, 0, by simp, Or.inr ⟨r, rfl⟩⟩
    | sibling =>
      refine ⟨p, c + 1, ?_, h2⟩
      have : a ++ Step.child :: (r ++ [Step.sibling]) = (a ++ Step.child :: r) ++ [Step.sibling] := by
        simp
      rw [this, h1, List.replicate_succ']
      simp

theorem replicate_sibling_child_inj {P Q : Path} {c k : Nat}
    (h : List.replicate c Step.sibling ++ Step.child :: P
      = List.replicate k Step.sibling ++ Step.child :: Q) : P = Q := by
  induction c generalizing k with
  | zero =>
    cases k with
    | zero => simpa using h
    | succ k => simp [List.replicate_succ] at h
  | succ c ih =>
    cases k with
    | zero => simp [List.replicate_succ] at h
    | succ k =>
      apply ih (k := k)
      simpa [List.replicate_succ] using h

/-- A child-chain position determines the parent. -/
theorem child_position_inj {p q : Path} {c k : Nat}
    (h : p ++ Step.child :: List.replicate c Step.sibling
      = q ++ Step.child :: List.replicate k Step.sibling) : p = q := by
  have := congrArg List.reverse h
  simp only [List.reverse_append, List.reverse_cons, List.reverse_replicate,
    List.append_assoc, List.singleton_append] at this
  exact List.reverse_injective (replicate_sibling_child_inj this)

theorem insert_parent_ne_nil {t : tree_t} {ns : namespace_t} (h : insert_parent t ns ≠ []) :
    search_namespace_tree t ns.pnid = some (insert_parent t ns) := by
  rcases is_orphaned_zero_or_one (some ns) with h0 | h1
  · cases hs : search_namespace_tree t ns.pnid with
    | none => exact absurd (insert_parent_not_found h0 hs) h
    | some p => rw [insert_parent_found h0 hs]
  · exact absurd (insert_parent_orphan t h1) h

/-- In a forest built by insertions a node whose parent is not the root was placed
by a successful search: its `pnid` is the id of its parent. -/
theorem forest_parent_nid (l : List namespace_t) (p : Path) (c : Nat) (hp : p ≠ [])
    (h : subtree (forest_of l) (p ++ Step.child :: List.replicate c Step.sibling) ≠ .NULL) :
    ∃ n m, (subtree (forest_of l)
        (p ++ Step.child :: List.replicate c Step.sibling)).namespace = some n
      ∧ (subtree (forest_of l) p).namespace = some m ∧ n.pnid = m.nid := by
  induction l using List.reverseRecOn generalizing p c with
  | nil => simp [forest_of] at h
  | append_singleton l ns ih =>
    rw [forest_of_snoc] at h ⊢
    by_cases hn : forest_of l = .NULL
    · rw [hn] at h
      exfalso
      apply h
      cases p with
      | nil => exact absurd rfl hp
      | cons s p => exact subtree_leaf _ _ _ _
    · have hv := insert_parent_valid ns hn
      rcases insert_nodes ns hn h with hq | hq
      · have e := child_position_inj hq
        have hne : insert_parent (forest_of l) ns ≠ [] := by rw [← e]; exact hp
        have hs := search_some (insert_parent_ne_nil hne)
        rw [hq, insert_eq_attach ns hn, subtree_attach_new _ _ _ hv, e,
          (subtree_attach_old _ _ _ _ hv).1]
        cases hm : (subtree (forest_of l) (insert_parent (forest_of l) ns)).namespace with
        | none => rw [hm] at hs; simp [nid_matches] at hs
        | some m =>
          rw [hm] at hs
          have hmn : m.nid = ns.pnid := by simpa [nid_matches] using hs.2
          exact ⟨ns, m, rfl, rfl, hmn.symm⟩
      · have hp' := subtree_prefix_ne_NULL hq
        rw [insert_eq_attach ns hn, (subtree_attach_old _ _ _ _ hq).1,
          (subtree_attach_old _ _ _ _ hp').1]
        exact ih p c hp hq

theorem orphan_descendants_aux (l : List namespace_t) (u v : Visit)
    (hu : u ∈ preorder (forest_of l)) (hv : v ∈ preorder (forest_of l))
    (ho : u.orphaned = true) (hne : u.node ≠ []) (hb : v.below u) :
    v.orphaned = false
    ∧ ∃ w ∈ preorder (forest_of l), (w = u ∨ w.below u) ∧ v.child_of w
      ∧ ∃ n m, v.ns = some n ∧ w.ns = some m ∧ n.pnid = m.nid := by
  obtain ⟨r, hr⟩ := hb
  have hvm := (mem_preorder _ v).1 hv
  constructor
  · by_contra hc
    have hvo : v.orphaned = true := by simpa using hc
    have hs := forest_shape_forest_of l
    have h1 : (v.node).count Step.child ≤ 1 := by
      rcases forest_shape_orphan_node hs hv hvo with e | ⟨j, e⟩
      · rw [e]; simp
      · rw [e, List.count_cons_self, List.count_replicate]; simp
    have h2 : 1 ≤ (u.node).count Step.child := by
      rcases forest_shape_orphan_node hs hu ho with e | ⟨j, e⟩
      · exact absurd e hne
      · rw [e, List.count_cons_self]; omega
    rw [hr, List.count_append, List.count_cons_self] at h1
    omega
  · obtain ⟨p, c, h1, h2⟩ := path_parent u.node r
    rw [← hr] at h1
    have hp : p ≠ [] := by
      rcases h2 with e | ⟨r', e⟩
      · rw [e]; exact hne
      · rw [e]; simp
    have hnn : subtree (forest_of l) (p ++ Step.child :: List.replicate c Step.sibling)
        ≠ .NULL := by rw [← h1]; exact hvm.1
    obtain ⟨n, m, hn, hm, hnm⟩ := forest_parent_nid l p c hp hnn
    have hpn := subtree_prefix_ne_NULL hnn
    have hw : (⟨p, (subtree (forest_of l) p).namespace, (subtree (forest_of l) p).depthOf⟩
        : Visit) ∈ preorder (forest_of l) := (mem_preorder _ _).2 ⟨hpn, rfl, rfl⟩
    refine ⟨_, hw, ?_, ⟨⟨c, h1⟩, ?_⟩, n, m, ?_, hm, hnm⟩
    · rcases h2 with e | ⟨r', e⟩
      · left; exact preorder_node_inj hw hu e
      · right; exact ⟨r', e⟩
    · show v.depth = (subtree (forest_of l) p).depthOf + 1
      rw [← hvm.2.2, forest_depth l _ hvm.1, forest_depth l p hpn, h1, List.count_append,
        List.count_cons_self, List.count_replicate]
      simp
    · rw [← hvm.2.1, h1]; exact hn

/-- C12 as stated fails: `build_info` on two processes without a parent in the list,
in two NET namespaces, gives an orphaned root and below it a node that is again
orphaned, with `pnid` 0. -/
theorem orphan_below_orphan :
    build_info demo_orphans_fs (some (mkinfo demo_orphans)) = .ok demo_orphans_final
    ∧ ∃ u ∈ preorder (demo_orphans_final.forest NET),
      ∃ v ∈ preorder (demo_orphans_final.forest NET),
        u.orphaned = true ∧ v.below u ∧ v.orphaned = true
        ∧ ∃ n, v.ns = some n ∧ n.pnid = 0 :=
  ⟨rfl,
   ⟨[], some { create_empty_namespace with
      nid := 7, type := NET, creator := some 0, creator_pid := 50, members := [0] }, 0⟩,
   by decide,
   ⟨[Step.child], some { create_empty_namespace with
      nid := 8, type := NET, creator := some 1, creator_pid := 60, members := [1] }, 1⟩,
   by decide, by decide, ⟨[], rfl⟩, by decide, _, rfl, rfl⟩

/-- C12 amended. In a forest built by insertions from the empty forest, and so in
every forest that `build_info` leaves, a node below an orphaned node other than
the root is not classified orphaned, and its `pnid` is the id of its parent node,
which is that orphan or lies below it. -/
theorem orphan_descendants_parented :
    (∀ (l : List namespace_t), ∀ u ∈ preorder (forest_of l), ∀ v ∈ preorder (forest_of l),
      u.orphaned = true → u.node ≠ [] → v.below u →
      v.orphaned = false
      ∧ ∃ w ∈ preorder (forest_of l), (w = u ∨ w.below u) ∧ v.child_of w
        ∧ ∃ n m, v.ns = some n ∧ w.ns = some m ∧ n.pnid = m.nid)
    ∧ (∀ (fs : procfs) (info info' : info_t) (k : Nat), initial info →
      build_info fs (some info) = .ok info' →
      ∀ u ∈ preorder (info'.forest k), ∀ v ∈ preorder (info'.forest k),
      u.orphaned = true → u.node ≠ [] → v.below u →
      v.orphaned = false
      ∧ ∃ w ∈ preorder (info'.forest k), (w = u ∨ w.below u) ∧ v.child_of w
        ∧ ∃ n m, v.ns = some n ∧ w.ns = some m ∧ n.pnid = m.nid) := by
  refine ⟨fun l u hu v hv => orphan_descendants_aux l u v hu hv, ?_⟩
  intro fs info info' k hinit h
  obtain ⟨l, hl⟩ := build_info_reachable hinit h k
  rw [hl]
  exact fun u hu v hv => orphan_descendants_aux l u v hu hv

theorem orphan_descendants_parented_witness :
    (⟨[Step.child, Step.child], some (mkns 3 2 51), 2⟩ : Visit).orphaned = false
    ∧ ∃ w ∈ preorder (forest_of [mkns 1 0 1, mkns 2 0 50, mkns 3 2 51]),
        (w = ⟨[Step.child], some (mkns 2 0 50), 1⟩
          ∨ w.below ⟨[Step.child], some (mkns 2 0 50), 1⟩)
        ∧ (⟨[Step.child, Step.child], some (mkns 3 2 51), 2⟩ : Visit).child_of w
        ∧ ∃ n m, (⟨[Step.child, Step.child], some (mkns 3 2 51), 2⟩ : Visit).ns = some n
          ∧ w.ns = some m ∧ n.pnid = m.nid :=
  orphan_descendants_parented.1 [mkns 1 0 1, mkns 2 0 50, mkns 3 2 51]
    ⟨[Step.child], some (mkns 2 0 50), 1⟩ (by decide)
    ⟨[Step.child, Step.child], some (mkns 3 2 51), 2⟩ (by decide) (by decide) (by decide)
    ⟨[], rfl⟩

/-! ### The orphaned sequence -/

theorem no_orphan_reference {t : tree_t} (h : no_orphan t) : orphaned_reference t = [] := by
  induction t with
  | NULL => rfl
  | node ns d ch sib ihc ihs =>
    obtain ⟨⟨n, rfl, hn⟩, h1, h2⟩ := h
    simp [orphaned_reference, hn, ihc h1, ihs h2]

/-- Below the root the orphaned traversal is the reference sequence. -/
theorem level1_reference {c : tree_t} (h : level1 c) :
    print_orphaned_namespaces c = orphaned_reference c := by
  induction c with
  | NULL => rfl
  | node ns d ch sib _ ihs =>
    obtain ⟨⟨n, rfl⟩, hd, h1, h2⟩ := h
    simp only [print_orphaned_namespaces, orphaned_reference, ihs h2,
      no_orphan_print_orphaned h1, no_orphan_reference h1, hd, if_false]
    split <;> simp

/-- The orphaned traversal of a forest of the shape built by insertion: the root
if it is orphaned, then the reference sequence of the children of the root. -/
theorem forest_shape_reference {t : tree_t} (h : forest_shape t) :
    print_orphaned_namespaces t
      = orphaned_root t ++ (orphaned_reference t.childOf).map (Visit.under Step.child) := by
  cases t with
  | NULL => rfl
  | node ns d ch sib =>
    obtain ⟨⟨n, rfl⟩, hd, hs, h2⟩ := h
    subst hd hs
    simp only [print_orphaned_namespaces, orphaned_root, childOf_node, level1_reference h2]
    split <;> simp

theorem forest_shape_reference_parented {t : tree_t} (h : forest_shape t)
    (hr : orphaned_root t = []) : print_orphaned_namespaces t = orphaned_reference t := by
  rw [forest_shape_reference h, hr]
  cases t with
  | NULL => rfl
  | node ns d ch sib =>
    obtain ⟨⟨n, rfl⟩, hd, hs, h2⟩ := h
    subst hd hs
    simp only [orphaned_root] at hr
    have h0 : ¬ is_orphaned_namespace (some n) ≠ 0 := by
      intro hc; rw [if_pos hc] at hr; cases hr
    simp [orphaned_reference, h0]

/-- C14 as stated fails: for an orphaned root with a child that is not orphaned the
code prints the root alone, the reference sequence the root and the child. -/
theorem orphaned_sequence_differs :
    print_orphaned_namespaces (forest_of [mkns 2 0 50, mkns 3 2 51])
      = [⟨[], some (mkns 2 0 50), 0⟩]
    ∧ orphaned_reference (forest_of [mkns 2 0 50, mkns 3 2 51])
      = [⟨[], some (mkns 2 0 50), 0⟩, ⟨[Step.child], some (mkns 3 2 51), 1⟩]
    ∧ print_orphaned_namespaces (forest_of [mkns 2 0 50, mkns 3 2 51])
      ≠ orphaned_reference (forest_of [mkns 2 0 50, mkns 3 2 51]) := by
  decide

/-- C14 amended. For a forest built by insertions from the empty forest the orphaned
traversal is the root, if the root is orphaned, followed by the reference sequence
of the forest below the root: every orphaned node other than the root is
immediately followed by the parented traversal of its child subtree, the
orphaned root (depth 0) is not. When the root is not orphaned the traversal is
the reference sequence of the whole forest. -/
theorem orphaned_sequence (l : List namespace_t) :
    print_orphaned_namespaces (forest_of l)
      = orphaned_root (forest_of l)
        ++ (orphaned_reference (forest_of l).childOf).map (Visit.under Step.child)
    ∧ (orphaned_root (forest_of l) = [] →
        print_orphaned_namespaces (forest_of l) = orphaned_reference (forest_of l)) :=
  ⟨forest_shape_reference (forest_shape_forest_of l),
   forest_shape_reference_parented (forest_shape_forest_of l)⟩

theorem orphaned_sequence_witness :
    orphaned_root (forest_of [mkns 1 0 1, mkns 2 0 50, mkns 3 2 51]) = []
    ∧ print_orphaned_namespaces (forest_of [mkns 1 0 1, mkns 2 0 50, mkns 3 2 51])
      = orphaned_reference (forest_of [mkns 1 0 1, mkns 2 0 50, mkns 3 2 51]) :=
  ⟨by decide, (orphaned_sequence [mkns 1 0 1, mkns 2 0 50, mkns 3 2 51]).2 (by decide)⟩

/-! ### Stability of `sort_process_list`, the registry insert -/

theorem sort_link_filter (c : process_t) (h : List process_t) (x : pid_t)
    (hs : h.Pairwise (fun a b => a.pid ≤ b.pid)) :
    (sort_link c h).filter (fun q => q.pid == x)
      = h.filter (fun q => q.pid == x) ++ [c].filter (fun q => q.pid == x) := by
  induction h with
  | nil => simp [sort_link]
  | cons a t ih =>
    rw [List.pairwise_cons] at hs
    simp only [sort_link]
    split
    · next hlt =>
      -- every cell from `a` on has a pid greater than `c`'s
      by_cases hc : c.pid = x
      · have hnone : (a :: t).filter (fun q => q.pid == x) = [] := by
          rw [List.filter_eq_nil_iff]
          intro q hq
          have hge : a.pid ≤ q.pid := by
            rcases List.mem_cons.1 hq with rfl | hq
            · exact le_refl _
            · exact hs.1 q hq
          have : q.pid ≠ x := ne_of_gt (lt_of_lt_of_le (hc ▸ hlt) hge)
          simpa using this
        rw [hnone]
        simp [List.filter_cons, hc, hnone]
      · simp [List.filter_cons, hc]
    · simp only [List.filter_cons, ih hs.2]
      split <;> simp

theorem foldl_sort_link_filter (l h : List process_t) (x : pid_t)
    (hs : h.Pairwise (fun a b => a.pid ≤ b.pid)) :
    (l.foldl (fun h c => sort_link c h) h).filter (fun q => q.pid == x)
      = h.filter (fun q => q.pid == x) ++ l.filter (fun q => q.pid == x) := by
  induction l generalizing h with
  | nil => simp
  | cons c l ih =>
    simp only [List.foldl_cons]
    rw [ih _ (sort_link_sorted c h hs), sort_link_filter c h x hs, List.append_assoc]
    congr 1
    by_cases hc : c.pid = x <;> simp [List.filter_cons, hc]

theorem sort_process_list_stable (l : List process_t) (x : pid_t) :
    (sort_process_list l).filter (fun q => q.pid == x) = l.filter (fun q => q.pid == x) := by
  unfold sort_process_list
  split
  · rfl
  · rfl
  · simpa using foldl_sort_link_filter l [] x List.Pairwise.nil

/-- C15. `sort_process_list` gives the stable ascending sort by pid: the result holds
the cells of the input, the pids do not decrease along it, and the processes with
one pid keep their input order. -/
theorem sort_process_list_stable_sort (l : List process_t) :
    (sort_process_list l).Perm l
    ∧ (sort_process_list l).Pairwise (fun a b => a.pid ≤ b.pid)
    ∧ (∀ x : pid_t, (sort_process_list l).filter (fun q => q.pid == x)
        = l.filter (fun q => q.pid == x)) :=
  ⟨sort_process_list_perm l, sort_process_list_sorted l, sort_process_list_stable l⟩

/-- C16 as stated fails: inserting a process whose pid is already in the list
returns `RET_OK` and appends it; there is no `DuplicateKey` failure. -/
theorem insert_process_list_duplicate :
    insert_process_list_call (some [mkproc 7 1 "a"]) (some (mkproc 7 1 "b"))
      = .ok [mkproc 7 1 "a", mkproc 7 1 "b"] := rfl

/-- C16 amended. `insert_process_list` appends `p` at the end of `l` and returns
`RET_OK` for every list and process, also when `l` already holds a process with
the pid of `p`; the order of the cells of `l` is unchanged. -/
theorem insert_process_list_appends (l : List process_t) (p : process_t) :
    insert_process_list_call (some l) (some p) = .ok (l ++ [p])
    ∧ insert_process_list l p = l ++ [p] := by
  simp [insert_process_list_call, insert_process_list_eq]

/-! ### Parent links -/

theorem process_at_congr {β : Type} (g : process_t → β) {l l' : List process_t}
    (h : l.map g = l'.map g) (a : Nat) : g (process_at l a) = g (process_at l' a) := by
  induction l generalizing l' a with
  | nil =>
    cases l' with
    | nil => rfl
    | cons _ _ => simp at h
  | cons c l ih =>
    cases l' with
    | nil => simp at h
    | cons c' l' =>
      simp only [List.map_cons, List.cons.injEq] at h
      cases a with
      | zero => simpa using h.1
      | succ a => simpa using ih h.2 a

theorem map_set_nsp (type : Nat) (v : Option ino_t) (i : Nat) (l : List process_t) :
    (update_process (set_nsp type v) i l).map (·.pid) = l.map (·.pid)
    ∧ (update_process (set_nsp type v) i l).map (·.ppid) = l.map (·.ppid)
    ∧ (update_process (set_nsp type v) i l).map (·.parent) = l.map (·.parent) :=
  ⟨map_update_process (·.pid) (set_nsp type v) (fun _ => rfl) i l,
   map_update_process (·.ppid) (set_nsp type v) (fun _ => rfl) i l,
   map_update_process (·.parent) (set_nsp type v) (fun _ => rfl) i l⟩

/-- A step of the loop over the types keeps `pid`, `ppid` and `parent` of every
process. -/
theorem build_namespace_frame {fs : procfs} {i : Nat} {p : Option Nat} {type : Nat}
    {x x' : info_t} (h : build_namespace fs i p type x = .ok x') :
    x'.process.map (·.pid) = x.process.map (·.pid)
    ∧ x'.process.map (·.ppid) = x.process.map (·.ppid)
    ∧ x'.process.map (·.parent) = x.process.map (·.parent) := by
  rcases build_namespace_ok h with ⟨_, _, hp, _⟩ | ⟨nid, path, _, _, _, hp, _⟩
      | ⟨nid, ns, _, _, _, _, _, _, _, _, _, hp, _⟩
  all_goals
    rw [hp]
    exact map_set_nsp _ _ _ _

/-- After `build_process` the process handled has its parent link, and the links
set before are kept. -/
theorem build_process_parent {fs : procfs} {i : Nat} {x x' : info_t}
    (hi : i < x.process.length) (h : build_process fs i x = .ok x') :
    x'.process.map (·.pid) = x.process.map (·.pid)
    ∧ x'.process.map (·.ppid) = x.process.map (·.ppid)
    ∧ (process_at x'.process i).parent
        = search_process_list x.process (process_at x.process i).ppid
    ∧ ∀ a, a ≠ i → (process_at x'.process a).parent = (process_at x.process a).parent := by
  unfold build_process at h
  have key := for_loop_range _
    (fun _ (y : info_t) =>
      y.process.map (·.pid) = x.process.map (·.pid)
      ∧ y.process.map (·.ppid) = x.process.map (·.ppid)
      ∧ y.process.map (·.parent)
        = (update_process (fun q => { q with
            parent := search_process_list x.process (process_at x.process i).ppid })
            i x.process).map (·.parent))
    NSCOUNT _ x' ?_ ?_ h
  · refine ⟨key.1, key.2.1, ?_, ?_⟩
    · have := process_at_congr (·.parent) key.2.2 i
      simp only at this
      rw [this, process_at_update_self _ _ _ hi]
    · intro a ha
      have := process_at_congr (·.parent) key.2.2 a
      simp only at this
      rw [this, process_at_update_other _ _ _ _ ha]
  · exact ⟨map_update_process (·.pid) (fun q => { q with
        parent := search_process_list x.process (process_at x.process i).ppid })
        (fun _ => rfl) i x.process,
      map_update_process (·.ppid) (fun q => { q with
        parent := search_process_list x.process (process_at x.process i).ppid })
        (fun _ => rfl) i x.process, rfl⟩
  · intro t y y' _ hy hb
    obtain ⟨h1, h2, h3⟩ := build_namespace_frame hb
    exact ⟨h1.trans hy.1, h2.trans hy.2.1, h3.trans hy.2.2⟩

/-- After `build_info` every process has the parent link that the search for its
`ppid` gives. -/
theorem build_info_parent_links {fs : procfs} {info info' : info_t}
    (h : build_info fs (some info) = .ok info') :
    info'.process.map (·.pid) = (sort_process_list info.process).map (·.pid)
    ∧ info'.process.map (·.ppid) = (sort_process_list info.process).map (·.ppid)
    ∧ ∀ a, a < info'.process.length → (process_at info'.process a).parent
        = search_process_list info'.process (process_at info'.process a).ppid := by
  unfold build_info at h
  simp only at h
  split at h
  · cases h
  · have key := for_loop_range (build_process fs)
      (fun i (y : info_t) =>
        y.process.map (·.pid) = (sort_process_list info.process).map (·.pid)
        ∧ y.process.map (·.ppid) = (sort_process_list info.process).map (·.ppid)
        ∧ ∀ a, a < i → (process_at y.process a).parent
            = search_process_list y.process (process_at y.process a).ppid)
      _ _ info' ⟨rfl, rfl, fun a ha => absurd ha (Nat.not_lt_zero a)⟩ ?_ h
    · refine ⟨key.1, key.2.1, fun a ha => key.2.2 a ?_⟩
      have := congrArg List.length key.1
      simp only [List.length_map] at this
      omega
    · intro i y y' hi hy hb
      have hlen : y.process.length = (sort_process_list info.process).length := by
        have := congrArg List.length hy.1
        simpa using this
      obtain ⟨h1, h2, h3, h4⟩ := build_process_parent (by omega) hb
      refine ⟨h1.trans hy.1, h2.trans hy.2.1, ?_⟩
      intro a ha
      rw [search_process_list_congr h1, process_at_congr (·.ppid) h2 a]
      by_cases e : a = i
      · subst e; exact h3
      · rw [h4 a e]; exact hy.2.2 a (by omega)

/-- C17. Parent linking: after a successful `build_info` the parent link of every
process of the registry is the result of `search_process_list` for its `ppid`: it
points to the first process in list order whose pid is that `ppid`, and it is
absent exactly when no process of the registry has that pid.
`search_process_list` returns `NULL` exactly when no process of the list has the
pid. -/
theorem build_info_parent_linking (fs : procfs) (info info' : info_t)
    (h : build_info fs (some info) = .ok info') :
    (∀ a, a < info'.process.length → (process_at info'.process a).parent
        = search_process_list info'.process (process_at info'.process a).ppid)
    ∧ (∀ a j, a < info'.process.length → (process_at info'.process a).parent = some j →
        j < info'.process.length
        ∧ (process_at info'.process j).pid = (process_at info'.process a).ppid
        ∧ ∀ b, b < j → (process_at info'.process b).pid ≠ (process_at info'.process a).ppid)
    ∧ (∀ a, a < info'.process.length →
        ((process_at info'.process a).parent = none
          ↔ ∀ q ∈ info'.process, q.pid ≠ (process_at info'.process a).ppid))
    ∧ (∀ (l : List process_t) (pid : pid_t),
        search_process_list l pid = none ↔ ∀ q ∈ l, q.pid ≠ pid) := by
  have key := (build_info_parent_links h).2.2
  refine ⟨key, ?_, ?_, fun l pid => search_process_list_none⟩
  · intro a j ha hj
    rw [key a ha] at hj
    exact search_process_list_some hj
  · intro a ha
    rw [key a ha]
    exact search_process_list_none

theorem build_info_parent_linking_witness :
    2 < demo_final.process.length
    ∧ (process_at demo_final.process 2).parent
        = search_process_list demo_final.process (process_at demo_final.process 2).ppid :=
  ⟨by decide,
   (build_info_parent_linking demo_fs (mkinfo demo_registry) demo_final build_demo).1 2
     (by decide)⟩

/-! ### Lookup of a namespace id -/

theorem lookup_loop_step (forest : Nat → tree_t) (ns : ino_t) (type : Nat) (types : List Nat) :
    lookup_loop forest ns (type :: types)
      = match search_namespace_tree (forest type) ns with
        | some nt => some (type, nt)
        | none => lookup_loop forest ns types := by
  simp only [lookup_loop]
  cases h : forest type with
  | NULL => simp [search_namespace_tree]
  | node n d ch sib => rfl

theorem lookup_loop_range' (forest : Nat → tree_t) (ns : ino_t) (m a : Nat) (k : Nat)
    (p : Path) :
    lookup_loop forest ns (List.range' a m) = some (k, p)
      ↔ (a ≤ k ∧ k < a + m ∧ search_namespace_tree (forest k) ns = some p
          ∧ ∀ j, a ≤ j → j < k → search_namespace_tree (forest j) ns = none) := by
  induction m generalizing a with
  | zero =>
    simp only [List.range'_zero, lookup_loop, Nat.add_zero]
    constructor
    · intro h; cases h
    · rintro ⟨h1, h2, _⟩; omega
  | succ m ih =>
    rw [List.range'_succ, lookup_loop_step]
    cases hs : search_namespace_tree (forest a) ns with
    | some nt =>
      simp only [Option.some.injEq, Prod.mk.injEq]
      constructor
      · rintro ⟨rfl, rfl⟩
        exact ⟨le_refl _, by omega, hs, fun j h1 h2 => by omega⟩
      · rintro ⟨h1, h2, h3, h4⟩
        have hka : k = a := by
          by_contra hne
          have := h4 a (le_refl a) (by omega)
          rw [hs] at this
          cases this
        subst hka
        rw [hs] at h3
        exact ⟨rfl, Option.some.inj h3⟩
    | none =>
      simp only
      rw [ih (a + 1)]
      constructor
      · rintro ⟨h1, h2, h3, h4⟩
        refine ⟨by omega, by omega, h3, ?_⟩
        intro j hj1 hj2
        by_cases e : j = a
        · subst e; exact hs
        · exact h4 j (by omega) hj2
      · rintro ⟨h1, h2, h3, h4⟩
        have hka : k ≠ a := by
          intro e; subst e; rw [hs] at h3; cases h3
        exact ⟨by omega, by omega, h3, fun j hj1 hj2 => h4 j (by omega) hj2⟩

theorem lookup_loop_none (forest : Nat → tree_t) (ns : ino_t) (types : List Nat) :
    lookup_loop forest ns types = none
      ↔ ∀ k ∈ types, search_namespace_tree (forest k) ns = none := by
  induction types with
  | nil => simp [lookup_loop]
  | cons t ts ih =>
    rw [lookup_loop_step]
    cases hs : search_namespace_tree (forest t) ns with
    | some nt => simp [hs]
    | none => simp [hs, ih]

/-- C18. Lookup by id in `print_info`: the node found is the first match in
pre-order in the forest of the lowest-numbered kind (0 CGROUP .. 6 UTS) whose
forest has a node with the id, and "No such namespace" is reported exactly when
no forest of the seven kinds has such a node. (The lookup only reads the
forests.) -/
theorem print_info_lookup_first (forest : Nat → tree_t) (nid : ino_t) :
    (∀ k p, print_info_lookup forest nid = .ok (k, p)
        ↔ (k < NSCOUNT ∧ search_namespace_tree (forest k) nid = some p
            ∧ ∀ j, j < k → search_namespace_tree (forest j) nid = none))
    ∧ (∀ k p, print_info_lookup forest nid = .ok (k, p) →
        subtree (forest k) p ≠ .NULL
        ∧ ∃ n, (subtree (forest k) p).namespace = some n ∧ n.nid = nid)
    ∧ (print_info_lookup forest nid = .error "No such namespace"
        ↔ ∀ k, k < NSCOUNT → ¬ ∃ v ∈ preorder (forest k), ∃ n, v.ns = some n ∧ n.nid = nid)
    ∧ (∀ e, print_info_lookup forest nid = .error e → e = "No such namespace") := by
  have hok : ∀ k p, print_info_lookup forest nid = .ok (k, p)
      ↔ (k < NSCOUNT ∧ search_namespace_tree (forest k) nid = some p
          ∧ ∀ j, j < k → search_namespace_tree (forest j) nid = none) := by
    intro k p
    have := lookup_loop_range' forest nid NSCOUNT 0 k p
    rw [← List.range_eq_range'] at this
    unfold print_info_lookup
    cases hl : lookup_loop forest nid (List.range NSCOUNT) with
    | none =>
      rw [hl] at this
      simp only [reduceCtorEq, false_iff] at this ⊢
      intro hc
      exact this ⟨Nat.zero_le _, by simpa using hc.1, hc.2.1, fun j _ hj => hc.2.2 j hj⟩
    | some r =>
      rw [hl] at this
      simp only [Except.ok.injEq]
      rw [Option.some.injEq] at this
      rw [this]
      constructor
      · rintro ⟨_, h2, h3, h4⟩
        exact ⟨by simpa using h2, h3, fun j hj => h4 j (Nat.zero_le _) hj⟩
      · rintro ⟨h2, h3, h4⟩
        exact ⟨Nat.zero_le _, by simpa using h2, h3, fun j _ hj => h4 j hj⟩
  refine ⟨hok, ?_, ?_, ?_⟩
  · intro k p h
    obtain ⟨_, hs, _⟩ := (hok k p).1 h
    obtain ⟨h1, h2⟩ := search_some hs
    refine ⟨h1, ?_⟩
    cases hn : (subtree (forest k) p).namespace with
    | none => rw [hn] at h2; simp [nid_matches] at h2
    | some n => rw [hn] at h2; exact ⟨n, rfl, by simpa [nid_matches] using h2⟩
  · unfold print_info_lookup
    cases hl : lookup_loop forest nid (List.range NSCOUNT) with
    | none =>
      simp only [true_iff]
      intro k hk
      have := (lookup_loop_none forest nid _).1 hl k (List.mem_range.2 hk)
      rintro ⟨v, hv, n, hn, hnid⟩
      have := search_none.1 this v hv
      simp [nid_matches, hn, hnid] at this
    | some r =>
      simp only [reduceCtorEq, false_iff]
      intro hc
      have hne : lookup_loop forest nid (List.range NSCOUNT) = none := by
        rw [lookup_loop_none]
        intro k hk
        rw [search_none]
        intro v hv
        cases hn : v.ns with
        | none => rfl
        | some n =>
          simp only [nid_matches, beq_eq_false_iff_ne, ne_eq]
          intro e
          exact hc k (List.mem_range.1 hk) ⟨v, hv, n, hn, e⟩
      rw [hne] at hl
      cases hl
  · intro e he
    unfold print_info_lookup at he
    cases hl : lookup_loop forest nid (List.range NSCOUNT) with
    | none => rw [hl] at he; simp only [Except.error.injEq] at he; exact he.symm
    | some r => rw [hl] at he; cases he

theorem print_info_lookup_first_witness :
    (NET < NSCOUNT ∧ search_namespace_tree (demo_final.forest NET) 5 = some []
      ∧ ∀ j, j < NET → search_namespace_tree (demo_final.forest j) 5 = none)
    ∧ print_info_lookup demo_final.forest 5 = .ok (NET, []) :=
  ⟨by decide,
   ((print_info_lookup_first demo_final.forest 5).1 NET []).2 (by decide)⟩

/-! ### When `build_info` fails -/

/-- Rule for a counting loop whose body succeeds under the invariant: the loop runs
to its end. -/
theorem for_loop_total' {σ : Type} (body : Nat → σ → Except Int σ) (P : Nat → σ → Prop)
    (m a : Nat) (s : σ) (h0 : P a s)
    (hstep : ∀ x s, a ≤ x → x < a + m → P x s → ∃ s', body x s = .ok s' ∧ P (x + 1) s') :
    ∃ s', for_loop body (List.range' a m) s = .ok s' ∧ P (a + m) s' := by
  induction m generalizing a s with
  | zero => exact ⟨s, rfl, by simpa using h0⟩
  | succ m ih =>
    obtain ⟨s1, hb, h1⟩ := hstep a s (le_refl a) (by omega) h0
    obtain ⟨s', hl, hP⟩ := ih (a + 1) s1 h1 (fun x t hx1 hx2 => hstep x t (by omega) (by omega))
    refine ⟨s', ?_, by simpa [Nat.add_assoc, Nat.add_comm 1 m] using hP⟩
    simp only [List.range'_succ, for_loop, hb]
    exact hl

theorem for_loop_total {σ : Type} (body : Nat → σ → Except Int σ) (P : Nat → σ → Prop)
    (n : Nat) (s : σ) (h0 : P 0 s)
    (hstep : ∀ x s, x < n → P x s → ∃ s', body x s = .ok s' ∧ P (x + 1) s') :
    ∃ s', for_loop body (List.range n) s = .ok s' ∧ P n s' := by
  rw [List.range_eq_range']
  have := for_loop_total' body P n 0 s h0 (fun x t _ hx => hstep x t (by omega))
  simpa using this

theorem read_maps_user {fs : procfs} {pid : pid_t} (ns0 : namespace_t) :
    (∃ ns, read_maps fs pid USER ns0 = .ok ns) ↔ maps_ok fs pid := by
  unfold read_maps maps_ok
  rw [if_pos rfl]
  cases hu : fs.uid_map pid with
  | none => simp [get_proc_uid_map]
  | some urows =>
    cases hg : fs.gid_map pid with
    | none => simp [get_proc_uid_map, get_proc_gid_map]
    | some grows => simp [get_proc_uid_map, get_proc_gid_map]

/-- The only way in which `read_maps` fails: a map file of a USER namespace cannot be
opened. -/
theorem read_maps_error {fs : procfs} {pid : pid_t} {type : Nat} {ns0 : namespace_t} {e : Int}
    (h : read_maps fs pid type ns0 = .error e) :
    type = USER ∧ ¬ maps_ok fs pid ∧ e = RET_ERR_NOFILE := by
  unfold read_maps at h
  split at h
  · next ht =>
    refine ⟨ht, ?_⟩
    unfold maps_ok
    cases hu : fs.uid_map pid with
    | none =>
      rw [hu] at h
      simp only [get_proc_uid_map, Except.error.injEq] at h
      exact ⟨by simp, h.symm⟩
    | some urows =>
      cases hg : fs.gid_map pid with
      | none =>
        rw [hu, hg] at h
        simp only [get_proc_uid_map, get_proc_gid_map, Except.error.injEq] at h
        exact ⟨by simp, h.symm⟩
      | some grows =>
        rw [hu, hg] at h
        simp [get_proc_uid_map, get_proc_gid_map] at h
  · cases h

theorem read_maps_other {fs : procfs} {pid : pid_t} {type : Nat} (ns : namespace_t)
    (h : type ≠ USER) : read_maps fs pid type ns = .ok ns := by
  unfold read_maps; rw [if_neg h]

/-- A record with the id exists only if a process handled before resolves to it. -/
theorem kind_inv_found {fs : procfs} {S : List process_t} {k i : Nat} {t : tree_t}
    {slot : Nat → Option ino_t} (hinv : kind_inv fs S k i t slot) {nid : ino_t} {path : Path}
    (hs : search_namespace_tree t nid = some path) :
    ∃ a, a < i ∧ fs.get_proc_namespace (process_at S a).pid k = some nid := by
  obtain ⟨h1, h2⟩ := search_some hs
  have hv : (⟨path, (subtree t path).namespace, (subtree t path).depthOf⟩ : Visit)
      ∈ preorder t := (mem_preorder t _).2 ⟨h1, rfl, rfl⟩
  obtain ⟨ns, hn, _, hm, c, hc, _⟩ := hinv.records _ hv
  simp only at hn
  rw [hn] at h2
  have hnid : ns.nid = nid := by simpa [nid_matches] using h2
  have hcm : c ∈ ns.members := List.mem_of_mem_head? hc
  rw [hm, hnid] at hcm
  exact ⟨c, resolved_to_lt hcm⟩

/-- For the process that discovers a namespace the search finds nothing. -/
theorem kind_inv_discovers {fs : procfs} {S : List process_t} {k i : Nat} {t : tree_t}
    {slot : Nat → Option ino_t} (hinv : kind_inv fs S k i t slot) {nid : ino_t}
    (hfirst : ∀ a, a < i → fs.get_proc_namespace (process_at S a).pid k ≠ some nid) :
    search_namespace_tree t nid = none := by
  cases hs : search_namespace_tree t nid with
  | none => rfl
  | some path =>
    obtain ⟨a, ha, hr⟩ := kind_inv_found hinv hs
    exact absurd hr (hfirst a ha)

theorem build_namespace_new_eq {fs : procfs} {i : Nat} {p : Option Nat} {type : Nat}
    {x : info_t} {nid : ino_t}
    (hr : fs.get_proc_namespace (process_at x.process i).pid type = some nid)
    (hs : search_namespace_tree (x.forest type) nid = none) :
    (∃ x', build_namespace fs i p type x = .ok x')
      ↔ ∃ ns, read_maps fs (process_at x.process i).pid type
          { create_empty_namespace with nid := nid, type := type } = .ok ns := by
  unfold build_namespace
  simp only [hr, hs]
  cases read_maps fs (process_at x.process i).pid type
      { create_empty_namespace with nid := nid, type := type } with
  | error e => simp
  | ok ns => simp

/-- A step of the loop over the types succeeds unless it has to create a USER
namespace whose maps cannot be read. -/
theorem build_namespace_total {fs : procfs} {S : List process_t} {i type : Nat} {p : Option Nat}
    {x : info_t} (hS : same_facts S x)
    (hinv : type = USER → kind_inv fs S type i (x.forest type) (slots x type))
    (hread : type = USER → discovers fs S USER i → maps_ok fs (process_at S i).pid) :
    ∃ x', build_namespace fs i p type x = .ok x' := by
  have hpid : (process_at x.process i).pid = (process_at S i).pid :=
    process_at_pid_congr hS.1 i
  cases hr : fs.get_proc_namespace (process_at x.process i).pid type with
  | none => unfold build_namespace; simp only [hr]; exact ⟨_, rfl⟩
  | some nid =>
    cases hs : search_namespace_tree (x.forest type) nid with
    | some path => unfold build_namespace; simp only [hr, hs]; exact ⟨_, rfl⟩
    | none =>
      rw [build_namespace_new_eq hr hs]
      by_cases ht : type = USER
      · subst ht
        rw [read_maps_user, hpid]
        apply hread rfl
        refine ⟨nid, by rw [← hpid]; exact hr, ?_⟩
        intro a ha hra
        obtain ⟨v, hv, hm⟩ := (hinv rfl).present a ha nid hra
        rw [search_none.1 hs v hv] at hm
        cases hm
      · exact ⟨_, read_maps_other _ ht⟩

/-- A step of the loop over the types succeeds when the maps of the process can be
read, should it be in a USER namespace. -/
theorem build_namespace_total_of_maps {fs : procfs} {i type : Nat} {p : Option Nat}
    {x : info_t}
    (hread : type = USER → fs.get_proc_namespace (process_at x.process i).pid USER ≠ none →
      maps_ok fs (process_at x.process i).pid) :
    ∃ x', build_namespace fs i p type x = .ok x' := by
  cases hr : fs.get_proc_namespace (process_at x.process i).pid type with
  | none => unfold build_namespace; simp only [hr]; exact ⟨_, rfl⟩
  | some nid =>
    cases hs : search_namespace_tree (x.forest type) nid with
    | some path => unfold build_namespace; simp only [hr, hs]; exact ⟨_, rfl⟩
    | none =>
      rw [build_namespace_new_eq hr hs]
      by_cases ht : type = USER
      · subst ht
        rw [read_maps_user]
        exact hread rfl (by rw [hr]; simp)
      · exact ⟨_, read_maps_other _ ht⟩

/-- A step of the loop over the types fails only for a process in a USER namespace
with a map file that cannot be opened, and with the status of that read. -/
theorem build_namespace_error {fs : procfs} {i type : Nat} {p : Option Nat} {x : info_t}
    {e : Int} (h : build_namespace fs i p type x = .error e) :
    e = RET_ERR_NOFILE ∧ fs.get_proc_namespace (process_at x.process i).pid USER ≠ none
      ∧ ¬ maps_ok fs (process_at x.process i).pid := by
  unfold build_namespace at h
  cases hr : fs.get_proc_namespace (process_at x.process i).pid type with
  | none => simp only [hr] at h; cases h
  | some nid =>
    simp only [hr] at h
    cases hs : search_namespace_tree (x.forest type) nid with
    | some path => simp only [hs] at h; cases h
    | none =>
      simp only [hs] at h
      cases hm : read_maps fs (process_at x.process i).pid type
          { create_empty_namespace with nid := nid, type := type } with
      | ok ns => simp only [hm] at h; cases h
      | error e' =>
        simp only [hm, Except.error.injEq] at h
        obtain ⟨ht, hno, he⟩ := read_maps_error hm
        subst ht
        exact ⟨h ▸ he, by rw [hr]; simp, hno⟩

/-- A loop that fails does so in one of its passes. -/
theorem for_loop_error {σ : Type} (body : Nat → σ → Except Int σ) (P : σ → Prop)
    (hstep : ∀ x s s', P s → body x s = .ok s' → P s') (l : List Nat) (s : σ) (e : Int)
    (h0 : P s) (h : for_loop body l s = .error e) :
    ∃ x ∈ l, ∃ s0, P s0 ∧ body x s0 = .error e := by
  induction l generalizing s with
  | nil => cases h
  | cons x l ih =>
    simp only [for_loop] at h
    cases hb : body x s with
    | error e' =>
      rw [hb] at h
      simp only [Except.error.injEq] at h
      exact ⟨x, List.mem_cons_self _ _, s, h0, h ▸ hb⟩
    | ok s1 =>
      rw [hb] at h
      obtain ⟨y, hy, s0, hs0, he⟩ := ih s1 (hstep x s s1 h0 hb) h
      exact ⟨y, List.mem_cons_of_mem _ hy, s0, hs0, he⟩

/-- A loop whose passes succeed under an invariant runs to its end. -/
theorem for_loop_ok {σ : Type} (body : Nat → σ → Except Int σ) (P : σ → Prop)
    (l : List Nat) (hstep : ∀ x s, x ∈ l → P s → ∃ s', body x s = .ok s' ∧ P s') (s : σ)
    (h0 : P s) : ∃ s', for_loop body l s = .ok s' ∧ P s' := by
  induction l generalizing s with
  | nil => exact ⟨s, rfl, h0⟩
  | cons x l ih =>
    obtain ⟨s1, hb, h1⟩ := hstep x s (List.mem_cons_self _ _) h0
    obtain ⟨s', hl, hP⟩ := ih (fun y t hy => hstep y t (List.mem_cons_of_mem _ hy)) s1 h1
    exact ⟨s', by simp only [for_loop, hb]; exact hl, hP⟩

/-- A step that succeeded for the process that discovers a USER namespace read
both maps. -/
theorem build_namespace_readable {fs : procfs} {S : List process_t} {i : Nat} {p : Option Nat}
    {x x' : info_t} (hS : same_facts S x)
    (hinv : kind_inv fs S USER i (x.forest USER) (slots x USER))
    (h : build_namespace fs i p USER x = .ok x') (hd : discovers fs S USER i) :
    maps_ok fs (process_at S i).pid := by
  have hpid : (process_at x.process i).pid = (process_at S i).pid :=
    process_at_pid_congr hS.1 i
  obtain ⟨nid, hr, hfirst⟩ := hd
  have hs := kind_inv_discovers hinv hfirst
  rw [← hpid] at hr
  have := (build_namespace_new_eq (p := p) hr hs).1 ⟨x', h⟩
  rw [read_maps_user, hpid] at this
  exact this

theorem types_inv_step {fs : procfs} {S : List process_t} {i t : Nat} {x x' : info_t}
    (hi : i < S.length) (ht : t < NSCOUNT) (hx : types_inv fs S i t x)
    (hb : build_namespace fs i (search_process_list S (process_at S i).ppid) t x = .ok x') :
    types_inv fs S i (t + 1) x' := by
  obtain ⟨hSx, hlt, hge, hNx⟩ := hx
  obtain ⟨h2, h3⟩ := build_namespace_others hSx hb
  refine ⟨h2, ?_, ?_, ?_⟩
  · intro k hk' hint
    by_cases e : k = t
    · subst e
      exact (build_namespace_inv hSx hi hint (hge k (le_refl k) ht hint) hb).1
    · rw [(h3 k e).1, (h3 k e).2]; exact hlt k (by omega) hint
  · intro k hk1 hk2 hint
    have e : k ≠ t := by omega
    rw [(h3 k e).1, (h3 k e).2]; exact hge k (by omega) hk2 hint
  · intro k hk'
    have e : k ≠ t := by omega
    rw [(h3 k e).1]; exact hNx k hk'

theorem types_inv_start {fs : procfs} {S : List process_t} {i : Nat} {x : info_t}
    (hinv : build_inv fs S i x) (p : Option Nat) :
    types_inv fs S i 0
      { x with process := update_process (fun q => { q with parent := p }) i x.process } := by
  obtain ⟨hS, hk, hN⟩ := hinv
  refine ⟨same_facts_update hS (fun q => { q with parent := p }) (fun _ => rfl) (fun _ => rfl)
    i x.forest, fun k hk' => absurd hk' (Nat.not_lt_zero k), ?_, hN⟩
  intro k _ hk' hint
  rw [slots_parent]
  exact hk k hk' hint

theorem build_process_eq {fs : procfs} {S : List process_t} {i : Nat} {x : info_t}
    (hS : same_facts S x) :
    build_process fs i x
      = for_loop (build_namespace fs i (search_process_list S (process_at S i).ppid))
          (List.range NSCOUNT)
          { x with
            process := update_process
              (fun q => { q with parent := search_process_list S (process_at S i).ppid })
              i x.process } := by
  unfold build_process
  have hp : search_process_list x.process (process_at x.process i).ppid
      = search_process_list S (process_at S i).ppid := by
    rw [search_process_list_congr hS.1, process_at_ppid_congr hS.2]
  simp only [hp]

theorem build_process_total {fs : procfs} {S : List process_t} {i : Nat} {x : info_t}
    (hc : clean fs) (hi : i < S.length) (hinv : build_inv fs S i x)
    (hread : discovers fs S USER i → maps_ok fs (process_at S i).pid) :
    ∃ x', build_process fs i x = .ok x' ∧ build_inv fs S (i + 1) x' := by
  rw [build_process_eq hinv.1]
  obtain ⟨x', hl, hP⟩ := for_loop_total
    (build_namespace fs i (search_process_list S (process_at S i).ppid))
    (fun t y => types_inv fs S i t y) NSCOUNT _ (types_inv_start hinv _)
    (fun t y ht hy => by
      obtain ⟨y', hb⟩ := build_namespace_total
        (p := search_process_list S (process_at S i).ppid) hy.1
        (fun _ => hy.2.2.1 t (le_refl t) ht (fun _ => hc)) (fun _ => hread)
      exact ⟨y', hb, types_inv_step hi ht hy hb⟩)
  exact ⟨x', hl, hP.1, fun k hk => hP.2.1 k hk, hP.2.2.2⟩

theorem build_process_readable {fs : procfs} {S : List process_t} {i : Nat} {x x' : info_t}
    (hc : clean fs) (hi : i < S.length) (hinv : build_inv fs S i x)
    (h : build_process fs i x = .ok x')
    (hd : discovers fs S USER i) : maps_ok fs (process_at S i).pid := by
  rw [build_process_eq hinv.1] at h
  have key := for_loop_range
    (build_namespace fs i (search_process_list S (process_at S i).ppid))
    (fun t y => types_inv fs S i t y ∧ (USER < t → maps_ok fs (process_at S i).pid))
    NSCOUNT _ x' ⟨types_inv_start hinv _, fun hc => absurd hc (Nat.not_lt_zero _)⟩
    (fun t y y' ht hy hb => by
      refine ⟨types_inv_step hi ht hy.1 hb, ?_⟩
      intro hlt
      by_cases e : t = USER
      · subst e
        exact build_namespace_readable hy.1.1 (hy.1.2.2.1 USER (le_refl _) ht (fun _ => hc))
          hb hd
      · exact hy.2 (by omega)) h
  exact key.2 (by decide)

theorem build_info_eq (fs : procfs) (info : info_t) (ha : info.args ≠ none)
    (hp : info.process ≠ []) :
    build_info fs (some info)
      = for_loop (build_process fs) (List.range (sort_process_list info.process).length)
          { info with process := sort_process_list info.process } := by
  unfold build_info
  simp only
  rw [if_neg]
  simp only [Bool.or_eq_true, Option.isNone_iff_eq_none, List.isEmpty_iff, not_or]
  exact ⟨ha, hp⟩

theorem build_inv_start {fs : procfs} {info : info_t} (hinit : initial info) :
    build_inv fs (sort_process_list info.process) 0
      { info with process := sort_process_list info.process } := by
  refine ⟨⟨rfl, rfl⟩, fun k _ _ => ?_, fun k _ => hinit.1 k⟩
  show kind_inv fs _ k 0 (info.forest k) _
  rw [hinit.1 k]
  apply kind_inv_init
  intro a
  show (process_at (sort_process_list info.process) a).nsp k = none
  rcases process_at_mem_or (sort_process_list info.process) a with hm | hm
  · exact (hinit.2 _ ((sort_process_list_perm _).subset hm)).2 k
  · rw [hm]; rfl

theorem build_info_ok_args {fs : procfs} {info info' : info_t}
    (h : build_info fs (some info) = .ok info') : info.args ≠ none ∧ info.process ≠ [] := by
  unfold build_info at h
  simp only at h
  split at h
  · cases h
  · next hc =>
    simpa only [Bool.or_eq_true, Option.isNone_iff_eq_none, List.isEmpty_iff, not_or] using hc

/-- Induction over the run of `build_info`, kind by kind: a property of the forest of
a kind and of the links `namespace[k]` that each of the three ways of handling a
process keeps holds at the end. -/
theorem build_info_steps (fs : procfs) {info info' : info_t}
    (Q : Nat → Nat → tree_t → (Nat → Option ino_t) → Prop)
    (hskip : ∀ k i t slot slot', i < (sort_process_list info.process).length → Q k i t slot →
      fs.get_proc_namespace (process_at (sort_process_list info.process) i).pid k = none →
      slot' i = none → (∀ a, a ≠ i → slot' a = slot a) → Q k (i + 1) t slot')
    (hupd : ∀ k i t slot slot' nid path, i < (sort_process_list info.process).length →
      Q k i t slot →
      fs.get_proc_namespace (process_at (sort_process_list info.process) i).pid k = some nid →
      search_namespace_tree t nid = some path →
      slot' i = some nid → (∀ a, a ≠ i → slot' a = slot a) →
      Q k (i + 1) (update_namespace (add_member i) t path) slot')
    (hins : ∀ k i t slot slot' nid ns, i < (sort_process_list info.process).length →
      Q k i t slot →
      fs.get_proc_namespace (process_at (sort_process_list info.process) i).pid k = some nid →
      search_namespace_tree t nid = none →
      ns.type = k → ns.members = [i] → ns.creator = some i →
      ns.creator_pid = (process_at (sort_process_list info.process) i).pid →
      slot' i = some ns.nid → (∀ a, a ≠ i → slot' a = slot a) →
      Q k (i + 1) (insert_namespace_tree t ns) slot')
    (h0 : ∀ k, k < NSCOUNT →
      Q k 0 (info.forest k) (slots { info with process := sort_process_list info.process } k))
    (h : build_info fs (some info) = .ok info') :
    ∀ k, k < NSCOUNT →
      Q k (sort_process_list info.process).length (info'.forest k) (slots info' k) := by
  obtain ⟨ha, hp⟩ := build_info_ok_args h
  rw [build_info_eq fs info ha hp] at h
  have key := for_loop_range (build_process fs)
    (fun i x => same_facts (sort_process_list info.process) x
      ∧ ∀ k, k < NSCOUNT → Q k i (x.forest k) (slots x k))
    (sort_process_list info.process).length _ info' ⟨⟨rfl, rfl⟩, h0⟩ ?_ h
  · exact key.2
  · intro i x x' hi ⟨hS, hQ⟩ hb
    rw [build_process_eq hS] at hb
    generalize search_process_list (sort_process_list info.process)
      (process_at (sort_process_list info.process) i).ppid = pp at hb
    have key2 := for_loop_range (build_namespace fs i pp)
      (fun t y => same_facts (sort_process_list info.process) y
        ∧ (∀ k, k < t → Q k (i + 1) (y.forest k) (slots y k))
        ∧ (∀ k, t ≤ k → k < NSCOUNT → Q k i (y.forest k) (slots y k)))
      NSCOUNT _ x' ?_ ?_ hb
    · exact ⟨key2.1, key2.2.1⟩
    · refine ⟨same_facts_update hS (fun q => { q with parent := pp })
          (fun _ => rfl) (fun _ => rfl) i x.forest,
        fun k hk' => absurd hk' (Nat.not_lt_zero k), ?_⟩
      intro k _ hk'
      rw [slots_parent]
      exact hQ k hk'
    · intro t y y' ht ⟨hSy, hlt, hge⟩ hb'
      obtain ⟨h2, h3⟩ := build_namespace_others hSy hb'
      refine ⟨h2, ?_, ?_⟩
      swap
      · intro k hk1 hk2
        have e : k ≠ t := by omega
        rw [(h3 k e).1, (h3 k e).2]; exact hge k (by omega) hk2
      intro k hk'
      by_cases e : k = t
      swap
      · rw [(h3 k e).1, (h3 k e).2]; exact hlt k (by omega)
      subst e
      have hlen := same_facts_length hSy
      have hpid : (process_at y.process i).pid
          = (process_at (sort_process_list info.process) i).pid :=
        process_at_pid_congr hSy.1 i
      have hq := hge k (le_refl k) ht
      rcases build_namespace_ok hb' with ⟨hr, hf, hp, hargs⟩
          | ⟨nid, path, hr, hs, hf, hp, hargs⟩
          | ⟨nid, ns, hr, hs, h1, h2', h3', h4, h5, h6, hf, hp, hargs⟩
      · have e : y' = { y with process := update_process (set_nsp k none) i y.process,
                                forest := y.forest } := by
          cases y'; simp only at hf hp hargs; subst hf hp hargs; rfl
        rw [hpid] at hr
        subst e
        exact hskip k i _ _ _ hi hq hr (slots_set_nsp_self y k none i (by omega) _)
          (fun a ha => slots_set_nsp_other y k none i a ha _ k)
      · have e : y' = { y with
            process := update_process (set_nsp k (some nid)) i y.process,
            forest := set_forest k (update_namespace (add_member i) (y.forest k) path)
              y.forest } := by
          cases y'; simp only at hf hp hargs; subst hf hp hargs; rfl
        rw [hpid] at hr
        subst e
        show Q k (i + 1) (set_forest k _ y.forest k) _
        rw [set_forest_self]
        exact hupd k i _ _ _ nid path hi hq hr hs
          (slots_set_nsp_self y k _ i (by omega) _)
          (fun a ha => slots_set_nsp_other y k _ i a ha _ k)
      · have e : y' = { y with
            process := update_process (set_nsp k (some ns.nid)) i y.process,
            forest := set_forest k (insert_namespace_tree (y.forest k) ns) y.forest } := by
          cases y'; simp only at hf hp hargs; subst hf hp hargs; rfl
        rw [hpid] at hr h5
        subst e
        show Q k (i + 1) (set_forest k _ y.forest k) _
        rw [set_forest_self]
        exact hins k i _ _ _ nid ns hi hq hr hs h2' h3' h4 h5
          (slots_set_nsp_self y k _ i (by omega) _)
          (fun a ha => slots_set_nsp_other y k _ i a ha _ k)

/-- The forests of the kinds that do not exist stay as they were. -/
theorem build_info_no_kind {fs : procfs} {info info' : info_t}
    (h : build_info fs (some info) = .ok info') (k : Nat) (hk : NSCOUNT ≤ k) :
    info'.forest k = info.forest k := by
  obtain ⟨ha, hp⟩ := build_info_ok_args h
  rw [build_info_eq fs info ha hp] at h
  have key := for_loop_range (build_process fs)
    (fun _ x => x.forest k = info.forest k) _
    { info with process := sort_process_list info.process } info' rfl ?_ h
  · exact key
  · intro i x x' _ hx hb
    unfold build_process at hb
    refine for_loop_range _ (fun _ y => y.forest k = info.forest k) NSCOUNT _ x' hx ?_ hb
    intro t y y' ht hy hb'
    rcases build_namespace_ok hb' with ⟨_, hf, _, _⟩ | ⟨nid, path, _, _, hf, _, _⟩
        | ⟨nid, ns, _, _, _, _, _, _, _, _, hf, _, _⟩
    · rw [hf]; exact hy
    · rw [hf, set_forest_other _ _ _ k (by omega)]; exact hy
    · rw [hf, set_forest_other _ _ _ k (by omega)]; exact hy

/-- After `build_info` the link `namespace[k]` of a process is absent exactly when
the resolver failed for the process and the kind. -/
theorem build_info_slots {fs : procfs} {info info' : info_t}
    (h : build_info fs (some info) = .ok info') {k : Nat} (hk : k < NSCOUNT) {a : Nat}
    (ha : a < (sort_process_list info.process).length) :
    slots info' k a = none
      ↔ fs.get_proc_namespace (process_at (sort_process_list info.process) a).pid k = none := by
  have key := build_info_steps fs
    (fun k i _ slot => ∀ a, a < i → (slot a = none
      ↔ fs.get_proc_namespace (process_at (sort_process_list info.process) a).pid k = none))
    ?_ ?_ ?_ (fun k _ a ha => absurd ha (Nat.not_lt_zero a)) h k hk a ha
  · exact key
  · intro k i t slot slot' _ hq hr hi ho a ha
    by_cases e : a = i
    · subst e; rw [hi, hr]
    · rw [ho a e]; exact hq a (by omega)
  · intro k i t slot slot' nid path _ hq hr _ hi ho a ha
    by_cases e : a = i
    · subst e; simp [hi, hr]
    · rw [ho a e]; exact hq a (by omega)
  · intro k i t slot slot' nid ns _ hq hr _ _ _ _ _ hi ho a ha
    by_cases e : a = i
    · subst e; simp [hi, hr]
    · rw [ho a e]; exact hq a (by omega)

theorem record_inv_add_member {S : List process_t} {k i : Nat} {ns : namespace_t}
    (h : record_inv S k i ns) : record_inv S k (i + 1) (add_member i ns) := by
  obtain ⟨h1, h2, h3, c, h4, h5, h6⟩ := h
  refine ⟨h1, ?_, ?_, c, ?_, h5, h6⟩
  · show (insert_process_list ns.members i).Pairwise (· < ·)
    rw [insert_process_list_eq, List.pairwise_append]
    refine ⟨h2, List.pairwise_singleton _ _, ?_⟩
    intro a ha b hb
    rw [List.mem_singleton.1 hb]
    exact h3 a ha
  · intro a ha
    have ha' : a ∈ insert_process_list ns.members i := ha
    rw [insert_process_list_eq, List.mem_append, List.mem_singleton] at ha'
    rcases ha' with ha' | ha'
    · exact Nat.lt_succ_of_lt (h3 a ha')
    · omega
  · show (insert_process_list ns.members i).head? = some c
    rw [insert_process_list_eq]
    cases hm : ns.members with
    | nil => rw [hm] at h4; simp at h4
    | cons x l => rw [hm] at h4; simpa using h4

theorem record_inv_mono {S : List process_t} {k i : Nat} {ns : namespace_t}
    (h : record_inv S k i ns) : record_inv S k (i + 1) ns := by
  obtain ⟨h1, h2, h3, h4⟩ := h
  exact ⟨h1, h2, fun a ha => Nat.lt_succ_of_lt (h3 a ha), h4⟩

/-- The records of a forest keep their shape when a process is added to one of them. -/
theorem records_update {S : List process_t} {k i : Nat} {t : tree_t}
    (h : ∀ v ∈ preorder t, ∃ ns, v.ns = some ns ∧ record_inv S k i ns) (path : Path) :
    ∀ v ∈ preorder (update_namespace (add_member i) t path),
      ∃ ns, v.ns = some ns ∧ record_inv S k (i + 1) ns := by
  intro v hv
  obtain ⟨w, hw, rfl⟩ := mem_preorder_update.1 hv
  obtain ⟨ns, h1, h2⟩ := h w hw
  rw [update_add_member_ns]
  split
  · exact ⟨add_member i ns, by simp [h1], record_inv_add_member h2⟩
  · exact ⟨ns, h1, record_inv_mono h2⟩

/-- The records of a forest keep their shape when a record is inserted for the
process at hand. -/
theorem records_insert {S : List process_t} {k i : Nat} {t : tree_t}
    (h : ∀ v ∈ preorder t, ∃ ns, v.ns = some ns ∧ record_inv S k i ns) {ns : namespace_t}
    (h1 : ns.type = k) (h2 : ns.members = [i]) (h3 : ns.creator = some i)
    (h4 : ns.creator_pid = (process_at S i).pid) :
    ∀ v ∈ preorder (insert_namespace_tree t ns),
      ∃ n, v.ns = some n ∧ record_inv S k (i + 1) n := by
  intro v hv
  obtain ⟨p, d, hperm, -⟩ := preorder_insert t ns
  rcases List.mem_cons.1 (hperm.subset hv) with e | hv'
  · subst e
    refine ⟨ns, rfl, h1, ?_, ?_, i, ?_, h3, h4⟩
    · rw [h2]; exact List.pairwise_singleton _ _
    · intro a ha
      rw [h2, List.mem_singleton] at ha
      omega
    · rw [h2]; rfl
  · obtain ⟨n, e1, e2⟩ := h v hv'
    exact ⟨n, e1, record_inv_mono e2⟩

/-- After `build_info` every node of every forest has a record; its members are
positions of the sorted list in ascending order, the first of them is the creator,
and `creator_pid` is the pid of that process. -/
theorem build_info_records {fs : procfs} {info info' : info_t} (hinit : initial info)
    (h : build_info fs (some info) = .ok info') (k : Nat) :
    ∀ v ∈ preorder (info'.forest k), ∃ ns, v.ns = some ns
      ∧ record_inv (sort_process_list info.process) k
          (sort_process_list info.process).length ns := by
  by_cases hk : k < NSCOUNT
  · exact build_info_steps fs
      (fun k i t _ => ∀ v ∈ preorder t, ∃ ns, v.ns = some ns
        ∧ record_inv (sort_process_list info.process) k i ns)
      (fun k i t _ _ _ hq _ _ _ v hv => by
        obtain ⟨ns, h1, h2⟩ := hq v hv
        exact ⟨ns, h1, record_inv_mono h2⟩)
      (fun k i t _ _ nid path _ hq _ _ _ _ => records_update hq path)
      (fun k i t _ _ nid ns _ hq _ _ h1 h2 h3 h4 _ _ => records_insert hq h1 h2 h3 h4)
      (fun k _ v hv => by
        rw [hinit.1 k] at hv
        simp [preorder] at hv)
      h k hk
  · rw [build_info_no_kind h k (by omega), hinit.1 k]
    intro v hv
    simp [preorder] at hv

theorem build_process_same_facts {fs : procfs} {S : List process_t} {i : Nat} {x x' : info_t}
    (hS : same_facts S x) (h : build_process fs i x = .ok x') : same_facts S x' := by
  rw [build_process_eq hS] at h
  generalize search_process_list S (process_at S i).ppid = pp at h
  exact for_loop_range (build_namespace fs i pp) (fun _ y => same_facts S y) NSCOUNT _ x'
    (same_facts_update hS (fun q => { q with parent := pp }) (fun _ => rfl) (fun _ => rfl)
      i x.forest)
    (fun t y y' _ hy hb => (build_namespace_others hy hb).1) h

theorem build_process_total_of_maps {fs : procfs} {S : List process_t} {i : Nat} {x : info_t}
    (hS : same_facts S x)
    (hread : fs.get_proc_namespace (process_at S i).pid USER ≠ none →
      maps_ok fs (process_at S i).pid) :
    ∃ x', build_process fs i x = .ok x' ∧ same_facts S x' := by
  rw [build_process_eq hS]
  generalize search_process_list S (process_at S i).ppid = pp
  have hstep : ∀ t y, t ∈ List.range NSCOUNT → same_facts S y →
      ∃ y', build_namespace fs i pp t y = .ok y' ∧ same_facts S y' := by
    intro t y _ hy
    have hpid : (process_at y.process i).pid = (process_at S i).pid :=
      process_at_pid_congr hy.1 i
    obtain ⟨y', hb⟩ := @build_namespace_total_of_maps fs i t pp y (fun _ hr => by
      rw [hpid] at hr ⊢
      exact hread hr)
    exact ⟨y', hb, (build_namespace_others hy hb).1⟩
  exact for_loop_ok (build_namespace fs i pp) (fun y => same_facts S y) (List.range NSCOUNT)
    hstep _
    (same_facts_update hS (fun q => { q with parent := pp }) (fun _ => rfl) (fun _ => rfl)
      i x.forest)

/-- `build_info` succeeds when the maps of every process that is in a USER namespace
can be read. -/
theorem build_info_total {fs : procfs} {info : info_t} (ha : info.args ≠ none)
    (hp : info.process ≠ [])
    (hread : ∀ q ∈ info.process, fs.get_proc_namespace q.pid USER ≠ none → maps_ok fs q.pid) :
    ∃ info', build_info fs (some info) = .ok info' := by
  rw [build_info_eq fs info ha hp]
  have hstep : ∀ i x, i ∈ List.range (sort_process_list info.process).length →
      same_facts (sort_process_list info.process) x →
      ∃ x', build_process fs i x = .ok x' ∧ same_facts (sort_process_list info.process) x' := by
    intro i x hi hS
    have hi' : i < (sort_process_list info.process).length := List.mem_range.1 hi
    have hmem : process_at (sort_process_list info.process) i ∈ info.process :=
      (sort_process_list_perm _).subset (process_at_mem hi')
    exact build_process_total_of_maps hS (hread _ hmem)
  obtain ⟨x', hl, -⟩ := for_loop_ok (build_process fs)
    (fun x => same_facts (sort_process_list info.process) x) _ hstep
    { info with process := sort_process_list info.process } ⟨rfl, rfl⟩
  exact ⟨x', hl⟩

/-- `build_info` with its registry state in place fails only with the status of a
map file that cannot be opened, for a process that is in a USER namespace. -/
theorem build_info_error {fs : procfs} {info : info_t} {e : Int} (ha : info.args ≠ none)
    (hp : info.process ≠ []) (h : build_info fs (some info) = .error e) :
    e = RET_ERR_NOFILE
      ∧ ∃ q ∈ info.process, fs.get_proc_namespace q.pid USER ≠ none ∧ ¬ maps_ok fs q.pid := by
  rw [build_info_eq fs info ha hp] at h
  obtain ⟨i, hi, x, hS, hb⟩ := for_loop_error (build_process fs)
    (fun x => same_facts (sort_process_list info.process) x)
    (fun i x x' hx hb => build_process_same_facts hx hb) _ _ e ⟨rfl, rfl⟩ h
  have hi' : i < (sort_process_list info.process).length := List.mem_range.1 hi
  have hmem : process_at (sort_process_list info.process) i ∈ info.process :=
    (sort_process_list_perm _).subset (process_at_mem hi')
  rw [build_process_eq hS] at hb
  generalize search_process_list (sort_process_list info.process)
    (process_at (sort_process_list info.process) i).ppid = pp at hb
  obtain ⟨t, _, y, hy, hb'⟩ := for_loop_error (build_namespace fs i pp)
    (fun y => same_facts (sort_process_list info.process) y)
    (fun t y y' hy hb => (build_namespace_others hy hb).1) _ _ e
    (same_facts_update hS (fun q => { q with parent := pp }) (fun _ => rfl) (fun _ => rfl)
      i x.forest) hb
  obtain ⟨he, hr, hno⟩ := build_namespace_error hb'
  rw [process_at_pid_congr hy.1 i] at hr hno
  exact ⟨he, _, hmem, hr, hno⟩

/-- C19 as stated fails: a process in a USER namespace whose `uid_map` cannot be
opened makes `build_info` return the status of the failed read. -/
theorem build_info_map_failure :
    build_info demo_nomap_fs (some (mkinfo [mkproc 10 1 "u"])) = .error RET_ERR_NOFILE :=
  rfl

/-- C19 amended. With allocations that succeed, `build_info` fails with
`RET_ERR_PARAM` when the registry state is missing (`info`, `args` or the process
list). Otherwise it succeeds when the map files of every process that is in a USER
namespace can be opened, and it fails only with the status `RET_ERR_NOFILE` of a map
file that cannot be opened, for a process that is in a USER namespace; when no
`gid_map` file has more than one row it fails exactly when a map file cannot be opened
for a process that discovers a USER namespace. A failing resolver never makes it
fail: after a successful build the link of a process for a kind is absent exactly
where the resolver failed, and it is what the resolver gave for every kind whose ids
the map readers leave alone. -/
theorem build_info_failure_policy (fs : procfs) (info : info_t) (hinit : initial info) :
    build_info fs none = .error RET_ERR_PARAM
    ∧ ((info.args = none ∨ info.process = []) →
        build_info fs (some info) = .error RET_ERR_PARAM)
    ∧ (info.args ≠ none → info.process ≠ [] →
        (∀ q ∈ info.process, fs.get_proc_namespace q.pid USER ≠ none → maps_ok fs q.pid) →
        ∃ info', build_info fs (some info) = .ok info')
    ∧ (∀ e, info.args ≠ none → info.process ≠ [] →
        build_info fs (some info) = .error e →
        e = RET_ERR_NOFILE
        ∧ ∃ q ∈ info.process, fs.get_proc_namespace q.pid USER ≠ none ∧ ¬ maps_ok fs q.pid)
    ∧ (clean fs →
        ((∃ info', build_info fs (some info) = .ok info')
          ↔ (info.args ≠ none ∧ info.process ≠ []
              ∧ ∀ i, i < (sort_process_list info.process).length →
                  discovers fs (sort_process_list info.process) USER i →
                  maps_ok fs (process_at (sort_process_list info.process) i).pid)))
    ∧ (∀ info', build_info fs (some info) = .ok info' →
        ∀ a k, a < info'.process.length → k < NSCOUNT →
          ((process_at info'.process a).nsp k = none
            ↔ fs.get_proc_namespace (process_at info'.process a).pid k = none)
          ∧ (intact fs k → (process_at info'.process a).nsp k
              = fs.get_proc_namespace (process_at info'.process a).pid k)) := by
  refine ⟨rfl, ?_, fun ha hp hread => build_info_total ha hp hread,
    fun e ha hp h => build_info_error ha hp h, ?_, ?_⟩
  · intro h
    unfold build_info
    simp only
    rw [if_pos]
    rcases h with h | h
    · simp [h]
    · simp [h]
  · intro hc
    constructor
    · rintro ⟨info', h⟩
      obtain ⟨_, ha, hp⟩ := build_info_inv hinit h
      refine ⟨ha, hp, ?_⟩
      rw [build_info_eq fs info ha hp] at h
      have key := for_loop_range (build_process fs)
        (fun i y => build_inv fs (sort_process_list info.process) i y
          ∧ ∀ a, a < i → discovers fs (sort_process_list info.process) USER a →
              maps_ok fs (process_at (sort_process_list info.process) a).pid)
        _ _ info' ⟨build_inv_start hinit, fun a ha => absurd ha (Nat.not_lt_zero a)⟩
        (fun i y y' hi hy hb => by
          refine ⟨build_process_inv hi hy.1 hb, ?_⟩
          intro a ha hd
          by_cases e : a = i
          · subst e; exact build_process_readable hc hi hy.1 hb hd
          · exact hy.2 a (by omega) hd) h
      exact key.2
    · rintro ⟨ha, hp, hall⟩
      rw [build_info_eq fs info ha hp]
      obtain ⟨x', hl, _⟩ := for_loop_total (build_process fs)
        (fun i y => build_inv fs (sort_process_list info.process) i y) _ _
        (build_inv_start hinit)
        (fun i y hi hy => build_process_total hc hi hy (hall i hi))
      exact ⟨x', hl⟩
  · intro info' h a k ha hk
    obtain ⟨⟨hS, hK, _⟩, _, _⟩ := build_info_inv hinit h
    have hlen := same_facts_length hS
    rw [process_at_pid_congr hS.1 a]
    refine ⟨build_info_slots h hk (by omega), fun hint => ?_⟩
    exact (hK k hk hint).slot_done a (by omega)

theorem build_info_failure_policy_witness :
    (mkinfo demo_user).args ≠ none ∧ (mkinfo demo_user).process ≠ []
    ∧ (∀ q ∈ (mkinfo demo_user).process,
        demo_user_fs.get_proc_namespace q.pid USER = some 9 ∧ maps_ok demo_user_fs q.pid)
    ∧ ∃ info', build_info demo_user_fs (some (mkinfo demo_user)) = .ok info' :=
  ⟨by simp [mkinfo], by simp [mkinfo, demo_user],
   fun _ _ => ⟨rfl, by simp [maps_ok, demo_user_fs]⟩,
   (build_info_failure_policy demo_user_fs (mkinfo demo_user) initial_demo_user).2.2.1
     (by simp [mkinfo]) (by simp [mkinfo, demo_user])
     (fun _ _ _ => by simp [maps_ok, demo_user_fs])⟩

/-! ### The map readers -/

/-- C20. The code at the input of the claim: for a map file with the rows
`(0,1000,1)` and `(1,1001,99999)` and a fresh namespace, `get_proc_uid_map` and
`get_proc_gid_map` do not leave the two rows in slots 0 and 1. Because `i` is
incremented three times per `fscanf` call, the three fields of a row go to three
different slots, and one field of the second row is written behind the array,
whichever order the increments are made in. The store of `get_proc_uid_map` behind
the array is 8 bytes wide (`%ld`) and so covers two fields there. -/
theorem get_proc_uid_map_scatters :
    get_proc_uid_map true (some [(0, 1000, 1), (1, 1001, 99999)])
        create_empty_namespace.uid_map
      = .ok ⟨[⟨0, 0, 0⟩, ⟨0, 1000, 0⟩, ⟨0, 0, 1⟩, ⟨1, 0, 0⟩, ⟨0, 1001, 0⟩],
             [(5, .length, 99999), (6, .inside, 0)]⟩
    ∧ get_proc_uid_map false (some [(0, 1000, 1), (1, 1001, 99999)])
        create_empty_namespace.uid_map
      = .ok ⟨[⟨0, 0, 1⟩, ⟨0, 1000, 0⟩, ⟨0, 0, 0⟩, ⟨0, 0, 99999⟩, ⟨0, 1001, 0⟩],
             [(5, .inside, 1), (5, .outside, 0)]⟩
    ∧ get_proc_gid_map true (some [(0, 1000, 1), (1, 1001, 99999)])
        create_empty_namespace.gid_map
      = .ok ⟨[⟨0, 0, 0⟩, ⟨0, 1000, 0⟩, ⟨0, 0, 1⟩, ⟨1, 0, 0⟩, ⟨0, 1001, 0⟩],
             [(5, .length, 99999)]⟩
    ∧ get_proc_gid_map false (some [(0, 1000, 1), (1, 1001, 99999)])
        create_empty_namespace.gid_map
      = .ok ⟨[⟨0, 0, 1⟩, ⟨0, 1000, 0⟩, ⟨0, 0, 0⟩, ⟨0, 0, 99999⟩, ⟨0, 1001, 0⟩],
             [(5, .inside, 1)]⟩ :=
  ⟨rfl, rfl, rfl, rfl⟩

/-! ### The root of the forest, completeness of the orphaned sequence -/

theorem count_forest_of (l : List namespace_t) :
    count_namespace_tree (forest_of l) = l.length := by
  induction l using List.reverseRecOn with
  | nil => rfl
  | append_singleton l ns ih =>
    rw [forest_of_snoc, count_eq_length_preorder]
    obtain ⟨p, d, hperm, -⟩ := preorder_insert (forest_of l) ns
    rw [hperm.length_eq, List.length_cons, ← count_eq_length_preorder, ih, List.length_append,
      List.length_singleton]

theorem forest_shape_root {t : tree_t} (h : forest_shape t) :
    t.siblingOf = .NULL ∧ t.depthOf = 0
    ∧ ∀ v ∈ preorder t, v.node = [] ∨ ∃ r, v.node = Step.child :: r := by
  cases t with
  | NULL => exact ⟨rfl, rfl, fun v hv => by simp [preorder] at hv⟩
  | node ns d ch sib =>
    obtain ⟨-, hd, hsib, -⟩ := h
    subst hsib
    refine ⟨rfl, hd, fun v hv => ?_⟩
    rcases mem_preorder_node.1 hv with rfl | ⟨w, -, rfl⟩ | ⟨w, hw, -⟩
    · exact Or.inl rfl
    · exact Or.inr ⟨w.node, rfl⟩
    · simp [preorder] at hw

/-- C27. Single root: in the forest built from the empty forest by inserting
`n :: l` in order, the root has no sibling, still holds the first namespace `n` at
depth 0, every node is the root or lies below the child link of the root, and
`count_namespace_tree` of the root is the number of insertions; the forest of every
kind that `build_info` leaves is such a single tree. -/
theorem forest_single_root (n : namespace_t) (l : List namespace_t) :
    forest_of (n :: l) ≠ .NULL
    ∧ (forest_of (n :: l)).siblingOf = .NULL
    ∧ (forest_of (n :: l)).namespace = some n
    ∧ (forest_of (n :: l)).depthOf = 0
    ∧ (∀ v ∈ preorder (forest_of (n :: l)), v.node = [] ∨ ∃ r, v.node = Step.child :: r)
    ∧ count_namespace_tree (forest_of (n :: l)) = (n :: l).length
    ∧ count_namespace_tree (forest_of ([] : List namespace_t)) = 0
    ∧ (∀ (fs : procfs) (info info' : info_t) (k : Nat), initial info →
        build_info fs (some info) = .ok info' →
        (info'.forest k).siblingOf = .NULL
        ∧ ∀ v ∈ preorder (info'.forest k), v.node = [] ∨ ∃ r, v.node = Step.child :: r) := by
  have hs := forest_shape_root (forest_shape_forest_of (n :: l))
  refine ⟨(forest_of_root n l).2, hs.1, (forest_of_root n l).1, hs.2.1, hs.2.2,
    count_forest_of (n :: l), rfl, ?_⟩
  intro fs info info' k hinit h
  obtain ⟨l', hl'⟩ := build_info_reachable hinit h k
  rw [hl']
  have hs' := forest_shape_root (forest_shape_forest_of l')
  exact ⟨hs'.1, hs'.2.2⟩

/-- C25. No orphan is lost or repeated: in a forest built by insertions the
orphaned nodes visited by `print_orphaned_namespaces` are the orphaned nodes of the
forest in pre-order, each visited once; in a tree of another shape, with an orphan
below an orphan of depth 1, the lower orphan is not visited. -/
theorem print_orphaned_complete (l : List namespace_t) :
    (print_orphaned_namespaces (forest_of l)).filter Visit.orphaned
        = (preorder (forest_of l)).filter Visit.orphaned
    ∧ (print_orphaned_namespaces (forest_of l)).Nodup
    ∧ (∀ v ∈ preorder (forest_of l), v.orphaned = true →
        (print_orphaned_namespaces (forest_of l)).count v = 1)
    ∧ (∀ v ∈ print_orphaned_namespaces (forest_of l), v ∈ preorder (forest_of l))
    ∧ (print_orphaned_namespaces
          (.node (some (mkns 1 0 1)) 0
            (.node (some (mkns 2 0 50)) 1
              (.node (some (mkns 3 0 60)) 2 .NULL .NULL) .NULL) .NULL)).filter Visit.orphaned
        ≠ (preorder
          (.node (some (mkns 1 0 1)) 0
            (.node (some (mkns 2 0 50)) 1
              (.node (some (mkns 3 0 60)) 2 .NULL .NULL) .NULL) .NULL)).filter Visit.orphaned := by
  have hf := forest_shape_orphans (forest_shape_forest_of l)
  have hnd : (print_orphaned_namespaces (forest_of l)).Nodup :=
    (print_orphaned_sublist (forest_of l)).nodup (preorder_nodup (forest_of l))
  refine ⟨hf, hnd, ?_, fun v hv => (print_orphaned_sublist (forest_of l)).subset hv, by decide⟩
  intro v hv ho
  have hmem : v ∈ (print_orphaned_namespaces (forest_of l)).filter Visit.orphaned := by
    rw [hf]; exact List.mem_filter.2 ⟨hv, ho⟩
  exact List.count_eq_one_of_mem hnd (List.mem_filter.1 hmem).1

/-! ### `delete_spaces` -/

theorem c_string_append {w : List Nat} (hw : ∀ c ∈ w, c ≠ 0) (u : List Nat) :
    c_string (w ++ u) = w ++ c_string u := by
  induction w with
  | nil => rfl
  | cons a w ih =>
    have ha : a ≠ 0 := hw a (List.mem_cons_self _ _)
    have := ih (fun c hc => hw c (List.mem_cons_of_mem _ hc))
    simp only [c_string] at this ⊢
    simp [List.takeWhile_cons, ha, this]

theorem delete_spaces_loop_spec (u : List Nat) :
    ∀ (w g : List Nat), (∀ c ∈ w, c ≠ 0) → 0 ∈ u →
      ∃ buf, delete_spaces_loop u.length (w ++ g ++ u) (w.length + g.length) w.length = some buf
        ∧ c_string buf = w ++ (c_string u).filter (fun c => !isspace c) := by
  induction u with
  | nil => intro w g _ h0; simp at h0
  | cons c u ih =>
    intro w g hw h0
    have hget : (w ++ g ++ c :: u).get? (w.length + g.length) = some c := by
      rw [← List.length_append, List.get?_eq_getElem?, List.getElem?_append_right (le_refl _)]
      simp
    simp only [List.length_cons, delete_spaces_loop, hget]
    by_cases hc : c = 0
    · subst hc
      refine ⟨(w ++ g ++ 0 :: u).set w.length 0, by simp, ?_⟩
      have hset : ∃ r, (w ++ g ++ 0 :: u).set w.length 0 = w ++ 0 :: r := by
        cases g with
        | nil => exact ⟨u, by simp⟩
        | cons x g =>
          exact ⟨g ++ 0 :: u, by simp⟩
      obtain ⟨r, hr⟩ := hset
      rw [hr, c_string_append hw]
      simp [c_string]
    · have h0u : 0 ∈ u := by
        rcases List.mem_cons.1 h0 with h | h
        · exact absurd h.symm hc
        · exact h
      have hcs : c_string (c :: u) = c :: c_string u := by
        simp [c_string, List.takeWhile_cons, hc]
      simp only [hc, if_false]
      by_cases hsp : isspace c = true
      · simp only [hsp, Bool.not_true, if_false]
        have := ih w (g ++ [c]) hw h0u
        simp only [List.length_append, List.length_singleton, List.append_assoc,
          List.singleton_append, ← Nat.add_assoc] at this
        obtain ⟨buf, hb, hcb⟩ := this
        refine ⟨buf, by simpa [List.append_assoc] using hb, ?_⟩
        rw [hcb, hcs, List.filter_cons]
        simp [hsp]
      · have hsp' : isspace c = false := by simpa using hsp
        simp only [hsp', Bool.not_false, if_true]
        have hw' : ∀ x ∈ w ++ [c], x ≠ 0 := by
          intro x hx
          rcases List.mem_append.1 hx with h | h
          · exact hw x h
          · rw [List.mem_singleton.1 h]; exact hc
        cases g with
        | nil =>
          have := ih (w ++ [c]) [] hw' h0u
          simp only [List.length_append, List.length_singleton, List.append_nil,
            List.length_nil, Nat.add_zero, List.append_assoc, List.singleton_append] at this
          obtain ⟨buf, hb, hcb⟩ := this
          have hset : (w ++ [] ++ c :: u).set w.length c = w ++ c :: u := by
            simp
          refine ⟨buf, by rw [hset]; simpa using hb, ?_⟩
          rw [hcb, hcs, List.filter_cons]
          simp [hsp']
        | cons x g =>
          have := ih (w ++ [c]) (g ++ [c]) hw' h0u
          simp only [List.length_append, List.length_singleton, List.append_assoc,
            List.singleton_append] at this
          obtain ⟨buf, hb, hcb⟩ := this
          have hset : (w ++ x :: g ++ c :: u).set w.length c = w ++ c :: (g ++ c :: u) := by
            simp
          refine ⟨buf, ?_, ?_⟩
          · rw [hset]
            have he : w.length + (x :: g).length + 1 = w.length + 1 + (g.length + 1) := by
              simp only [List.length_cons]; omega
            rw [he]
            simpa using hb
          · rw [hcb, hcs, List.filter_cons]
            simp [hsp']

/-- C24. `delete_spaces` on a buffer that holds a string (the characters `s`, a NUL,
anything behind it) returns, and the string left in the buffer is the old string
without any of its whitespace characters, interior and leading ones included: the
string `"a b\n"` becomes `"ab"`, where deleting the trailing whitespace gives `"a b"`. -/
theorem delete_spaces_deletes_every_space (s rest : List Nat) :
    (∃ buf, delete_spaces (s ++ 0 :: rest) = some buf
      ∧ c_string buf = (c_string (s ++ 0 :: rest)).filter (fun c => !isspace c))
    ∧ delete_spaces [97, 32, 98, 10, 0] = some [97, 98, 0, 10, 0]
    ∧ c_string [97, 98, 0, 10, 0] = [97, 98]
    ∧ trailing_spaces_deleted (c_string [97, 32, 98, 10, 0]) = [97, 32, 98]
    ∧ c_string [97, 98, 0, 10, 0] ≠ trailing_spaces_deleted (c_string [97, 32, 98, 10, 0]) := by
  refine ⟨?_, by decide, by decide, by decide, by decide⟩
  have := delete_spaces_loop_spec (s ++ 0 :: rest) [] [] (by simp) (by simp)
  simpa [delete_spaces] using this

/-! ### The creator of a record -/

theorem head_lt_of_pairwise {l : List Nat} (hl : l.Pairwise (· < ·)) {c a : Nat}
    (hc : l.head? = some c) (ha : a ∈ l) : a = c ∨ c < a := by
  cases l with
  | nil => simp at hc
  | cons x l =>
    have hx : x = c := by simpa using hc
    subst hx
    rcases List.mem_cons.1 ha with h | h
    · exact Or.inl h
    · exact Or.inr ((List.pairwise_cons.1 hl).1 a h)

theorem resolved_to_pairwise (fs : procfs) (S : List process_t) (k : Nat) (nid : ino_t)
    (i : Nat) : (resolved_to fs S k nid i).Pairwise (· < ·) :=
  (List.pairwise_lt_range i).sublist (List.filter_sublist _)

/-- C26. Creator is the first member: after a successful `build_info` every record
in every forest has a first member `c`; `creator` is that process and `creator_pid`
its pid; every member is a process of the list, stands at `c` or behind it and has
a pid that is not below `creator_pid`, and above it when the pids of the registry
are distinct. -/
theorem build_info_creator_first (fs : procfs) (info info' : info_t) (hinit : initial info)
    (h : build_info fs (some info) = .ok info') (k : Nat) :
    ∀ v ∈ preorder (info'.forest k), ∃ ns c, v.ns = some ns
      ∧ ns.members.head? = some c ∧ ns.creator = some c
      ∧ c < info'.process.length
      ∧ (process_at info'.process c).pid = ns.creator_pid
      ∧ (∀ a ∈ ns.members, a < info'.process.length ∧ (a = c ∨ c < a)
          ∧ ns.creator_pid ≤ (process_at info'.process a).pid)
      ∧ ((info.process.map (·.pid)).Nodup → ∀ a ∈ ns.members, a ≠ c →
          ns.creator_pid < (process_at info'.process a).pid) := by
  have hS : same_facts (sort_process_list info.process) info' :=
    ⟨(build_info_parent_links h).1, (build_info_parent_links h).2.1⟩
  intro v hv
  have hlen := same_facts_length hS
  have hpid : ∀ a, (process_at info'.process a).pid
      = (process_at (sort_process_list info.process) a).pid :=
    fun a => process_at_pid_congr hS.1 a
  obtain ⟨ns, h1, -, h2, h3, c, h4, h5, h6⟩ := build_info_records hinit h k v hv
  have hmem : ∀ a ∈ ns.members, a < info'.process.length ∧ (a = c ∨ c < a) := by
    intro a ha
    exact ⟨by rw [hlen]; exact h3 a ha, head_lt_of_pairwise h2 h4 ha⟩
  have hc : c ∈ ns.members := by
    cases hm : ns.members with
    | nil => rw [hm] at h4; simp at h4
    | cons x l =>
      rw [hm] at h4
      have : x = c := by simpa using h4
      rw [this]; exact List.mem_cons_self _ _
  have hsorted := sort_process_list_sorted info.process
  refine ⟨ns, c, h1, h4, h5, (hmem c hc).1, by rw [hpid, h6], ?_, ?_⟩
  · intro a ha
    obtain ⟨hlt, hca⟩ := hmem a ha
    refine ⟨hlt, hca, ?_⟩
    rw [h6, hpid]
    rcases hca with rfl | hca
    · exact le_refl _
    · exact pairwise_process_at hsorted hca (by rw [← hlen]; exact hlt)
  · intro hnd a ha hne
    obtain ⟨hlt, hca⟩ := hmem a ha
    have hca' : c < a := by
      rcases hca with h | h
      · exact absurd h hne
      · exact h
    have hlt' : ((sort_process_list info.process)).Pairwise (fun x y => x.pid < y.pid) := by
      have h2 : ((sort_process_list info.process).map (·.pid)).Nodup :=
        (((sort_process_list_perm info.process).map (·.pid)).nodup_iff).2 hnd
      have h2' : (sort_process_list info.process).Pairwise (fun x y => x.pid ≠ y.pid) := by
        have := h2
        rw [List.Nodup, List.pairwise_map] at this
        exact this
      exact (hsorted.and h2').imp (fun hab => lt_of_le_of_ne hab.1 hab.2)
    rw [h6, hpid]
    exact pairwise_process_at hlt' hca' (by rw [← hlen]; exact hlt)

theorem build_info_creator_first_witness :
    (⟨[], some { create_empty_namespace with
        nid := 100, pnid := 0, creator_pid := 1, type := PID, creator := some 0,
        members := [0, 1, 3] }, 0⟩ : Visit) ∈ preorder (demo_final.forest PID)
    ∧ ∃ ns c, (⟨[], some { create_empty_namespace with
        nid := 100, pnid := 0, creator_pid := 1, type := PID, creator := some 0,
        members := [0, 1, 3] }, 0⟩ : Visit).ns = some ns
      ∧ ns.members.head? = some c ∧ ns.creator = some c
      ∧ c < demo_final.process.length
      ∧ (process_at demo_final.process c).pid = ns.creator_pid
      ∧ (∀ a ∈ ns.members, a < demo_final.process.length ∧ (a = c ∨ c < a)
          ∧ ns.creator_pid ≤ (process_at demo_final.process a).pid)
      ∧ (((mkinfo demo_registry).process.map (·.pid)).Nodup → ∀ a ∈ ns.members, a ≠ c →
          ns.creator_pid < (process_at demo_final.process a).pid) :=
  ⟨by decide,
   build_info_creator_first demo_fs (mkinfo demo_registry) demo_final initial_demo build_demo
      PID _ (by decide)⟩

/-! ### Independence of the order of the registry -/

theorem sorted_lt_of_nodup {l : List process_t} (hs : l.Pairwise (fun a b => a.pid ≤ b.pid))
    (hnd : (l.map (·.pid)).Nodup) : l.Pairwise (fun a b => a.pid < b.pid) := by
  have h2 : l.Pairwise (fun x y => x.pid ≠ y.pid) := by
    rw [List.Nodup, List.pairwise_map] at hnd
    exact hnd
  exact (hs.and h2).imp (fun hab => lt_of_le_of_ne hab.1 hab.2)

theorem sort_process_list_of_perm {l1 l2 : List process_t} (hp : l1.Perm l2)
    (hnd : (l1.map (·.pid)).Nodup) : sort_process_list l1 = sort_process_list l2 := by
  have hnd2 : (l2.map (·.pid)).Nodup := ((hp.map (·.pid)).nodup_iff).1 hnd
  have h1 := sorted_lt_of_nodup (sort_process_list_sorted l1)
    ((((sort_process_list_perm l1).map (·.pid)).nodup_iff).2 hnd)
  have h2 := sorted_lt_of_nodup (sort_process_list_sorted l2)
    ((((sort_process_list_perm l2).map (·.pid)).nodup_iff).2 hnd2)
  have hperm : (sort_process_list l1).Perm (sort_process_list l2) :=
    ((sort_process_list_perm l1).trans hp).trans (sort_process_list_perm l2).symm
  haveI : IsAntisymm process_t (fun a b => a.pid < b.pid) :=
    ⟨fun a b hab hba => absurd hab (lt_asymm hba)⟩
  exact List.eq_of_perm_of_sorted hperm h1 h2

/-- C22. Order independence: for two registries `l1` and `l2` that hold the same
processes in a different order, with pairwise distinct pids, and the same answers of
procfs, `sort_process_list` gives the same list and `build_info` gives the same
result: the same status and, on success, the same state, that is the same process
list with its links and for every kind the same forest with the same records. -/
theorem build_info_order_independent (fs : procfs) (info : info_t) (l1 l2 : List process_t)
    (hperm : l1.Perm l2) (hpids : (l1.map (·.pid)).Nodup) :
    sort_process_list l1 = sort_process_list l2
    ∧ build_info fs (some { info with process := l1 })
      = build_info fs (some { info with process := l2 })
    ∧ ∀ x1 x2, build_info fs (some { info with process := l1 }) = .ok x1 →
        build_info fs (some { info with process := l2 }) = .ok x2 →
        x1.process = x2.process
        ∧ ∀ k, x1.forest k = x2.forest k ∧ preorder (x1.forest k) = preorder (x2.forest k) := by
  have hs := sort_process_list_of_perm hperm hpids
  have he : l1.isEmpty = l2.isEmpty := by
    cases l1 with
    | nil => rw [List.perm_nil.1 hperm.symm]
    | cons a l1 =>
      cases l2 with
      | nil => exact absurd (List.perm_nil.1 hperm) (by simp)
      | cons b l2 => rfl
  have hb : build_info fs (some { info with process := l1 })
      = build_info fs (some { info with process := l2 }) := by
    unfold build_info
    simp only [he, hs]
  refine ⟨hs, hb, ?_⟩
  intro x1 x2 h1 h2
  rw [hb, h2] at h1
  cases h1
  exact ⟨rfl, fun k => ⟨rfl, rfl⟩⟩

theorem build_info_order_independent_witness :
    demo_registry.Perm demo_registry.reverse
    ∧ build_info demo_fs (some { mkinfo [] with process := demo_registry })
      = build_info demo_fs (some { mkinfo [] with process := demo_registry.reverse }) :=
  ⟨(List.reverse_perm demo_registry).symm,
   (build_info_order_independent demo_fs (mkinfo []) demo_registry demo_registry.reverse
      (List.reverse_perm demo_registry).symm (by decide)).2.1⟩

/-! ### The descendants report -/

theorem mem_preorder_subtree (t : tree_t) (nt : Path) (v : Visit) :
    v ∈ preorder (subtree t nt) ↔ Visit.rooted nt v ∈ preorder t := by
  rw [mem_preorder, mem_preorder]
  simp only [Visit.rooted, subtree_append]

theorem no_orphan_subtree {t : tree_t} (h : no_orphan t) (p : Path) : no_orphan (subtree t p) := by
  induction p generalizing t with
  | nil => exact h
  | cons s p ih =>
    cases t with
    | NULL => rw [subtree_NULL]; trivial
    | node ns d ch sib =>
      cases s
      · exact ih h.2.1
      · exact ih h.2.2

theorem level1_subtree {c : tree_t} (h : level1 c) (p : Path) :
    level1 (subtree c p) ∨ no_orphan (subtree c p) := by
  induction p generalizing c with
  | nil => exact Or.inl h
  | cons s p ih =>
    cases c with
    | NULL => rw [subtree_NULL]; exact Or.inl trivial
    | node ns d ch sib =>
      cases s
      · exact Or.inr (no_orphan_subtree h.2.2.1 p)
      · exact ih h.2.2.2

theorem forest_shape_subtree {t : tree_t} (h : forest_shape t) (p : Path) :
    p = [] ∨ level1 (subtree t p) ∨ no_orphan (subtree t p) := by
  cases p with
  | nil => exact Or.inl rfl
  | cons s p =>
    right
    cases t with
    | NULL => rw [subtree_NULL]; exact Or.inl trivial
    | node ns d ch sib =>
      obtain ⟨-, -, hsib, hl⟩ := h
      subst hsib
      cases s
      · exact level1_subtree hl p
      · show level1 (subtree .NULL p) ∨ _
        rw [subtree_NULL]; exact Or.inl trivial

theorem traversals_cover {t : tree_t} (h : forest_shape t) (nt : Path) (v : Visit) :
    (v ∈ print_parented_namespaces (subtree t nt) ∨ v ∈ print_orphaned_namespaces (subtree t nt))
      ↔ v ∈ preorder (subtree t nt) := by
  constructor
  · rintro (hv | hv)
    · exact (print_parented_sublist _).subset hv
    · exact (print_orphaned_sublist _).subset hv
  · intro hv
    cases ho : v.orphaned with
    | false => exact Or.inl (mem_print_parented.2 ⟨hv, ho⟩)
    | true =>
      right
      have hmem : v ∈ (preorder (subtree t nt)).filter Visit.orphaned :=
        List.mem_filter.2 ⟨hv, ho⟩
      rcases forest_shape_subtree h nt with rfl | hl | hn
      · rw [← forest_shape_orphans (t := subtree t []) h] at hmem
        exact (List.mem_filter.1 hmem).1
      · rw [← level1_orphans hl] at hmem
        exact (List.mem_filter.1 hmem).1
      · rw [no_orphan_mem hn hv] at ho
        cases ho

theorem print_info_descendants_some {info : info_t} {args : callargs_t} {p type : Nat}
    {vs : List Visit} (h : print_info_descendants info args p type = some vs) :
    ∃ nid nt, (process_at info.process p).nsp type = some nid
      ∧ search_namespace_tree (info.forest type) nid = some nt
      ∧ vs = (print_parented_namespaces (subtree (info.forest type) nt)
          ++ print_orphaned_namespaces (subtree (info.forest type) nt)).map (Visit.rooted nt) := by
  unfold print_info_descendants at h
  split at h
  · cases h
  · split at h
    · cases h
    · cases h
    · next ns d ch sib nid hf hn =>
      split at h
      · cases h
      · next nt hs =>
        rw [hf]
        exact ⟨nid, nt, hn, hs, (Option.some.inj h).symm⟩

theorem path_extends (nt q : Path) :
    (∃ r, q = nt ++ r)
      ↔ (q = nt ∨ (∃ r, q = nt ++ Step.child :: r) ∨ (∃ r, q = nt ++ Step.sibling :: r)) := by
  constructor
  · rintro ⟨r, rfl⟩
    cases r with
    | nil => exact Or.inl (by simp)
    | cons s r =>
      cases s
      · exact Or.inr (Or.inl ⟨r, rfl⟩)
      · exact Or.inr (Or.inr ⟨r, rfl⟩)
  · rintro (h | ⟨r, h⟩ | ⟨r, h⟩)
    · exact ⟨[], by simp [h]⟩
    · exact ⟨_, h⟩
    · exact ⟨_, h⟩

theorem descendants_reported {t : tree_t} (h : forest_shape t) (nt : Path) (w : Visit) :
    w ∈ (print_parented_namespaces (subtree t nt)
          ++ print_orphaned_namespaces (subtree t nt)).map (Visit.rooted nt)
      ↔ (w ∈ preorder t ∧ (w.node = nt ∨ (∃ r, w.node = nt ++ Step.child :: r)
          ∨ (∃ r, w.node = nt ++ Step.sibling :: r))) := by
  rw [← path_extends, List.mem_map]
  constructor
  · rintro ⟨v, hv, rfl⟩
    rw [List.mem_append, traversals_cover h] at hv
    exact ⟨(mem_preorder_subtree t nt v).1 hv, v.node, rfl⟩
  · rintro ⟨hw, r, hr⟩
    have hrw : Visit.rooted nt { w with node := r } = w := by
      cases w
      simp only [Visit.rooted] at hr ⊢
      simp [hr]
    refine ⟨{ w with node := r }, ?_, hrw⟩
    rw [List.mem_append, traversals_cover h, mem_preorder_subtree, hrw]
    exact hw

/-- C23. Descendants report: for the query `--pid 3 --descendants` on the test
registry the process is in the PID namespace 200, whose node has the later sibling
300; the report for the kind PID holds the node of 200 and the node of 300, which is
neither the node of 200 nor below it. In general, after a successful `build_info`,
the report of a kind that is not skipped holds the nodes reached from the node of the
namespace of the process by child and sibling links: that node, the nodes below it,
and its later siblings with the nodes below them. -/
theorem print_info_descendants_siblings :
    search_process_list demo_final.process demo_args.pid = some 2
    ∧ (process_at demo_final.process 2).nsp PID = some 200
    ∧ search_namespace_tree (demo_final.forest PID) 200 = some [Step.child]
    ∧ print_info_descendants demo_final demo_args 2 PID
      = some [⟨[Step.child], some { create_empty_namespace with
                nid := 200, pnid := 100, creator_pid := 3, type := PID, creator := some 2,
                members := [2] }, 1⟩,
              ⟨[Step.child, Step.sibling], some { create_empty_namespace with
                nid := 300, pnid := 0, creator_pid := 50, type := PID, creator := some 4,
                members := [4] }, 1⟩]
    ∧ ¬ ([Step.child, Step.sibling] = [Step.child]
          ∨ ∃ r, [Step.child, Step.sibling] = [Step.child] ++ Step.child :: r)
    ∧ (∀ (fs : procfs) (info info' : info_t) (args : callargs_t) (p type : Nat)
        (vs : List Visit), initial info → build_info fs (some info) = .ok info' →
        print_info_descendants info' args p type = some vs →
        ∃ nid nt, (process_at info'.process p).nsp type = some nid
          ∧ search_namespace_tree (info'.forest type) nid = some nt
          ∧ ∀ w, w ∈ vs ↔
              (w ∈ preorder (info'.forest type)
                ∧ (w.node = nt ∨ (∃ r, w.node = nt ++ Step.child :: r)
                  ∨ (∃ r, w.node = nt ++ Step.sibling :: r)))) := by
  refine ⟨by decide, by decide, by decide, by decide, by simp, ?_⟩
  intro fs info info' args p type vs hinit h hr
  obtain ⟨nid, nt, hn, hs, rfl⟩ := print_info_descendants_some hr
  obtain ⟨l, hl⟩ := build_info_reachable hinit h type
  refine ⟨nid, nt, hn, hs, fun w => ?_⟩
  exact descendants_reported (hl ▸ forest_shape_forest_of l) nt w

theorem print_info_descendants_siblings_witness :
    ∃ nid nt, (process_at demo_final.process 2).nsp PID = some nid
      ∧ search_namespace_tree (demo_final.forest PID) nid = some nt
      ∧ ∀ w, w ∈ [(⟨[Step.child], some { create_empty_namespace with
                nid := 200, pnid := 100, creator_pid := 3, type := PID, creator := some 2,
                members := [2] }, 1⟩ : Visit),
              ⟨[Step.child, Step.sibling], some { create_empty_namespace with
                nid := 300, pnid := 0, creator_pid := 50, type := PID, creator := some 4,
                members := [4] }, 1⟩] ↔
          (w ∈ preorder (demo_final.forest PID)
            ∧ (w.node = nt ∨ (∃ r, w.node = nt ++ Step.child :: r)
              ∨ (∃ r, w.node = nt ++ Step.sibling :: r))) :=
  print_info_descendants_siblings.2.2.2.2.2 demo_fs (mkinfo demo_registry) demo_final demo_args
    2 PID _ initial_demo build_demo (by decide)

/-! ### The order of the siblings -/

theorem chain_map_namespaces (g : namespace_t → namespace_t) (t : tree_t) :
    chain (map_namespaces g t) = (chain t).map (fun x => (x.1.map g, x.2)) := by
  induction t with
  | NULL => rfl
  | node ns d ch sib _ ih => simp [map_namespaces, chain, ih]

theorem child_list_map_namespaces (g : namespace_t → namespace_t) (t : tree_t) (p : Path) :
    child_list (map_namespaces g t) p = (child_list t p).map (fun x => (x.1.map g, x.2)) := by
  unfold child_list
  rw [subtree_map, childOf_map, chain_map_namespaces]

theorem chain_mem {c : tree_t} {a : Option namespace_t × Nat} (h : a ∈ chain c) :
    ∃ j, subtree c (List.replicate j Step.sibling) ≠ .NULL
      ∧ (subtree c (List.replicate j Step.sibling)).namespace = a.1
      ∧ (subtree c (List.replicate j Step.sibling)).depthOf = a.2 := by
  induction c with
  | NULL => simp [chain] at h
  | node ns d ch sib _ ih =>
    rcases List.mem_cons.1 h with h | h
    · exact ⟨0, by simp [subtree], by simp [subtree, h], by simp [subtree, h]⟩
    · obtain ⟨j, h1, h2, h3⟩ := ih h
      exact ⟨j + 1, by simpa [List.replicate_succ, subtree] using h1,
        by simpa [List.replicate_succ, subtree] using h2,
        by simpa [List.replicate_succ, subtree] using h3⟩

theorem child_list_mem {t : tree_t} {p : Path} {a : Option namespace_t × Nat}
    (h : a ∈ child_list t p) :
    ∃ v ∈ preorder t, v.ns = a.1 ∧ v.depth = a.2
      ∧ ∃ j, v.node = p ++ Step.child :: List.replicate j Step.sibling := by
  obtain ⟨j, h1, h2, h3⟩ := chain_mem h
  have hs : subtree t (p ++ Step.child :: List.replicate j Step.sibling)
      = subtree (subtree t p).childOf (List.replicate j Step.sibling) := by
    rw [subtree_append]; rfl
  refine ⟨⟨p ++ Step.child :: List.replicate j Step.sibling, a.1, a.2⟩, ?_, rfl, rfl, j, rfl⟩
  rw [mem_preorder]
  simp only [hs]
  exact ⟨h1, h2, h3⟩

theorem child_list_NULL {t : tree_t} {p : Path} (h : subtree t p = .NULL) :
    child_list t p = [] := by
  unfold child_list
  rw [h]; rfl

theorem record_creator {S : List process_t} {k i : Nat} {t : tree_t}
    (h : ∀ v ∈ preorder t, ∃ ns, v.ns = some ns ∧ record_inv S k i ns) {v : Visit}
    (hv : v ∈ preorder t) :
    ∃ n c, v.ns = some n ∧ n.creator = some c ∧ c < i
      ∧ n.creator_pid = (process_at S c).pid := by
  obtain ⟨n, h1, -, -, h3, c, h4, h5, h6⟩ := h v hv
  exact ⟨n, c, h1, h5, h3 c (List.mem_of_mem_head? h4), h6⟩

theorem map_update_namespaces {g f : namespace_t → namespace_t} (hgf : ∀ ns, g (f ns) = g ns)
    (t : tree_t) (p : Path) :
    map_namespaces g (update_namespace f t p) = map_namespaces g t := by
  induction t generalizing p with
  | NULL => rw [update_NULL]
  | node ns d ch sib ihc ihs =>
    cases p with
    | nil =>
      simp only [update_namespace, map_namespaces]
      congr 1
      cases ns with
      | none => rfl
      | some n => simp [hgf]
    | cons s p =>
      cases s with
      | child => simp only [update_namespace, map_namespaces, ihc]
      | sibling => simp only [update_namespace, map_namespaces, ihs]

/-- The order of creation looks at the creators of the records only. -/
theorem sibling_order_map {g : namespace_t → namespace_t}
    (hg : ∀ ns, (g ns).creator = ns.creator) (t : tree_t) :
    sibling_order (map_namespaces g t) ↔ sibling_order t := by
  have key : ∀ a b : Option namespace_t × Nat,
      created_before (a.1.map g, a.2) (b.1.map g, b.2) ↔ created_before a b := by
    intro a b
    constructor
    · rintro ⟨n, m, c, d, ha, hb, hc, hd, hlt⟩
      simp only at ha hb
      obtain ⟨a1, a2⟩ := a
      obtain ⟨b1, b2⟩ := b
      simp only at ha hb ⊢
      cases a1 with
      | none => cases ha
      | some n0 =>
        cases b1 with
        | none => cases hb
        | some m0 =>
          simp only [Option.map_some', Option.some.injEq] at ha hb
          subst ha hb
          exact ⟨n0, m0, c, d, rfl, rfl, (hg n0).symm.trans hc, (hg m0).symm.trans hd, hlt⟩
    · rintro ⟨n, m, c, d, ha, hb, hc, hd, hlt⟩
      exact ⟨g n, g m, c, d, by simp [ha], by simp [hb], (hg n).trans hc, (hg m).trans hd,
        hlt⟩
  constructor
  · intro h p
    have := h p
    rw [child_list_map_namespaces, List.pairwise_map] at this
    exact this.imp (fun {a b} hab => (key a b).1 hab)
  · intro h p
    rw [child_list_map_namespaces, List.pairwise_map]
    exact (h p).imp (fun {a b} hab => (key a b).2 hab)

theorem sibling_order_update {t : tree_t} (hQ : sibling_order t) (j : Nat) (path : Path) :
    sibling_order (update_namespace (add_member j) t path) := by
  have key := @sibling_order_map
    (fun ns : namespace_t => ({ create_empty_namespace with creator := ns.creator } : namespace_t))
    (fun _ => rfl)
  rw [← key, @map_update_namespaces
    (fun ns : namespace_t => ({ create_empty_namespace with creator := ns.creator } : namespace_t))
    (add_member j) (fun _ => rfl) t path, key]
  exact hQ

theorem sibling_order_insert {S : List process_t} {k i : Nat} {t : tree_t}
    (hrec : ∀ v ∈ preorder t, ∃ ns, v.ns = some ns ∧ record_inv S k i ns)
    (hQ : sibling_order t) {ns : namespace_t} (hc : ns.creator = some i) :
    sibling_order (insert_namespace_tree t ns) := by
  intro q
  by_cases h : t = .NULL
  · subst h
    cases q with
    | nil => exact List.Pairwise.nil
    | cons s q =>
      show List.Pairwise created_before (child_list (.node (some ns) 0 .NULL .NULL) (s :: q))
      rw [child_list_NULL (subtree_leaf _ _ _ _)]
      exact List.Pairwise.nil
  by_cases hq : subtree t q = .NULL
  · by_cases hq' : subtree (insert_namespace_tree t ns) q = .NULL
    · rw [child_list_NULL hq']; exact List.Pairwise.nil
    · rcases insert_nodes ns h hq' with e | e
      · rw [e, insert_eq_attach ns h,
          child_list_new_leaf _ _ _ _ (insert_parent_valid ns h)]
        exact List.Pairwise.nil
      · exact absurd hq e
  · rw [insert_eq_attach ns h]
    by_cases e : q = insert_parent t ns
    · subst e
      rw [child_list_attach_self _ _ _ _ hq, List.pairwise_append]
      refine ⟨hQ _, List.pairwise_singleton _ _, ?_⟩
      intro a ha b hb
      rw [List.mem_singleton] at hb
      subst hb
      obtain ⟨v, hv, hva, -⟩ := child_list_mem ha
      obtain ⟨n, c, h1, h2, h3, -⟩ := record_creator hrec hv
      exact ⟨n, ns, c, i, hva ▸ h1, rfl, h2, hc, h3⟩
    · have := (subtree_attach_old t (insert_parent t ns)
        (.node (some ns) ((subtree t (insert_parent t ns)).depthOf + 1) .NULL .NULL) q hq).2.2.2 e
      unfold child_list
      rw [this]
      exact hQ q

/-- After `build_info` every child list of every forest is in the order of creation. -/
theorem build_info_created_order {fs : procfs} {info info' : info_t} (hinit : initial info)
    (h : build_info fs (some info) = .ok info') (k : Nat) :
    sibling_order (info'.forest k) := by
  have hnull : sibling_order .NULL := fun q => by
    rw [child_list_NULL (subtree_NULL q)]; exact List.Pairwise.nil
  by_cases hk : k < NSCOUNT
  · exact (build_info_steps fs
      (fun k i t _ => (∀ v ∈ preorder t, ∃ ns, v.ns = some ns
        ∧ record_inv (sort_process_list info.process) k i ns) ∧ sibling_order t)
      (fun k i t _ _ _ hq _ _ _ => ⟨fun v hv => by
        obtain ⟨ns, h1, h2⟩ := hq.1 v hv
        exact ⟨ns, h1, record_inv_mono h2⟩, hq.2⟩)
      (fun k i t _ _ nid path _ hq _ _ _ _ =>
        ⟨records_update hq.1 path, sibling_order_update hq.2 i path⟩)
      (fun k i t _ _ nid ns _ hq _ _ h1 h2 h3 h4 _ _ =>
        ⟨records_insert hq.1 h1 h2 h3 h4, sibling_order_insert hq.1 hq.2 h3⟩)
      (fun k _ => by
        rw [hinit.1 k]
        exact ⟨fun v hv => by simp [preorder] at hv, hnull⟩)
      h k hk).2
  · rw [build_info_no_kind h k (by omega), hinit.1 k]
    exact hnull

/-- C21. Sibling order: after a successful `build_info` on a registry with distinct
pids, every node of a child list has a record, and along every child list of every
forest the records were created for processes that stand in ascending order in the
sorted list, which is the order in which the namespaces were discovered; the values
of `creator_pid` along the child list are strictly ascending. -/
theorem build_info_sibling_order (fs : procfs) (info info' : info_t) (hinit : initial info)
    (h : build_info fs (some info) = .ok info')
    (hpids : (info.process.map (·.pid)).Nodup) (k : Nat) (p : Path) :
    (child_list (info'.forest k) p).Pairwise
      (fun a b => ∃ n m c d, a.1 = some n ∧ b.1 = some m ∧ n.creator = some c
        ∧ m.creator = some d ∧ c < d ∧ n.creator_pid < m.creator_pid)
    ∧ (∀ a ∈ child_list (info'.forest k) p, ∃ n, a.1 = some n)
    ∧ ((child_list (info'.forest k) p).filterMap
        (fun a => a.1.map (·.creator_pid))).Pairwise (· < ·) := by
  have hinv := build_info_records hinit h k
  have hQ : sibling_order (info'.forest k) := build_info_created_order hinit h k
  have hlt := sorted_lt_of_nodup (sort_process_list_sorted info.process)
    ((((sort_process_list_perm info.process).map (·.pid)).nodup_iff).2 hpids)
  have h1 : (child_list (info'.forest k) p).Pairwise
      (fun a b => ∃ n m c d, a.1 = some n ∧ b.1 = some m ∧ n.creator = some c
        ∧ m.creator = some d ∧ c < d ∧ n.creator_pid < m.creator_pid) := by
    refine (hQ p).imp_of_mem ?_
    rintro a b ha hb ⟨n, m, c, d, han, hbm, hc, hd, hcd⟩
    obtain ⟨v, hv, hva, -⟩ := child_list_mem ha
    obtain ⟨w, hw, hwb, -⟩ := child_list_mem hb
    obtain ⟨n', c', e1, e2, -, e4⟩ := record_creator hinv hv
    obtain ⟨m', d', f1, f2, f3, f4⟩ := record_creator hinv hw
    have en : n' = n := Option.some.inj (e1.symm.trans (hva.trans han))
    have em : m' = m := Option.some.inj (f1.symm.trans (hwb.trans hbm))
    subst en em
    have ec : c' = c := Option.some.inj (e2.symm.trans hc)
    have ed : d' = d := Option.some.inj (f2.symm.trans hd)
    subst ec ed
    refine ⟨n', m', c', d', han, hbm, hc, hd, hcd, ?_⟩
    rw [e4, f4]
    exact pairwise_process_at hlt hcd f3
  have h2 : ∀ a ∈ child_list (info'.forest k) p, ∃ n, a.1 = some n := by
    intro a ha
    obtain ⟨v, hv, hva, -⟩ := child_list_mem ha
    obtain ⟨n, -, e1, -⟩ := record_creator hinv hv
    exact ⟨n, hva ▸ e1⟩
  refine ⟨h1, h2, ?_⟩
  rw [List.pairwise_filterMap]
  refine h1.imp ?_
  rintro a b ⟨n, m, c, d, han, hbm, -, -, -, hlt'⟩ x hx y hy
  rw [han] at hx
  rw [hbm] at hy
  simp only [Option.map_some', Option.mem_def, Option.some.injEq] at hx hy
  rw [← hx, ← hy]
  exact hlt'

theorem build_info_sibling_order_witness :
    (child_list (demo_final.forest PID) []).filterMap (fun a => a.1.map (·.creator_pid))
        = [3, 50]
    ∧ (child_list (demo_final.forest PID) []).Pairwise
      (fun a b => ∃ n m c d, a.1 = some n ∧ b.1 = some m ∧ n.creator = some c
        ∧ m.creator = some d ∧ c < d ∧ n.creator_pid < m.creator_pid)
    ∧ (∀ a ∈ child_list (demo_final.forest PID) [], ∃ n, a.1 = some n)
    ∧ ((child_list (demo_final.forest PID) []).filterMap
        (fun a => a.1.map (·.creator_pid))).Pairwise (· < ·) :=
  ⟨by decide,
   build_info_sibling_order demo_fs (mkinfo demo_registry) demo_final initial_demo build_demo
      (by decide) PID []⟩

/-! ### The ids of the USER records -/

theorem build_demo_user :
    build_info demo_user_fs (some (mkinfo demo_user)) = .ok demo_user_final := by
  rfl

theorem build_demo_chain :
    build_info demo_chain_fs (some (mkinfo demo_chain)) = .ok demo_chain_final := by
  rfl

/-- C1. Uniqueness: for the registry of the two processes 10 and 11 that both resolve
the kind USER to 9, with `uid_map` and `gid_map` files of the two rows `(0,1000,1)`
and `(1,1001,99999)`, `build_info` succeeds and leaves two nodes in the USER forest
that both carry the id 1 (the facts of a node are its place, `nid`, `pnid`,
`creator_pid`, the positions of the members, and the depth): the second `fscanf` of
`get_proc_gid_map` stores behind `ns->gid_map`, on `ns->nid`, so the search for 9
finds nothing when the second process is handled. In general, after a successful
`build_info` every node has a record, a step adds a node only when the search for the
resolved id over the forest of the kind found nothing, and two nodes with the same id
are the same node for every kind whose ids the map readers leave alone (every kind
but USER, and USER when no `gid_map` file has more than one row). -/
theorem build_info_unique_nid :
    build_info demo_user_fs (some (mkinfo demo_user)) = .ok demo_user_final
    ∧ (preorder (demo_user_final.forest USER)).map Visit.facts
        = [([], some (1, 0, 10, [0]), 0), ([Step.child], some (1, 0, 11, [1]), 1)]
    ∧ ¬ (∀ v ∈ preorder (demo_user_final.forest USER),
          ∀ w ∈ preorder (demo_user_final.forest USER),
            v.ns.map (·.nid) = w.ns.map (·.nid) → v = w)
    ∧ (∀ (fs : procfs) (info info' : info_t) (k : Nat), initial info →
        build_info fs (some info) = .ok info' →
        (∀ v ∈ preorder (info'.forest k), ∃ ns, v.ns = some ns)
        ∧ (intact fs k →
            ∀ v ∈ preorder (info'.forest k), ∀ w ∈ preorder (info'.forest k),
              v.ns.map (·.nid) = w.ns.map (·.nid) → v = w)
        ∧ (∀ (i : Nat) (p : Option Nat) (type : Nat) (x x' : info_t),
            build_namespace fs i p type x = .ok x' →
            count_namespace_tree (x'.forest type) ≠ count_namespace_tree (x.forest type) →
            ∃ nid, fs.get_proc_namespace (process_at x.process i).pid type = some nid
              ∧ search_namespace_tree (x.forest type) nid = none)) := by
  refine ⟨rfl, rfl, by decide, ?_⟩
  intro fs info info' k hinit h
  refine ⟨fun v hv => ?_, fun hint => unique_of_intact hinit h hint,
    fun i p type x x' hx hc => build_namespace_inserts hx hc⟩
  obtain ⟨ns, h1, -⟩ := build_info_records hinit h k v hv
  exact ⟨ns, h1⟩

theorem build_info_unique_nid_witness :
    intact demo_fs PID
    ∧ ∀ v ∈ preorder (demo_final.forest PID), ∀ w ∈ preorder (demo_final.forest PID),
        v.ns.map (·.nid) = w.ns.map (·.nid) → v = w :=
  ⟨fun e => absurd e (by decide),
   (build_info_unique_nid.2.2.2 demo_fs (mkinfo demo_registry) demo_final PID initial_demo
      build_demo).2.1 (fun e => absurd e (by decide))⟩

/-- C8. Membership: for the registry of the two processes 10 and 11 that both resolve
the kind USER to 9, with `uid_map` and `gid_map` files of the two rows `(0,1000,1)`
and `(1,1001,99999)`, `build_info` succeeds and leaves two USER records, one with the
member at position 0 (pid 10) and one with the member at position 1 (pid 11); no
record has the id 9, and the link `namespace[USER]` of both processes leads to a
record with the id 1. The store of `get_proc_gid_map` behind `ns->gid_map` overwrote
`ns->nid`. In general, after a successful `build_info` on a registry with distinct
pids, for a kind `k` whose ids the map readers leave alone and an id `n` that some
process resolves to, exactly one node of the forest of kind `k` has id `n`; the
members of its record are the processes that resolve kind `k` to `n`, each once, in
ascending pid order; the link `namespace[k]` of each of them is that record, which is
the one the search finds. -/
theorem build_info_members :
    build_info demo_user_fs (some (mkinfo demo_user)) = .ok demo_user_final
    ∧ (∀ q ∈ demo_user, demo_user_fs.get_proc_namespace q.pid USER = some 9)
    ∧ (preorder (demo_user_final.forest USER)).map Visit.facts
        = [([], some (1, 0, 10, [0]), 0), ([Step.child], some (1, 0, 11, [1]), 1)]
    ∧ search_namespace_tree (demo_user_final.forest USER) 9 = none
    ∧ demo_user_final.process.map (fun q => (q.pid, q.nsp USER))
        = [(10, some 1), (11, some 1)]
    ∧ (∀ (fs : procfs) (info info' : info_t), initial info →
        build_info fs (some info) = .ok info' →
        (info.process.map (·.pid)).Nodup → ∀ (k : Nat), k < NSCOUNT → intact fs k →
        ∀ (n : ino_t) (q : process_t), q ∈ info.process →
        fs.get_proc_namespace q.pid k = some n →
        ∃ v ns, (preorder (info'.forest k)).filter (fun w => nid_matches w.ns n) = [v]
          ∧ v.ns = some ns ∧ ns.nid = n ∧ ns.type = k
          ∧ search_namespace_tree (info'.forest k) n = some v.node
          ∧ ns.members.map (fun a => (process_at info'.process a).pid)
              = ((sort_process_list info.process).map (·.pid)).filter
                  (fun pid => fs.get_proc_namespace pid k == some n)
          ∧ (ns.members.map (fun a => (process_at info'.process a).pid)).Pairwise (· < ·)
          ∧ ns.members.Nodup
          ∧ (∀ a, a < info'.process.length →
              (a ∈ ns.members
                ↔ fs.get_proc_namespace (process_at info'.process a).pid k = some n))
          ∧ (∀ a ∈ ns.members, (process_at info'.process a).nsp k = some n)) := by
  refine ⟨rfl, by decide, rfl, by decide, by decide, ?_⟩
  intro fs info info' hinit h hpids k hk hint n q hq hqn
  exact members_of_intact fs info info' hinit h hpids k hk hint n q hq hqn

theorem build_info_members_witness :
    ∃ v ns, (preorder (demo_final.forest PID)).filter (fun w => nid_matches w.ns 100) = [v]
      ∧ v.ns = some ns ∧ ns.nid = 100 ∧ ns.type = PID
      ∧ search_namespace_tree (demo_final.forest PID) 100 = some v.node
      ∧ ns.members.map (fun a => (process_at demo_final.process a).pid)
          = ((sort_process_list (mkinfo demo_registry).process).map (·.pid)).filter
              (fun pid => demo_fs.get_proc_namespace pid PID == some 100)
      ∧ (ns.members.map (fun a => (process_at demo_final.process a).pid)).Pairwise (· < ·)
      ∧ ns.members.Nodup
      ∧ (∀ a, a < demo_final.process.length →
          (a ∈ ns.members
            ↔ demo_fs.get_proc_namespace (process_at demo_final.process a).pid PID = some 100))
      ∧ (∀ a ∈ ns.members, (process_at demo_final.process a).nsp PID = some 100) :=
  build_info_members.2.2.2.2.2 demo_fs (mkinfo demo_registry) demo_final initial_demo
    build_demo (by decide) PID (by decide) (fun e => absurd e (by decide)) 100
    (mkproc 2 1 "child") (by simp [mkinfo, demo_registry]) (by decide)

/-- C9. New-namespace attributes: for the registry of the two processes 10 and 11 that
both resolve the kind USER to 9, with `uid_map` and `gid_map` files of the two rows
`(0,1000,1)` and `(1,1001,99999)`, `build_info` succeeds, the process 10 at position 0
is the first to resolve the kind USER to 9, and the record created for it has the id
1, as has every record of the USER forest: the store of `get_proc_gid_map` behind
`ns->gid_map` overwrote `ns->nid`. In general, for a kind `k` whose ids the map
readers leave alone, when the process `P` at position `i` of the sorted list is the
first to resolve kind `k` to `n`, the record created for it has `nid = n`,
`type = k`, `creator_pid = P.pid`, creator `P`, and `P` as first member; its `pnid`
is the kind-`k` id of the parent of `P` when that parent is in the list and had a
kind-`k` namespace when the record was created (it stands before `P` and its id
resolves), and 0 otherwise. A process whose ppid is not in the list and whose pid is
not 1 gives `pnid = 0` and an orphaned record. -/
theorem build_info_new_namespace :
    build_info demo_user_fs (some (mkinfo demo_user)) = .ok demo_user_final
    ∧ (process_at (sort_process_list (mkinfo demo_user).process) 0).pid = 10
    ∧ demo_user_fs.get_proc_namespace 10 USER = some 9
    ∧ (preorder (demo_user_final.forest USER)).map Visit.facts
        = [([], some (1, 0, 10, [0]), 0), ([Step.child], some (1, 0, 11, [1]), 1)]
    ∧ (∀ v ∈ preorder (demo_user_final.forest USER), v.ns.map (·.nid) ≠ some 9)
    ∧ (∀ (fs : procfs) (info info' : info_t), initial info →
        build_info fs (some info) = .ok info' → ∀ (k : Nat), k < NSCOUNT → intact fs k →
        ∀ (i : Nat), i < (sort_process_list info.process).length → ∀ (n : ino_t),
        fs.get_proc_namespace (process_at (sort_process_list info.process) i).pid k = some n →
        (∀ a, a < i →
          fs.get_proc_namespace (process_at (sort_process_list info.process) a).pid k
            ≠ some n) →
        ∃ v ∈ preorder (info'.forest k), ∃ ns, v.ns = some ns ∧ ns.nid = n ∧ ns.type = k
          ∧ ns.creator_pid = (process_at (sort_process_list info.process) i).pid
          ∧ ns.creator = some i ∧ ns.members.head? = some i
          ∧ ns.pnid =
              (match search_process_list (sort_process_list info.process)
                  (process_at (sort_process_list info.process) i).ppid with
                | some j =>
                  if j < i then
                    (fs.get_proc_namespace (process_at (sort_process_list info.process) j).pid
                      k).getD 0
                  else 0
                | none => 0)
          ∧ (search_process_list (sort_process_list info.process)
                (process_at (sort_process_list info.process) i).ppid = none →
              (process_at (sort_process_list info.process) i).pid ≠ 1 →
              ns.pnid = 0 ∧ is_orphaned_namespace (some ns) = 1)) := by
  refine ⟨rfl, by decide, by decide, rfl, by decide, ?_⟩
  intro fs info info' hinit h k hk hint i hi n hr hfirst
  exact new_namespace_of_intact fs info info' hinit h k hk hint i hi n hr hfirst

theorem build_info_new_namespace_witness :
    ∃ v ∈ preorder (demo_final.forest NET), ∃ ns, v.ns = some ns ∧ ns.nid = 7 ∧ ns.type = NET
      ∧ ns.creator_pid = 50 ∧ ns.creator = some 4 ∧ ns.members.head? = some 4
      ∧ ns.pnid = 0
      ∧ (search_process_list (sort_process_list (mkinfo demo_registry).process) 49 = none →
          (50 : pid_t) ≠ 1 → ns.pnid = 0 ∧ is_orphaned_namespace (some ns) = 1) :=
  build_info_new_namespace.2.2.2.2.2 demo_fs (mkinfo demo_registry) demo_final initial_demo
    build_demo NET (by decide) (fun e => absurd e (by decide)) 4 (by decide) 7 (by decide)
    (by decide)

/-- C10. Child namespace placement: for the registry of the processes 1, 2 and 3, each
the parent of the next, that resolve the kind USER to 5, 9 and 10, with `uid_map` and
`gid_map` files of the two rows `(0,1000,1)` and `(1,1001,99999)`, `build_info`
succeeds; the parent 2 of the process 3 has the smaller pid and resolves the kind
USER to 9, and the process 3 is the first to resolve it to 10. The USER forest has no
node with the id 9 or 10: all three records carry the id 1, and the node created for
the process 3 is not a child of the node created for the process 2 but its sibling,
at the same depth 1, below the node created for the process 1, which the search for
the parent id 1 finds first. The store of `get_proc_gid_map` behind `ns->gid_map`
overwrote `ns->nid`. In general, for a kind `k` whose ids the map readers leave
alone, if the parent `Q` of process `P` is in the list with a smaller pid and
resolves kind `k` to a non-zero id `m`, and `P` is the first process that resolves
kind `k` to `n`, then in the forest of kind `k` the node of `n` lies in the child
chain of the node of `m` and is stored one level deeper. -/
theorem build_info_child_placement :
    build_info demo_chain_fs (some (mkinfo demo_chain)) = .ok demo_chain_final
    ∧ demo_chain_final.process.map (fun q => (q.pid, q.ppid, q.parent))
        = [(1, 0, none), (2, 1, some 0), (3, 2, some 1)]
    ∧ demo_chain_fs.get_proc_namespace 2 USER = some 9
    ∧ demo_chain_fs.get_proc_namespace 3 USER = some 10
    ∧ (preorder (demo_chain_final.forest USER)).map Visit.facts
        = [([], some (1, 0, 1, [0]), 0), ([Step.child], some (1, 1, 2, [1]), 1),
           ([Step.child, Step.sibling], some (1, 1, 3, [2]), 1)]
    ∧ search_namespace_tree (demo_chain_final.forest USER) 9 = none
    ∧ search_namespace_tree (demo_chain_final.forest USER) 10 = none
    ∧ (∀ (fs : procfs) (info info' : info_t), initial info →
        build_info fs (some info) = .ok info' → ∀ (k : Nat), k < NSCOUNT → intact fs k →
        ∀ (i j : Nat), i < (sort_process_list info.process).length → ∀ (n m : ino_t),
        search_process_list (sort_process_list info.process)
          (process_at (sort_process_list info.process) i).ppid = some j →
        (process_at (sort_process_list info.process) j).pid
          < (process_at (sort_process_list info.process) i).pid →
        fs.get_proc_namespace (process_at (sort_process_list info.process) j).pid k = some m →
        m ≠ 0 →
        fs.get_proc_namespace (process_at (sort_process_list info.process) i).pid k = some n →
        (∀ a, a < i →
          fs.get_proc_namespace (process_at (sort_process_list info.process) a).pid k
            ≠ some n) →
        ∃ pm pn, search_namespace_tree (info'.forest k) m = some pm
          ∧ search_namespace_tree (info'.forest k) n = some pn
          ∧ (∃ c, pn = pm ++ Step.child :: List.replicate c Step.sibling)
          ∧ (subtree (info'.forest k) pn).depthOf
              = (subtree (info'.forest k) pm).depthOf + 1) := by
  refine ⟨rfl, by decide, by decide, by decide, rfl, by decide, by decide, ?_⟩
  intro fs info info' hinit h k hk hint i j hi n m hparent hlt hm hm0 hr hfirst
  exact child_placement_of_intact fs info info' hinit h k hk hint i j hi n m hparent hlt hm
    hm0 hr hfirst

theorem build_info_child_placement_witness :
    ∃ pm pn, search_namespace_tree (demo_final.forest PID) 100 = some pm
      ∧ search_namespace_tree (demo_final.forest PID) 200 = some pn
      ∧ (∃ c, pn = pm ++ Step.child :: List.replicate c Step.sibling)
      ∧ (subtree (demo_final.forest PID) pn).depthOf
          = (subtree (demo_final.forest PID) pm).depthOf + 1 :=
  build_info_child_placement.2.2.2.2.2.2.2 demo_fs (mkinfo demo_registry) demo_final
    initial_demo build_demo PID (by decide) (fun e => absurd e (by decide)) 2 1 (by decide)
    200 100 (by decide) (by decide) (by decide) (by decide) (by decide) (by decide)

end Nscat
